import Mathlib

/-
  Verification development for the dependency-aware task layer in
  src/task.hpp and src/test_suite.cpp (namespace mt).

  The C++ code is shallowly embedded as follows.

  * `Handle` mirrors `mt::impl::task_handle_rec`: the `state` field, the
    `dependencies_left` counter, the `submit_task` function object (we only
    track whether it is set; the closure it holds is determined by the task
    the handle belongs to), and the `dependents` list (task ids stand in for
    `shared_ptr` edges).

  * The private methods of `task_handle_rec` become pure functions from the
    handle record to an `Option` of the updated record (`none` models a
    failed `assert` or a call through an empty `std::function`, both of
    which abort the program, so no further transition exists).  A returned
    `Bool` reports whether `submit_task` was invoked (`enqueue`), i.e.
    whether the task was handed to the thread pool.

  * `size_t` counters are modelled as unbounded `Nat`.  `++` and `--` on
    `size_t` wrap at 2^64; in this program a wrap could only occur if a
    handle accumulated 2^64 registrations, or if `remove_dependency` were
    invoked more often than dependencies were registered.  The invariants
    proved below show notifications never outnumber registrations in any
    reachable configuration, so the unbounded model agrees with the wrapped
    one on every reachable configuration.

  * Concurrency is modelled by a small-step interpreter `stepFn` over a
    global `Config`: the submitting thread executes a compiled list of
    instructions (`MInstr`, produced by `compileProg` which mirrors the
    bodies of `mt::submit` and `mt::task_group::submit`), while pool workers
    advance in-flight tasks through the phases of the dispatch closure
    `(*f)(); th->finish(); [group post action]`.  A scheduling choice is an
    `Act`; executions are arbitrary lists of `Act`.  The thread pool is the
    multiset `pool`; a worker may pick any pending item, which
    over-approximates every pool size.  Each handle method executes under
    the handle mutex in the C++ code, hence atomically here.

  * The trace field records observable events (ghost data): callable start
    and return, result publication, dependency registration, notification,
    and the task-group counter operations.  Temporal claims are stated as
    positional properties of the trace.
-/

namespace TaskModel

/-- The four states of `task_handle_rec::State`. -/
inductive HState where
  | preparing
  | waiting
  | submitted
  | finished
deriving DecidableEq, Repr, Inhabited

/-- `mt::impl::task_handle_rec`: one vertex of the dependency graph.
`submitTask` records whether the `submit_task` function object is non-empty;
`dependents` holds the ids of the registered dependent tasks. -/
@[ext] structure Handle where
  state : HState
  dependenciesLeft : Nat
  submitTask : Bool
  dependents : List Nat
deriving DecidableEq, Repr, Inhabited

/-- The constructor `task_handle_rec()`: state PREPARING, no dependencies,
no submit function, no dependents. -/
def Handle.init : Handle :=
  { state := .preparing, dependenciesLeft := 0, submitTask := false, dependents := [] }

/-- `task_handle_rec::set_submit_task`: assert PREPARING and no function set,
then store the function. -/
def Handle.setSubmitTask (h : Handle) : Option Handle :=
  if h.state = .preparing ∧ h.submitTask = false then
    some { h with submitTask := true }
  else
    none

/-- `task_handle_rec::add_dependent`: if FINISHED return false, else append
the dependent and return true.  (Runs under the prerequisite handle mutex.) -/
def Handle.addDependent (h : Handle) (t : Nat) : Handle × Bool :=
  if h.state = .finished then
    (h, false)
  else
    ({ h with dependents := h.dependents ++ [t] }, true)

/-- `task_handle_rec::enqueue`: invoke `submit_task`, clear it, set SUBMITTED.
The invocation itself is reported to the caller (it appends the task to the
pool); a cleared `submit_task` would raise `bad_function_call`, modelled by
the caller guarding on `submitTask`. -/
def Handle.enqueue (h : Handle) : Handle :=
  { h with submitTask := false, state := .submitted }

/-- `task_handle_rec::finish_preparation`: assert PREPARING; dispatch when no
dependencies are left, otherwise go to WAITING.  The returned flag reports
whether `enqueue` ran (the task was handed to the pool). -/
def Handle.finishPreparation (h : Handle) : Option (Handle × Bool) :=
  if h.state = .preparing then
    if h.dependenciesLeft = 0 then
      if h.submitTask then some (h.enqueue, true) else none
    else
      some ({ h with state := .waiting }, false)
  else
    none

/-- `task_handle_rec::remove_dependency`: decrement `dependencies_left`; on
reaching zero, return while PREPARING (postponed) or dispatch while WAITING;
any other state fails the assertion. -/
def Handle.removeDependency (h : Handle) : Option (Handle × Bool) :=
  let n := h.dependenciesLeft - 1
  if n = 0 then
    if h.state = .preparing then
      some ({ h with dependenciesLeft := n }, false)
    else if h.state = .waiting then
      if h.submitTask then
        some (Handle.enqueue { h with dependenciesLeft := n }, true)
      else none
    else
      none
  else
    some ({ h with dependenciesLeft := n }, false)

/-- Rank of a handle state along PREPARING, WAITING, SUBMITTED, FINISHED. -/
def HState.rank : HState → Nat
  | .preparing => 0
  | .waiting => 1
  | .submitted => 2
  | .finished => 3

end TaskModel

namespace TaskModel

/-
  Lock-scope embedding, used for the locking-discipline claim.

  Each private method of `task_handle_rec` wraps its whole body in
  `std::lock_guard<std::mutex> lock(mutex);`.  The functions below list, in
  source order, the mutex events of the method together with the calls it
  performs: `invokeDispatch` is the call `submit_task()` inside `enqueue()`,
  and `notifyDependent d` is the call `dependent->remove_dependency()` in the
  loop of `finish()`.  The traces are read directly off the bodies of
  `finish_preparation`, `remove_dependency` and `finish` in src/task.hpp.
-/

/-- Mutex and call events of one `task_handle_rec` method execution. -/
inductive LEv where
  | lock
  | unlock
  | invokeDispatch
  | notifyDependent (d : Nat)
deriving DecidableEq, Repr

/-- Source-order event list of `finish_preparation()`: the lock guard covers
the whole body, and `enqueue()` (which calls `submit_task()`) runs inside it
when no dependencies are left. -/
def finishPreparationEvents (h : Handle) : List LEv :=
  [LEv.lock]
    ++ (if h.dependenciesLeft = 0 then [LEv.invokeDispatch] else [])
    ++ [LEv.unlock]

/-- Source-order event list of `remove_dependency()`: the decrement happens
under the lock, and when it reaches zero in state WAITING, `enqueue()` runs
still inside the lock guard. -/
def removeDependencyEvents (h : Handle) : List LEv :=
  [LEv.lock]
    ++ (if h.dependenciesLeft - 1 = 0 ∧ h.state = .waiting then [LEv.invokeDispatch] else [])
    ++ [LEv.unlock]

/-- Source-order event list of `finish()`: the loop invoking
`dependent->remove_dependency()` for every dependent runs between acquiring
and releasing this handle mutex. -/
def finishEvents (h : Handle) : List LEv :=
  [LEv.lock] ++ h.dependents.map LEv.notifyDependent ++ [LEv.unlock]

/-- Number of locks minus unlocks among the first `n` events: positive iff
the handle mutex is held before event `n` runs. -/
def locksHeld (evs : List LEv) (n : Nat) : Nat :=
  ((evs.take n).count LEv.lock) - ((evs.take n).count LEv.unlock)

/-- The event at position `n` runs while the handle mutex is held. -/
def heldAt (evs : List LEv) (n : Nat) : Prop := 0 < locksHeld evs n

instance (evs : List LEv) (n : Nat) : Decidable (heldAt evs n) := by
  unfold heldAt; infer_instance

end TaskModel

namespace TaskModel

/-
  Global small-step interpreter.
-/

/-- The body of a submitted callable, as needed by the verified scenarios:
`const v` returns `v`; `addOf i j` returns `i->get_value() + j->get_value()`
for the tasks with ids `i` and `j` (it blocks until both results are
published); `retTask i` returns (the wrapper of) the already existing task
`i`, which makes the submitting task a nested task of type
`task<task<T>>` whose completion cell yields task `i`. -/
inductive Callable where
  | const (v : Nat)
  | addOf (i j : Nat)
  | retTask (i : Nat)
deriving DecidableEq, Repr

/-- `mt::impl::task_rec` as far as the graph is concerned: the callable of
the packaged task, and whether the task was submitted through a
`task_group` (so its dispatch closure ends with the `--active` post
action). -/
structure TaskRec where
  call : Callable
  inGroup : Bool
deriving DecidableEq, Repr

/-- `mt::impl::basic_task_rec`: it stores the handle (here: the id of the
handle) and exposes it through `get_handle()`. -/
structure BasicTaskRec where
  handle : Nat
deriving DecidableEq, Repr

/-- `basic_task_rec::get_handle`: returns the stored handle.  There is no
separate nested handle; nested wrappers expose the same handle. -/
def BasicTaskRec.getHandle (t : BasicTaskRec) : Nat := t.handle

/-- Evaluate a callable body against the published completion cells.
`none` means the callable is blocked in `get_value()` on an unpublished
cell. -/
def evalCallable : Callable → List (Option Nat) → Option Nat
  | .const v, _ => some v
  | .addOf i j, cells =>
      match cells.getD i none, cells.getD j none with
      | some a, some b => some (a + b)
      | _, _ => none
  | .retTask i, _ => some i

/-- One atomic instruction of the submitting thread.  `compileProg` below
produces these from the bodies of the submission front ends. -/
inductive MInstr where
  /-- Allocate the packaged task, the handle and the task record
  (`make_shared` calls in the front ends); the new task id is the current
  number of tasks. -/
  | create (call : Callable) (inGroup : Bool)
  /-- `th->add_dependency((*it)->get_handle())` for dependency `p` of task
  `t`. -/
  | addDep (t p : Nat)
  /-- `th->set_submit_task(...)` for task `t`. -/
  | setSubmit (t : Nat)
  /-- `th->finish_preparation()` for task `t`. -/
  | finishPrep (t : Nat)
  /-- The `++active` block of `task_group::submit`, executed while
  submitting task `t` (the tag records which submission the increment
  belongs to). -/
  | incActive (t : Nat)
  /-- `t->join()` on a non-nested task: blocks until the cell of `t` is
  published. -/
  | joinTask (t : Nat)
  /-- `t->join()` on a nested `task<task<T>>`: `result.get()` yields the
  inner task, then the inner task is joined. -/
  | joinNested (t : Nat)
  /-- `task_group::join()`: blocks until `active == 0`. -/
  | groupJoin
deriving DecidableEq, Repr

/-- Observable events (ghost trace). -/
inductive Ev where
  | created (t : Nat)
  | edgeAdded (p t : Nat)
  | edgeRejected (p t : Nat)
  | submitSet (t : Nat)
  /-- the dispatch closure of `t` was handed to the thread pool -/
  | enq (t : Nat)
  /-- a worker started running the callable of `t` -/
  | start (t : Nat)
  /-- the callable of `t` returned -/
  | ret (t : Nat)
  /-- the result of `t` was published into its completion cell -/
  | publish (t : Nat)
  /-- `finish()` of `p` invoked `remove_dependency()` on dependent `d` -/
  | notified (p d : Nat)
  /-- `finish()` of `t` completed: state FINISHED -/
  | finished (t : Nat)
  /-- `++active` executed while submitting task `t` -/
  | inc (t : Nat)
  /-- `--active` executed by the post action of task `t` -/
  | dec (t : Nat)
  | joined (t : Nat)
  | joinedNested (t : Nat)
  | gjoin
deriving DecidableEq, Repr

/-- Progress of a pool worker through the dispatch closure
`(*f)(); th->finish(); [post action]` of one task. -/
inductive RunPhase where
  /-- the callable is running -/
  | running
  /-- the callable returned value `v`; the packaged task has not yet stored
  it into the shared state -/
  | returned (v : Nat)
  /-- the value is published; `th->finish()` has not run yet -/
  | published
  /-- `finish()` ran; the group post action is still pending -/
  | postPending
deriving DecidableEq, Repr

/-- Global configuration: the immutable compiled program and program
counter of the submitting thread, the shared graph state, the thread pool
queue, the in-flight pool items, the `task_group` counter, the ghost
multiset of registered-but-not-yet-notified edges, and the ghost event
trace. -/
structure Config where
  prog : List MInstr
  pc : Nat
  handles : List Handle
  cells : List (Option Nat)
  tasks : List TaskRec
  pool : List Nat
  running : List (Nat × RunPhase)
  active : Nat
  pending : List (Nat × Nat)
  trace : List Ev
deriving DecidableEq, Repr, Inhabited

/-- A scheduling choice: a step of the submitting thread, or a worker
advancing task `t` by one phase. -/
inductive Act where
  | main
  | start (t : Nat)
  | ret (t : Nat)
  | publish (t : Nat)
  | finish (t : Nat)
  | post (t : Nat)
deriving DecidableEq, Repr

/-- Deliver `remove_dependency()` to handle `d` inside `finish()` of `p`:
look the handle up, apply the method, and report whether `d` was enqueued.
`none` models the failed assertion / empty function call aborts. -/
def notifyOne (hs : List Handle) (d : Nat) : Option (List Handle × Bool) :=
  match hs[d]? with
  | none => none
  | some h =>
      match h.removeDependency with
      | none => none
      | some (h2, enq) => some (hs.set d h2, enq)

/-- The notification loop of `finish()` of task `p` over the dependent list
`ds`: returns the updated handles, the ids enqueued by the loop in order,
and the emitted events (`notified` then possibly `enq`, per dependent, in
source order). -/
def notifyAll (p : Nat) (hs : List Handle) : List Nat → Option (List Handle × List Nat × List Ev)
  | [] => some (hs, [], [])
  | d :: ds =>
      match notifyOne hs d with
      | none => none
      | some (hs1, enq) =>
          match notifyAll p hs1 ds with
          | none => none
          | some (hs2, enqs, evs) =>
              some (hs2, (if enq then [d] else []) ++ enqs,
                    ([Ev.notified p d] ++ (if enq then [Ev.enq d] else [])) ++ evs)

/-- Look up the phase of an in-flight task. -/
def phaseOf : List (Nat × RunPhase) → Nat → Option RunPhase
  | [], _ => none
  | e :: r, t => if e.1 = t then some e.2 else phaseOf r t

/-- Replace the phase of an in-flight task. -/
def setPhase (running : List (Nat × RunPhase)) (t : Nat) (ph : RunPhase) :
    List (Nat × RunPhase) :=
  running.map (fun e => if e.1 = t then (t, ph) else e)

/-- Remove an in-flight task. -/
def dropRun (running : List (Nat × RunPhase)) (t : Nat) : List (Nat × RunPhase) :=
  running.filter (fun e => ¬ e.1 = t)

/-- Execute the instruction under the program counter.  Each case is the
atomic region of the corresponding call in the submission front ends
(src/task.hpp): a blocked or aborting call yields `none`. -/
def stepMain (cfg : Config) : Option Config :=
  match cfg.prog[cfg.pc]? with
  | none => none
  | some i =>
    match i with
    | .create call inGroup =>
        let t := cfg.tasks.length
        some { cfg with
          pc := cfg.pc + 1,
          tasks := cfg.tasks ++ [⟨call, inGroup⟩],
          handles := cfg.handles ++ [Handle.init],
          cells := cfg.cells ++ [none],
          trace := cfg.trace ++ [Ev.created t] }
    | .addDep t p =>
        /- `add_dependency` locks the handle of `t`, asserts PREPARING, and
        calls `add_dependent` on the handle of `p` (which locks it).  A
        self edge `t = p` would lock the same non-recursive mutex twice and
        deadlock, so no step exists. -/
        match cfg.handles[t]?, cfg.handles[p]? with
        | some hd, some hp =>
            if t = p then none
            else if hd.state = .preparing then
              match hp.addDependent t with
              | (hp2, true) =>
                  some { cfg with
                    pc := cfg.pc + 1,
                    handles := ((cfg.handles.set p hp2).set t
                      { hd with dependenciesLeft := hd.dependenciesLeft + 1 }),
                    pending := cfg.pending ++ [(p, t)],
                    trace := cfg.trace ++ [Ev.edgeAdded p t] }
              | (hp2, false) =>
                  some { cfg with
                    pc := cfg.pc + 1,
                    handles := cfg.handles.set p hp2,
                    trace := cfg.trace ++ [Ev.edgeRejected p t] }
            else none
        | _, _ => none
    | .setSubmit t =>
        match cfg.handles[t]? with
        | some h =>
            match h.setSubmitTask with
            | some h2 =>
                some { cfg with
                  pc := cfg.pc + 1,
                  handles := cfg.handles.set t h2,
                  trace := cfg.trace ++ [Ev.submitSet t] }
            | none => none
        | none => none
    | .finishPrep t =>
        match cfg.handles[t]? with
        | some h =>
            match h.finishPreparation with
            | some (h2, enq) =>
                some { cfg with
                  pc := cfg.pc + 1,
                  handles := cfg.handles.set t h2,
                  pool := cfg.pool ++ (if enq then [t] else []),
                  trace := cfg.trace ++ (if enq then [Ev.enq t] else []) }
            | none => none
        | none => none
    | .incActive t =>
        some { cfg with
          pc := cfg.pc + 1,
          active := cfg.active + 1,
          trace := cfg.trace ++ [Ev.inc t] }
    | .joinTask t =>
        match cfg.cells.getD t none with
        | some _ =>
            some { cfg with pc := cfg.pc + 1, trace := cfg.trace ++ [Ev.joined t] }
        | none => none
    | .joinNested t =>
        /- `result.get()` yields the inner task, then the inner task is
        joined: both cells must be published before the call returns. -/
        match cfg.cells.getD t none with
        | some inner =>
            match cfg.cells.getD inner none with
            | some _ =>
                some { cfg with
                       pc := cfg.pc + 1,
                       trace := cfg.trace ++ [Ev.joinedNested t] }
            | none => none
        | none => none
    | .groupJoin =>
        if cfg.active = 0 then
          some { cfg with pc := cfg.pc + 1, trace := cfg.trace ++ [Ev.gjoin] }
        else none

/-- One scheduler step. -/
def stepFn (cfg : Config) (a : Act) : Option Config :=
  match a with
  | .main => stepMain cfg
  | .start t =>
      /- a worker takes item `t` from the pool and begins `(*f)()` -/
      if t ∈ cfg.pool then
        some { cfg with
          pool := cfg.pool.erase t,
          running := cfg.running ++ [(t, RunPhase.running)],
          trace := cfg.trace ++ [Ev.start t] }
      else none
  | .ret t =>
      /- the callable of `t` returns; its reads of prerequisite values block
      until those cells are published -/
      match phaseOf cfg.running t with
      | some RunPhase.running =>
          match cfg.tasks[t]? with
          | some trec =>
              match evalCallable trec.call cfg.cells with
              | some v =>
                  some { cfg with
                    running := setPhase cfg.running t (RunPhase.returned v),
                    trace := cfg.trace ++ [Ev.ret t] }
              | none => none
          | none => none
      | _ => none
  | .publish t =>
      /- the packaged task stores the returned value into the shared state;
      waits on the future now return -/
      match phaseOf cfg.running t with
      | some (RunPhase.returned v) =>
          some { cfg with
            cells := cfg.cells.set t (some v),
            running := setPhase cfg.running t RunPhase.published,
            trace := cfg.trace ++ [Ev.publish t] }
      | _ => none
  | .finish t =>
      /- `th->finish()`: under the handle mutex, assert SUBMITTED, notify
      every dependent, clear the list, set FINISHED -/
      match phaseOf cfg.running t with
      | some RunPhase.published =>
          match cfg.handles[t]? with
          | some h =>
              if h.state = .submitted then
                match notifyAll t cfg.handles h.dependents with
                | some (hs1, enqs, evs) =>
                    match hs1[t]? with
                    | some hself =>
                        some { cfg with
                          handles := hs1.set t
                            { hself with dependents := [], state := .finished },
                          pool := cfg.pool ++ enqs,
                          pending := cfg.pending.filter (fun e => ¬ e.1 = t),
                          running :=
                            match cfg.tasks[t]? with
                            | some trec =>
                                if trec.inGroup then
                                  setPhase cfg.running t RunPhase.postPending
                                else dropRun cfg.running t
                            | none => dropRun cfg.running t,
                          trace := cfg.trace ++ evs ++ [Ev.finished t] }
                    | none => none
                | none => none
              else none
          | none => none
      | _ => none
  | .post t =>
      /- the group post action: `--active` under the group mutex -/
      match phaseOf cfg.running t with
      | some RunPhase.postPending =>
          some { cfg with
            active := cfg.active - 1,
            running := dropRun cfg.running t,
            trace := cfg.trace ++ [Ev.dec t] }
      | _ => none

/-- Initial configuration for a compiled program. -/
def initConfig (prog : List MInstr) : Config :=
  { prog := prog, pc := 0, handles := [], cells := [], tasks := [],
    pool := [], running := [], active := 0, pending := [], trace := [] }

/-- Run a list of scheduling choices. -/
def exec (cfg : Config) : List Act → Option Config
  | [] => some cfg
  | a :: acts =>
      match stepFn cfg a with
      | some cfg2 => exec cfg2 acts
      | none => none

end TaskModel

namespace TaskModel

/-
  Submission front ends.

  `mt::submit` (both shapes) and `task_group::submit` perform, in source
  order: build the packaged task, the handle and the task wrapper; for each
  dependency call `add_dependency((*it)->get_handle())`; for the group
  front end, increment `active` under the group mutex; install the dispatch
  closure with `set_submit_task`; call `finish_preparation()`.  `join`
  calls and `task_group::join` are the blocking operations a driver may
  interleave.  `compileProg` turns a driver program of such calls into the
  atomic instructions of the submitting thread.
-/

/-- One call of a driver program. -/
inductive Submission where
  /-- `mt::submit(tp, deps, f)` -/
  | free (deps : List Nat) (call : Callable)
  /-- `tg.submit(deps, f)` -/
  | group (deps : List Nat) (call : Callable)
  /-- `t->join()` on a non-nested task -/
  | sjoin (t : Nat)
  /-- `t->join()` on a nested task -/
  | sjoinNested (t : Nat)
  /-- `tg.join()` -/
  | sgroupJoin
deriving DecidableEq, Repr

/-- The instruction sequence of one driver call, for the task id `t` it
allocates (mirrors the bodies of `mt::submit` and `task_group::submit`). -/
def submissionInstrs : Submission → Nat → List MInstr
  | .free deps call, t =>
      [MInstr.create call false]
        ++ deps.map (fun p => MInstr.addDep t p)
        ++ [MInstr.setSubmit t, MInstr.finishPrep t]
  | .group deps call, t =>
      [MInstr.create call true]
        ++ deps.map (fun p => MInstr.addDep t p)
        ++ [MInstr.incActive t, MInstr.setSubmit t, MInstr.finishPrep t]
  | .sjoin j, _ => [MInstr.joinTask j]
  | .sjoinNested j, _ => [MInstr.joinNested j]
  | .sgroupJoin, _ => [MInstr.groupJoin]

/-- Number of tasks a driver call allocates. -/
def numTasks : Submission → Nat
  | .free _ _ => 1
  | .group _ _ => 1
  | _ => 0

/-- Compile a driver program; `k` is the id of the next task. -/
def compileProg : List Submission → Nat → List MInstr
  | [], _ => []
  | s :: rest, k => submissionInstrs s k ++ compileProg rest (k + numTasks s)

end TaskModel

namespace TaskModel

/-- The task records allocated by the `create` instructions of a program
fragment, in order; task `t` of a run of `prog` is entry `t` of
`createsOf (prog.take pc)` once created. -/
def createsOf (l : List MInstr) : List TaskRec :=
  l.filterMap (fun i =>
    match i with
    | MInstr.create call inGroup => some ⟨call, inGroup⟩
    | _ => none)

/-- Every occurrence of event `b` in `tr` has an occurrence of event `a`
strictly before it. -/
def OrdIn (tr : List Ev) (a b : Ev) : Prop :=
  ∀ pos : Nat, tr[pos]? = some b → ∃ m : Nat, m < pos ∧ tr[m]? = some a

/-- A configuration reachable by some scheduling of the program `prog`. -/
def Reach (prog : List MInstr) (cfg : Config) : Prop :=
  ∃ acts, exec (initConfig prog) acts = some cfg

/-- Invariant of reachable configurations (arbitrary programs).  `pending`
is the ghost multiset of dependency edges that have been registered
(`add_dependent` returned true) and whose notification has not fired yet. -/
structure Inv (cfg : Config) : Prop where
  lenCells : cfg.cells.length = cfg.handles.length
  lenTasks : cfg.tasks.length = cfg.handles.length
  tasksLink : cfg.tasks = createsOf (cfg.prog.take cfg.pc)
  ssLink : ∀ t, Ev.submitSet t ∈ cfg.trace ↔ MInstr.setSubmit t ∈ cfg.prog.take cfg.pc
  incLink : ∀ t,
    cfg.trace.count (Ev.inc t) = (cfg.prog.take cfg.pc).count (MInstr.incActive t)
  poolNodup : cfg.pool.Nodup
  poolLt : ∀ t ∈ cfg.pool, t < cfg.handles.length
  runLt : ∀ e ∈ cfg.running, e.1 < cfg.handles.length
  runKeys : (cfg.running.map Prod.fst).Nodup
  pendWf : ∀ e ∈ cfg.pending, e.1 ≠ e.2 ∧ e.1 < cfg.handles.length ∧ e.2 < cfg.handles.length
  /- trace events only mention existing tasks (`inc` excepted: its tag is a
  ghost annotation of the submitting call) -/
  /- handle state against the trace -/
  stSub : ∀ (t : Nat) (h : Handle), cfg.handles[t]? = some h →
    ((h.state = HState.submitted ∨ h.state = HState.finished) ↔ Ev.enq t ∈ cfg.trace)
  stFin : ∀ (t : Nat) (h : Handle), cfg.handles[t]? = some h →
    (h.state = HState.finished ↔ Ev.finished t ∈ cfg.trace)
  enqLt : ∀ t, Ev.enq t ∈ cfg.trace → t < cfg.handles.length
  ssTr : ∀ (t : Nat) (h : Handle), cfg.handles[t]? = some h → h.submitTask = true → Ev.submitSet t ∈ cfg.trace
  /- pool and running items against the trace -/
  poolTr : ∀ t, t ∈ cfg.pool ↔ (Ev.enq t ∈ cfg.trace ∧ Ev.start t ∉ cfg.trace)
  runTr1 : ∀ t, phaseOf cfg.running t = some RunPhase.running ↔
    (Ev.start t ∈ cfg.trace ∧ Ev.ret t ∉ cfg.trace)
  runTr2 : ∀ t, (∃ v, phaseOf cfg.running t = some (RunPhase.returned v)) ↔
    (Ev.ret t ∈ cfg.trace ∧ Ev.publish t ∉ cfg.trace)
  runTr3 : ∀ t, phaseOf cfg.running t = some RunPhase.published ↔
    (Ev.publish t ∈ cfg.trace ∧ Ev.finished t ∉ cfg.trace)
  runTr4 : ∀ t, phaseOf cfg.running t = some RunPhase.postPending →
    Ev.finished t ∈ cfg.trace ∧ Ev.dec t ∉ cfg.trace ∧
      ∃ r, cfg.tasks[t]? = some r ∧ r.inGroup = true
  /- completion cells against the trace -/
  cellTr : ∀ t, (∃ v, cfg.cells.getD t none = some v) ↔ Ev.publish t ∈ cfg.trace
  /- published or returned values agree with the callable -/
  valInv : ∀ (t v : Nat) (r : TaskRec), cfg.tasks[t]? = some r →
    (phaseOf cfg.running t = some (RunPhase.returned v) ∨ cfg.cells.getD t none = some v) →
    evalCallable r.call cfg.cells = some v
  /- positional ordering of the per-task event chain -/
  ordStartEnq : ∀ t, OrdIn cfg.trace (Ev.enq t) (Ev.start t)
  ordRetStart : ∀ t, OrdIn cfg.trace (Ev.start t) (Ev.ret t)
  ordPubRet : ∀ t, OrdIn cfg.trace (Ev.ret t) (Ev.publish t)
  ordFinPub : ∀ t, OrdIn cfg.trace (Ev.publish t) (Ev.finished t)
  ordDecFin : ∀ t, OrdIn cfg.trace (Ev.finished t) (Ev.dec t)
  ordEnqSS : ∀ t, OrdIn cfg.trace (Ev.submitSet t) (Ev.enq t)
  ordNotPub : ∀ p d, OrdIn cfg.trace (Ev.publish p) (Ev.notified p d)
  /- a dependent starts only after each registered prerequisite returned
  and published -/
  startOrd : ∀ (pos : Nat) (p d : Nat), cfg.trace[pos]? = some (Ev.start d) →
    Ev.edgeAdded p d ∈ cfg.trace →
    (∃ m : Nat, m < pos ∧ cfg.trace[m]? = some (Ev.ret p)) ∧
    (∃ m : Nat, m < pos ∧ cfg.trace[m]? = some (Ev.publish p))
  /- a nested join returns only after the inner task returned -/
  nestOrd : ∀ (pos : Nat) (t : Nat), cfg.trace[pos]? = some (Ev.joinedNested t) →
    ∃ inner, cfg.cells.getD t none = some inner ∧
      ∃ m : Nat, m < pos ∧ cfg.trace[m]? = some (Ev.ret inner)
  /- ghost edge multiset against handles and trace -/
  depsPend : ∀ (p : Nat) (h : Handle), cfg.handles[p]? = some h → h.state ≠ HState.finished →
    h.dependents = (cfg.pending.filter (fun e => e.1 = p)).map Prod.snd
  depsFin : ∀ (p : Nat) (h : Handle), cfg.handles[p]? = some h → h.state = HState.finished →
    h.dependents = []
  leftPend : ∀ (d : Nat) (h : Handle), cfg.handles[d]? = some h →
    ((h.state = HState.preparing ∨ h.state = HState.waiting) →
      h.dependenciesLeft = cfg.pending.countP (fun e => e.2 = d)) ∧
    ((h.state = HState.submitted ∨ h.state = HState.finished) →
      cfg.pending.countP (fun e => e.2 = d) = 0)
  edgeFin : ∀ p d, Ev.edgeAdded p d ∈ cfg.trace →
    (p, d) ∈ cfg.pending ∨ Ev.finished p ∈ cfg.trace

/-- Additional invariant for programs produced by `compileProg`: the
task-group counter bookkeeping. -/
structure GInv (cfg : Config) : Prop where
  activeSum : cfg.active =
    ∑ t in Finset.range cfg.handles.length,
      (cfg.trace.count (Ev.inc t) - cfg.trace.count (Ev.dec t))
  decLeInc : ∀ t : Nat, cfg.trace.count (Ev.dec t) ≤ cfg.trace.count (Ev.inc t)
  incLt : ∀ t : Nat, Ev.inc t ∈ cfg.trace → t < cfg.handles.length
  ordDecInc : ∀ t : Nat, OrdIn cfg.trace (Ev.inc t) (Ev.dec t)
  gjoinOrd : ∀ pos : Nat, cfg.trace[pos]? = some Ev.gjoin →
    ∀ u : Nat, Ev.inc u ∈ cfg.trace.take pos → Ev.dec u ∈ cfg.trace.take pos

end TaskModel

namespace TaskModel

/-
  Concrete driver programs for the end-to-end scenarios of the test suite
  (src/test_suite.cpp) and the specified scenarios.
-/

/-- Test `t1` of src/test_suite.cpp: the diamond
`a = 7`, `b = 22`, `c = a + b` after both, `d = 13`, `e = c + d` after
both. -/
def diamondSubs : List Submission :=
  [ Submission.free [] (Callable.const 7),
    Submission.free [] (Callable.const 22),
    Submission.free [0, 1] (Callable.addOf 0 1),
    Submission.free [] (Callable.const 13),
    Submission.free [2, 3] (Callable.addOf 2 3) ]

/-- The compiled diamond program. -/
def diamondProg : List MInstr := compileProg diamondSubs 0

/-- One complete schedule of the diamond program: submit everything, then a
single worker drains the pool. -/
def diamondActs : List Act :=
  List.replicate 19 Act.main ++
  [Act.start 0, Act.ret 0, Act.publish 0, Act.finish 0,
   Act.start 1, Act.ret 1, Act.publish 1, Act.finish 1,
   Act.start 3, Act.ret 3, Act.publish 3, Act.finish 3,
   Act.start 2, Act.ret 2, Act.publish 2, Act.finish 2,
   Act.start 4, Act.ret 4, Act.publish 4, Act.finish 4]

/-- Nested-task scenario: task 0 is the inner task, task 1 is a nested
task (its callable returns task 0, so the wrapper of 1 has type
`task<task<T>>`), task 2 depends on the wrapper of 1. -/
def nestedSubs : List Submission :=
  [ Submission.free [] (Callable.const 5),
    Submission.free [] (Callable.retTask 0),
    Submission.free [1] (Callable.const 9) ]

/-- A schedule of `nestedSubs` in which the outer callable of task 1 runs
to completion while the inner task 0 is still sitting in the pool; the
dependent task 2 is then dispatched and started. -/
def nestedActs : List Act :=
  List.replicate 10 Act.main ++
  [Act.start 1, Act.ret 1, Act.publish 1, Act.finish 1, Act.start 2]

/-- Scenario 6 of the specification: submit `a`, join it, then submit `b`
depending on the already finished `a`. -/
def finishedPrereqSubs : List Submission :=
  [ Submission.free [] (Callable.const 7),
    Submission.sjoin 0,
    Submission.free [0] (Callable.const 9) ]

/-- A complete schedule of `finishedPrereqSubs`. -/
def finishedPrereqActs : List Act :=
  List.replicate 3 Act.main ++
  [Act.start 0, Act.ret 0, Act.publish 0, Act.finish 0] ++
  List.replicate 5 Act.main ++
  [Act.start 1, Act.ret 1, Act.publish 1, Act.finish 1]

/-- `task_rec::get` and `task_rec::get_value`: read the published value of
the completion cell (`none` while the callable has not published, in which
case the call blocks). -/
def taskGetValue (cfg : Config) (t : Nat) : Option Nat :=
  cfg.cells.getD t none

/-- The `task_group` destructor body: it consists of the single call
`join()`. -/
def taskGroupDestructorInstr : MInstr := MInstr.groupJoin

/-- A group scenario: two group submissions followed by the implicit
`join()` of the destructor, and a second `join()` right after (joins are
idempotent). -/
def groupSubs : List Submission :=
  [ Submission.group [] (Callable.const 4),
    Submission.group [0] (Callable.addOf 0 0),
    Submission.sgroupJoin,
    Submission.sgroupJoin ]

/-- A complete schedule of `groupSubs`. -/
def groupActs : List Act :=
  List.replicate 9 Act.main ++
  [Act.start 0, Act.ret 0, Act.publish 0, Act.finish 0, Act.post 0,
   Act.start 1, Act.ret 1, Act.publish 1, Act.finish 1, Act.post 1] ++
  [Act.main, Act.main]

end TaskModel

namespace TaskModel

/-- Pointwise growth of the completion cells: a published value stays. -/
def CellsLe (c1 c2 : List (Option Nat)) : Prop :=
  ∀ i v, c1.getD i none = some v → c2.getD i none = some v

/-- The handle of dependent `u` after `finish()` delivered `c` of its
pending notifications (where `c` is the number of edges from the finishing
task to `u`). -/
def afterNotify (h : Handle) (c : Nat) : Handle :=
  if c = 0 then h
  else if h.dependenciesLeft = c ∧ h.state = HState.waiting then
    ⟨HState.submitted, 0, false, h.dependents⟩
  else
    { h with dependenciesLeft := h.dependenciesLeft - c }

/-- The task record a driver call allocates, if any (the `create` of its
compiled block). -/
def subsRec : Submission → Option TaskRec
  | .free _ call => some ⟨call, false⟩
  | .group _ call => some ⟨call, true⟩
  | _ => none

/-- The configuration after the complete diamond schedule. -/
def diamondRunCfg : Config := (exec (initConfig diamondProg) diamondActs).getD default

/-- The compiled nested-task program. -/
def nestedProg : List MInstr := compileProg nestedSubs 0

/-- The configuration after the nested-task schedule: the dependent task 2
has started although the inner task 0 has not run. -/
def nestedRunCfg : Config := (exec (initConfig nestedProg) nestedActs).getD default

/-- The compiled already-finished-prerequisite program. -/
def finishedProg : List MInstr := compileProg finishedPrereqSubs 0

/-- The configuration after the complete already-finished-prerequisite
schedule. -/
def finishedRunCfg : Config :=
  (exec (initConfig finishedProg) finishedPrereqActs).getD default

/-- A prefix of the already-finished-prerequisite schedule stopping right
before the `add_dependency` call of task 1 on the finished task 0. -/
def finishedMidActs : List Act :=
  List.replicate 3 Act.main ++
  [Act.start 0, Act.ret 0, Act.publish 0, Act.finish 0] ++
  [Act.main, Act.main]

/-- The configuration right before the `add_dependency` call on the
finished prerequisite. -/
def finishedMidCfg : Config :=
  (exec (initConfig finishedProg) finishedMidActs).getD default

/-- The configuration after the `add_dependency` step on the finished
prerequisite. -/
def finishedMid2Cfg : Config := (stepFn finishedMidCfg Act.main).getD default

/-- The compiled task-group program. -/
def groupProg : List MInstr := compileProg groupSubs 0

/-- The configuration after the complete task-group schedule (both
`join()` calls executed). -/
def groupRunCfg : Config := (exec (initConfig groupProg) groupActs).getD default

/-- Nested-task scenario with a `join()` on the nested wrapper: task 0 is
the inner task, task 1 is the nested `task<task<T>>` wrapper, and the
driver joins the wrapper. -/
def nestedJoinSubs : List Submission :=
  [ Submission.free [] (Callable.const 5),
    Submission.free [] (Callable.retTask 0),
    Submission.sjoinNested 1 ]

/-- The compiled nested-join program. -/
def nestedJoinProg : List MInstr := compileProg nestedJoinSubs 0

/-- A complete schedule of `nestedJoinSubs`: both tasks run before the
driver reaches the nested `join()`. -/
def nestedJoinActs : List Act :=
  List.replicate 6 Act.main ++
  [Act.start 0, Act.ret 0, Act.publish 0, Act.finish 0,
   Act.start 1, Act.ret 1, Act.publish 1, Act.finish 1] ++
  [Act.main]

/-- The configuration after the complete nested-join schedule. -/
def nestedJoinRunCfg : Config :=
  (exec (initConfig nestedJoinProg) nestedJoinActs).getD default

theorem getElem?_lt {α : Type} {l : List α} {n : Nat} {a : α} (h : l[n]? = some a) :
    n < l.length := by
  by_contra hc
  rw [List.getElem?_eq_none (Nat.le_of_not_lt hc)] at h
  exact Option.noConfusion h

theorem getElem?_mem {α : Type} {l : List α} {n : Nat} {a : α} (h : l[n]? = some a) :
    a ∈ l :=
  List.mem_iff_getElem?.mpr ⟨n, h⟩

theorem mem_getElem? {α : Type} {l : List α} {a : α} (h : a ∈ l) :
    ∃ n : Nat, l[n]? = some a :=
  List.mem_iff_getElem?.mp h

theorem getElem?_append_l {α : Type} {l1 l2 : List α} {n : Nat} {a : α}
    (h : l1[n]? = some a) : (l1 ++ l2)[n]? = some a := by
  rw [List.getElem?_append_left (getElem?_lt h)]
  exact h

theorem getElem?_append_cases {α : Type} {l1 l2 : List α} {n : Nat} {a : α}
    (h : (l1 ++ l2)[n]? = some a) :
    l1[n]? = some a ∨ (l1.length ≤ n ∧ l2[n - l1.length]? = some a) := by
  by_cases hn : n < l1.length
  · left
    rw [List.getElem?_append_left hn] at h
    exact h
  · right
    refine ⟨Nat.le_of_not_lt hn, ?_⟩
    rw [List.getElem?_append_right (Nat.le_of_not_lt hn)] at h
    exact h

theorem OrdIn.append {tr evs : List Ev} {a b : Ev} (h : OrdIn tr a b)
    (hb : b ∈ evs → a ∈ tr) : OrdIn (tr ++ evs) a b := by
  intro pos hpos
  rcases getElem?_append_cases hpos with hl | ⟨hge, hr⟩
  · rcases h pos hl with ⟨m, hm, hget⟩
    exact ⟨m, hm, getElem?_append_l hget⟩
  · have hbin : b ∈ evs := getElem?_mem hr
    rcases mem_getElem? (hb hbin) with ⟨m, hget⟩
    have hmlt : m < tr.length := getElem?_lt hget
    exact ⟨m, Nat.lt_of_lt_of_le hmlt hge, getElem?_append_l hget⟩

theorem OrdIn.mem {tr : List Ev} {a b : Ev} (h : OrdIn tr a b) (hb : b ∈ tr) :
    a ∈ tr := by
  rcases mem_getElem? hb with ⟨pos, hget⟩
  rcases h pos hget with ⟨m, _, hm⟩
  exact getElem?_mem hm

theorem phaseOf_eq_none_iff {r : List (Nat × RunPhase)} {t : Nat} :
    phaseOf r t = none ↔ ∀ e ∈ r, e.1 ≠ t := by
  induction r with
  | nil => simp [phaseOf]
  | cons e r ih =>
      by_cases he : e.1 = t
      · simp [phaseOf, he]
      · simp [phaseOf, he, ih]

theorem phaseOf_isSome_mem {r : List (Nat × RunPhase)} {t : Nat} {ph : RunPhase}
    (h : phaseOf r t = some ph) : (t, ph) ∈ r := by
  induction r with
  | nil => exact Option.noConfusion h
  | cons e r ih =>
      by_cases he : e.1 = t
      · rw [phaseOf, if_pos he] at h
        cases h
        have he2 : (t, e.2) = e := by
          cases e
          simp only at he
          rw [he]
        rw [he2]
        exact List.mem_cons_self e r
      · rw [phaseOf, if_neg he] at h
        exact List.mem_cons_of_mem e (ih h)

theorem phaseOf_append_right {r : List (Nat × RunPhase)} {t : Nat} {ph : RunPhase}
    (h : phaseOf r t = none) : phaseOf (r ++ [(t, ph)]) t = some ph := by
  induction r with
  | nil => simp [phaseOf]
  | cons e r ih =>
      by_cases he : e.1 = t
      · rw [phaseOf, if_pos he] at h
        exact Option.noConfusion h
      · rw [phaseOf, if_neg he] at h
        rw [List.cons_append, phaseOf, if_neg he]
        exact ih h

theorem phaseOf_append_other {r : List (Nat × RunPhase)} {u t : Nat} {ph : RunPhase}
    (h : u ≠ t) : phaseOf (r ++ [(t, ph)]) u = phaseOf r u := by
  induction r with
  | nil => simp [phaseOf, Ne.symm h]
  | cons e r ih =>
      by_cases he : e.1 = u
      · simp [phaseOf, he]
      · rw [List.cons_append, phaseOf, if_neg he, phaseOf, if_neg he]
        exact ih

theorem phaseOf_setPhase_self {r : List (Nat × RunPhase)} {t : Nat} {ph0 ph : RunPhase}
    (h : phaseOf r t = some ph0) : phaseOf (setPhase r t ph) t = some ph := by
  induction r with
  | nil => exact Option.noConfusion h
  | cons e r ih =>
      by_cases he : e.1 = t
      · unfold setPhase
        simp only [List.map_cons, if_pos he]
        simp [phaseOf]
      · rw [phaseOf, if_neg he] at h
        unfold setPhase
        simp only [List.map_cons, if_neg he]
        rw [phaseOf, if_neg he]
        exact ih h

theorem phaseOf_setPhase_other {r : List (Nat × RunPhase)} {u t : Nat} {ph : RunPhase}
    (h : u ≠ t) : phaseOf (setPhase r t ph) u = phaseOf r u := by
  induction r with
  | nil => simp [setPhase, phaseOf]
  | cons e r ih =>
      unfold setPhase at ih ⊢
      by_cases he : e.1 = t
      · simp only [List.map_cons, if_pos he]
        rw [phaseOf, if_neg (fun hc : t = u => h hc.symm), phaseOf, if_neg (he ▸ fun hc : e.1 = u => h (he ▸ hc).symm)]
        exact ih
      · simp only [List.map_cons, if_neg he]
        by_cases hu : e.1 = u
        · simp [phaseOf, hu]
        · rw [phaseOf, if_neg hu, phaseOf, if_neg hu]
          exact ih

theorem phaseOf_dropRun_self {r : List (Nat × RunPhase)} {t : Nat} :
    phaseOf (dropRun r t) t = none := by
  rw [phaseOf_eq_none_iff]
  intro e he
  unfold dropRun at he
  have := List.of_mem_filter he
  simpa using this

theorem phaseOf_dropRun_other {r : List (Nat × RunPhase)} {u t : Nat} (h : u ≠ t) :
    phaseOf (dropRun r t) u = phaseOf r u := by
  induction r with
  | nil => simp [dropRun, phaseOf]
  | cons e r ih =>
      unfold dropRun at ih ⊢
      by_cases he : e.1 = t
      · rw [List.filter_cons_of_neg (by simp [he])]
        rw [ih]
        have hne : ¬ e.1 = u := by
          rw [he]
          intro hc
          exact h hc.symm
        rw [phaseOf, if_neg hne]
      · rw [List.filter_cons_of_pos (by simp [he])]
        by_cases hu : e.1 = u
        · rw [phaseOf, if_pos hu, phaseOf, if_pos hu]
        · rw [phaseOf, if_neg hu, phaseOf, if_neg hu]
          exact ih

end TaskModel

namespace TaskModel

theorem setPhase_keys {r : List (Nat × RunPhase)} {t : Nat} {ph : RunPhase} :
    (setPhase r t ph).map Prod.fst = r.map Prod.fst := by
  unfold setPhase
  rw [List.map_map]
  apply List.map_congr_left
  intro e _
  by_cases he : e.1 = t
  · simp [he]
  · simp [he]

theorem dropRun_sublist {r : List (Nat × RunPhase)} {t : Nat} :
    (dropRun r t).Sublist r :=
  List.filter_sublist r

theorem mem_setPhase {r : List (Nat × RunPhase)} {t : Nat} {ph : RunPhase} {e : Nat × RunPhase}
    (h : e ∈ setPhase r t ph) : e = (t, ph) ∨ e ∈ r := by
  unfold setPhase at h
  rcases List.mem_map.mp h with ⟨x, hx, hxe⟩
  by_cases hxt : x.1 = t
  · rw [if_pos hxt] at hxe
    exact Or.inl hxe.symm
  · rw [if_neg hxt] at hxe
    exact Or.inr (hxe ▸ hx)

theorem keys_nodup_phaseOf_mem {r : List (Nat × RunPhase)} {e : Nat × RunPhase}
    (hn : (r.map Prod.fst).Nodup) (he : e ∈ r) : phaseOf r e.1 = some e.2 := by
  induction r with
  | nil => cases he
  | cons x r ih =>
      rcases List.mem_cons.mp he with he | he
      · rw [he, phaseOf, if_pos rfl]
      · rw [phaseOf]
        have hx : ¬ x.1 = e.1 := by
          intro hc
          have : e.1 ∈ r.map Prod.fst := List.mem_map.mpr ⟨e, he, rfl⟩
          rw [List.map_cons] at hn
          exact (List.nodup_cons.mp hn).1 (hc ▸ this)
        rw [if_neg hx]
        exact ih (List.nodup_cons.mp (List.map_cons Prod.fst x r ▸ hn)).2 he

theorem CellsLe.rfl {c : List (Option Nat)} : CellsLe c c := fun _ _ h => h

theorem CellsLe.grow {c : List (Option Nat)} {x : Option Nat} :
    CellsLe c (c ++ [x]) := by
  intro i v h
  have hi : i < c.length := by
    by_contra hc
    rw [List.getD_eq_getElem?_getD, List.getElem?_eq_none (Nat.le_of_not_lt hc)] at h
    exact Option.noConfusion h
  rw [List.getD_eq_getElem?_getD] at h ⊢
  rw [List.getElem?_append_left hi]
  exact h

theorem CellsLe.set_of_none {c : List (Option Nat)} {t : Nat} {v : Nat}
    (h : c.getD t none = none) : CellsLe c (c.set t (some v)) := by
  intro i w hw
  by_cases hit : t = i
  · rw [← hit] at hw
    rw [h] at hw
    exact Option.noConfusion hw
  · rw [List.getD_eq_getElem?_getD, List.getElem?_set_ne hit]
    rw [List.getD_eq_getElem?_getD] at hw
    exact hw

theorem evalCallable_mono {c1 c2 : List (Option Nat)} {call : Callable} {v : Nat}
    (hle : CellsLe c1 c2) (h : evalCallable call c1 = some v) :
    evalCallable call c2 = some v := by
  cases call with
  | const w => exact h
  | retTask i => exact h
  | addOf i j =>
      simp only [evalCallable] at h ⊢
      rcases hi : c1.getD i none with _ | a
      · rw [hi] at h
        exact Option.noConfusion h
      · rcases hj : c1.getD j none with _ | b
        · rw [hi, hj] at h
          exact Option.noConfusion h
        · rw [hi, hj] at h
          rw [hle i a hi, hle j b hj]
          exact h

theorem createsOf_append {l1 l2 : List MInstr} :
    createsOf (l1 ++ l2) = createsOf l1 ++ createsOf l2 := by
  unfold createsOf
  rw [List.filterMap_append]

theorem createsOf_take_pre {l : List MInstr} {m : Nat} :
    List.IsPrefix (createsOf (l.take m)) (createsOf l) := by
  conv_rhs => rw [← List.take_append_drop m l]
  rw [createsOf_append]
  exact List.prefix_append _ _

theorem getD_set_self {c : List (Option Nat)} {t : Nat} {v : Nat} (ht : t < c.length) :
    (c.set t (some v)).getD t none = some v := by
  rw [List.getD_eq_getElem?_getD, List.getElem?_set_self ht]
  rfl

theorem getD_set_other {c : List (Option Nat)} {t i : Nat} {v : Option Nat} (h : t ≠ i) :
    (c.set t v).getD i none = c.getD i none := by
  rw [List.getD_eq_getElem?_getD, List.getElem?_set_ne h, ← List.getD_eq_getElem?_getD]

end TaskModel

namespace TaskModel

theorem removeDependency_spec {h h2 : Handle} {enq : Bool}
    (hstep : h.removeDependency = some (h2, enq)) :
    h2.dependenciesLeft = h.dependenciesLeft - 1 ∧
    h2.dependents = h.dependents ∧
    (h.dependenciesLeft - 1 = 0 →
      (h.state = HState.preparing ∨ h.state = HState.waiting)) ∧
    (if h.dependenciesLeft - 1 = 0 ∧ h.state = HState.waiting then
      enq = true ∧ h2.state = HState.submitted ∧ h2.submitTask = false ∧
        h.submitTask = true
     else
      enq = false ∧ h2.state = h.state ∧ h2.submitTask = h.submitTask) := by
  unfold Handle.removeDependency at hstep
  by_cases hn : h.dependenciesLeft - 1 = 0
  · rw [if_pos hn] at hstep
    by_cases hp : h.state = HState.preparing
    · rw [if_pos hp] at hstep
      cases hstep
      have hw : ¬ (h.dependenciesLeft - 1 = 0 ∧ h.state = HState.waiting) := by
        intro hc
        rw [hp] at hc
        exact HState.noConfusion hc.2
      simp [hn, hw, hp]
    · rw [if_neg hp] at hstep
      by_cases hw : h.state = HState.waiting
      · rw [if_pos hw] at hstep
        by_cases hsub : h.submitTask
        · rw [if_pos hsub] at hstep
          cases hstep
          simp [hn, hw, hsub, Handle.enqueue]
        · rw [if_neg hsub] at hstep
          exact Option.noConfusion hstep
      · rw [if_neg hw] at hstep
        exact Option.noConfusion hstep
  · rw [if_neg hn] at hstep
    cases hstep
    simp [hn]

theorem notifyOne_spec {hs : List Handle} {d : Nat} {hs2 : List Handle} {enq : Bool}
    (hstep : notifyOne hs d = some (hs2, enq)) :
    ∃ h h2, hs[d]? = some h ∧ h.removeDependency = some (h2, enq) ∧
      hs2 = hs.set d h2 := by
  unfold notifyOne at hstep
  rcases hd : hs[d]? with _ | h
  · rw [hd] at hstep
    exact Option.noConfusion hstep
  · rw [hd] at hstep
    dsimp only at hstep
    rcases hr : h.removeDependency with _ | p
    · rw [hr] at hstep
      exact Option.noConfusion hstep
    · rw [hr] at hstep
      dsimp only at hstep
      cases p with
      | mk h2 e =>
          cases hstep
          exact ⟨h, h2, rfl, hr, rfl⟩

end TaskModel

namespace TaskModel

theorem afterNotify_removeDependency {h h1 : Handle} {enq1 : Bool} {c : Nat}
    (hrd : h.removeDependency = some (h1, enq1)) (hge : c + 1 ≤ h.dependenciesLeft) :
    afterNotify h1 c = afterNotify h (c + 1) := by
  obtain ⟨r1, r2, r3, r4⟩ := removeDependency_spec hrd
  by_cases hcase : h.dependenciesLeft - 1 = 0 ∧ h.state = HState.waiting
  case pos =>
    rw [if_pos hcase] at r4
    obtain ⟨re, rs, rt, rh⟩ := r4
    have hc0 : c = 0 := by omega
    subst hc0
    ext <;> simp only [afterNotify] <;> split_ifs <;>
      (try contradiction) <;> (try simp_all) <;> (try omega)
  case neg =>
    rw [if_neg hcase] at r4
    obtain ⟨re, rs, rt⟩ := r4
    ext <;> simp only [afterNotify] <;> split_ifs <;>
      (try contradiction) <;> (try simp_all) <;> (try omega)

end TaskModel

namespace TaskModel

theorem notifyAll_spec {p : Nat} {ds : List Nat} {hs hs2 : List Handle}
    {enqs : List Nat} {evs : List Ev}
    (hstep : notifyAll p hs ds = some (hs2, enqs, evs))
    (hcnt : ∀ e ∈ ds, ∃ h, hs[e]? = some h ∧ ds.count e ≤ h.dependenciesLeft) :
    hs2.length = hs.length ∧
    (∀ u h, hs[u]? = some h → hs2[u]? = some (afterNotify h (ds.count u))) ∧
    (∀ u, u ∈ enqs ↔ ∃ h, hs[u]? = some h ∧ ds.count u ≠ 0 ∧
      h.dependenciesLeft = ds.count u ∧ h.state = HState.waiting ∧
      h.submitTask = true) ∧
    enqs.Nodup ∧
    (∀ ev ∈ evs, (∃ u, u ∈ ds ∧ ev = Ev.notified p u) ∨
      (∃ u, u ∈ enqs ∧ ev = Ev.enq u)) ∧
    (∀ u, Ev.enq u ∈ evs ↔ u ∈ enqs) ∧
    (∀ u, Ev.notified p u ∈ evs ↔ u ∈ ds) ∧
    (∀ u h, hs[u]? = some h → ds.count u ≠ 0 → h.dependenciesLeft = ds.count u →
      h.state = HState.waiting → h.submitTask = true) := by
  induction ds generalizing hs hs2 enqs evs with
  | nil =>
      unfold notifyAll at hstep
      cases hstep
      refine ⟨rfl, ?_, ?_, List.nodup_nil, ?_, ?_, ?_, ?_⟩
      · intro u h hu
        simpa [afterNotify] using hu
      · intro u
        simp
      · intro ev hev
        cases hev
      · intro u
        simp
      · intro u
        simp
      · intro u h _ hcnt0 _ _
        simp at hcnt0
  | cons d ds ih =>
      unfold notifyAll at hstep
      rcases h1 : notifyOne hs d with _ | pr1
      · rw [h1] at hstep
        exact Option.noConfusion hstep
      rcases pr1 with ⟨hs1, enq1⟩
      rw [h1] at hstep
      dsimp only at hstep
      rcases h2 : notifyAll p hs1 ds with _ | pr2
      · rw [h2] at hstep
        exact Option.noConfusion hstep
      rcases pr2 with ⟨hs2x, enqs2, evs2⟩
      rw [h2] at hstep
      dsimp only at hstep
      rw [Option.some.injEq, Prod.mk.injEq] at hstep
      obtain ⟨e1, hstep2⟩ := hstep
      rw [Prod.mk.injEq] at hstep2
      obtain ⟨e2, e3⟩ := hstep2
      subst e1
      subst e2
      subst e3
      obtain ⟨h, hd1, hget, hrd, hset⟩ := notifyOne_spec h1
      subst hset
      have hdlt : d < hs.length := getElem?_lt hget
      obtain ⟨hh, hgh, hch⟩ := hcnt d (List.mem_cons_self d ds)
      rw [hget, Option.some.injEq] at hgh
      subst hgh
      have hcd : (d :: ds).count d = ds.count d + 1 := by
        simp [List.count_cons]
      have hge : ds.count d + 1 ≤ h.dependenciesLeft := by
        rw [← hcd]
        exact hch
      obtain ⟨r1, r2, r3, r4⟩ := removeDependency_spec hrd
      have hset_self : (hs.set d hd1)[d]? = some hd1 := by
        rw [List.getElem?_set_self hdlt]
      have hcnt2 : ∀ e ∈ ds, ∃ hx, (hs.set d hd1)[e]? = some hx ∧
          ds.count e ≤ hx.dependenciesLeft := by
        intro e he
        by_cases hed : e = d
        · subst hed
          refine ⟨hd1, hset_self, ?_⟩
          rw [r1]
          omega
        · obtain ⟨hx, hgx, hcx⟩ := hcnt e (List.mem_cons_of_mem d he)
          refine ⟨hx, ?_, Nat.le_trans ?_ hcx⟩
          · rw [List.getElem?_set_ne (fun hc => hed hc.symm)]
            exact hgx
          · rw [List.count_cons]
            omega
      obtain ⟨ihl, ihmain, ihenq, ihnd, ihev, ihev2, ihev3, ihsubm⟩ := ih h2 hcnt2
      have hlen : hs2x.length = hs.length := by
        rw [ihl, List.length_set]
      have hcount_ne : ∀ u : Nat, u ≠ d → (d :: ds).count u = ds.count u := by
        intro u hu
        simp [List.count_cons, hu]
      have hmain : ∀ u hu, hs[u]? = some hu →
          hs2x[u]? = some (afterNotify hu ((d :: ds).count u)) := by
        intro u hu hgu
        by_cases hud : u = d
        · subst hud
          rw [hget, Option.some.injEq] at hgu
          subst hgu
          rw [ihmain u hd1 hset_self, hcd]
          rw [afterNotify_removeDependency hrd hge]
        · have hgu1 : (hs.set d hd1)[u]? = some hu := by
            rw [List.getElem?_set_ne (fun hc => hud hc.symm)]
            exact hgu
          rw [ihmain u hu hgu1, hcount_ne u hud]
      have henq1_pos : enq1 = true →
          ds.count d = 0 ∧ h.dependenciesLeft = 1 ∧ h.state = HState.waiting ∧
            h.submitTask = true := by
        intro he
        by_cases hcase : h.dependenciesLeft - 1 = 0 ∧ h.state = HState.waiting
        · rw [if_pos hcase] at r4
          exact ⟨by omega, by omega, hcase.2, r4.2.2.2⟩
        · rw [if_neg hcase] at r4
          rw [r4.1] at he
          exact Bool.noConfusion he
      have henq1_neg : enq1 = false →
          hd1.state = h.state ∧ hd1.submitTask = h.submitTask := by
        intro he
        by_cases hcase : h.dependenciesLeft - 1 = 0 ∧ h.state = HState.waiting
        · rw [if_pos hcase] at r4
          rw [r4.1] at he
          exact Bool.noConfusion he
        · rw [if_neg hcase] at r4
          exact ⟨r4.2.1, r4.2.2⟩
      have henqs : ∀ u : Nat, u ∈ (if enq1 then [d] else []) ++ enqs2 ↔
          ∃ hx, hs[u]? = some hx ∧ (d :: ds).count u ≠ 0 ∧
            hx.dependenciesLeft = (d :: ds).count u ∧ hx.state = HState.waiting ∧
            hx.submitTask = true := by
        intro u
        by_cases hud : u = d
        · subst hud
          rw [hcd]
          constructor
          · intro hmem
            rw [List.mem_append] at hmem
            rcases hmem with hmem | hmem
            · rcases he : enq1 with _ | _
              · rw [he] at hmem
                cases hmem
              · obtain ⟨hz, h1eq, hw, hsx⟩ := henq1_pos he
                exact ⟨h, hget, by omega, by omega, hw, hsx⟩
            · obtain ⟨hx, hgx, hnz, hdx, hwx, hsx⟩ := (ihenq u).mp hmem
              rw [hset_self, Option.some.injEq] at hgx
              subst hgx
              rcases he : enq1 with _ | _
              · obtain ⟨hs1eq, hs2eq⟩ := henq1_neg he
                refine ⟨h, hget, by omega, by omega, ?_, ?_⟩
                · rw [← hs1eq]
                  exact hwx
                · rw [← hs2eq]
                  exact hsx
              · obtain ⟨hz, h1eq, hw, hsx2⟩ := henq1_pos he
                exfalso
                rw [r1] at hdx
                omega
          · intro hx
            obtain ⟨hx2, hgx, hnz, hdx, hwx, hsx⟩ := hx
            rw [hget, Option.some.injEq] at hgx
            subst hgx
            rw [List.mem_append]
            by_cases hc0 : ds.count u = 0
            · left
              by_cases hcase : h.dependenciesLeft - 1 = 0 ∧ h.state = HState.waiting
              · rw [if_pos hcase] at r4
                rw [r4.1]
                exact List.mem_singleton_self u
              · exfalso
                exact hcase ⟨by omega, hwx⟩
            · right
              apply (ihenq u).mpr
              by_cases hcase : h.dependenciesLeft - 1 = 0 ∧ h.state = HState.waiting
              · exfalso
                omega
              · rw [if_neg hcase] at r4
                refine ⟨hd1, hset_self, hc0, by omega, ?_, ?_⟩
                · rw [r4.2.1]
                  exact hwx
                · rw [r4.2.2]
                  exact hsx
        · rw [List.mem_append]
          have hni : u ∉ (if enq1 then [d] else []) := by
            rcases enq1 with _ | _
            · simp
            · simp [hud]
          rw [hcount_ne u hud]
          constructor
          · intro hmem
            rcases hmem with hmem | hmem
            · exact absurd hmem hni
            · obtain ⟨hx, hgx, rest⟩ := (ihenq u).mp hmem
              rw [List.getElem?_set_ne (fun hc => hud hc.symm)] at hgx
              exact ⟨hx, hgx, rest⟩
          · intro hx
            obtain ⟨hx2, hgx, rest⟩ := hx
            right
            apply (ihenq u).mpr
            refine ⟨hx2, ?_, rest⟩
            rw [List.getElem?_set_ne (fun hc => hud hc.symm)]
            exact hgx
      have hnd : ((if enq1 then [d] else []) ++ enqs2).Nodup := by
        rcases he : enq1 with _ | _
        · simpa using ihnd
        · have hrw : ((if true then [d] else []) : List Nat) ++ enqs2 = d :: enqs2 := by
            simp
          rw [hrw, List.nodup_cons]
          refine ⟨?_, ihnd⟩
          intro hmem
          obtain ⟨hx, hgx, hnz, hdx, hwx, hsx⟩ := (ihenq d).mp hmem
          rw [hset_self, Option.some.injEq] at hgx
          subst hgx
          obtain ⟨hz, h1eq, hw, hsx2⟩ := henq1_pos he
          rw [r1] at hdx
          omega
      refine ⟨hlen, hmain, henqs, hnd, ?_, ?_, ?_, ?_⟩
      · intro ev hev
        rw [List.mem_append] at hev
        rcases hev with hev | hev
        · rw [List.mem_append] at hev
          rcases hev with hev | hev
          · rw [List.mem_singleton] at hev
            exact Or.inl ⟨d, List.mem_cons_self d ds, hev⟩
          · rcases he : enq1 with _ | _
            · rw [he] at hev
              simp at hev
            · rw [he] at hev
              simp only [if_true, List.mem_singleton] at hev
              refine Or.inr ⟨d, ?_, hev⟩
              rw [List.mem_append]
              left
              simp [he]
        · rcases ihev ev hev with ⟨u, hu, he⟩ | ⟨u, hu, he⟩
          · exact Or.inl ⟨u, List.mem_cons_of_mem d hu, he⟩
          · refine Or.inr ⟨u, ?_, he⟩
            rw [List.mem_append]
            exact Or.inr hu
      · intro u
        constructor
        · intro hmem
          rw [List.mem_append] at hmem
          rw [List.mem_append]
          rcases hmem with hmem | hmem
          · rw [List.mem_append] at hmem
            rcases hmem with hmem | hmem
            · rw [List.mem_singleton] at hmem
              cases hmem
            · rcases he : enq1 with _ | _
              · rw [he] at hmem
                simp at hmem
              · rw [he] at hmem
                simp only [if_true, List.mem_singleton] at hmem
                cases hmem
                left
                simp [he]
          · exact Or.inr ((ihev2 u).mp hmem)
        · intro hmem
          rw [List.mem_append] at hmem
          rw [List.mem_append]
          rcases hmem with hmem | hmem
          · left
            rw [List.mem_append]
            right
            rcases he : enq1 with _ | _
            · rw [he] at hmem
              simp at hmem
            · rw [he] at hmem
              simp only [if_true, List.mem_singleton] at hmem
              rw [hmem]
              simp [he]
          · right
            exact (ihev2 u).mpr hmem
      · intro u
        constructor
        · intro hmem
          rw [List.mem_append] at hmem
          rcases hmem with hmem | hmem
          · rw [List.mem_append] at hmem
            rcases hmem with hmem | hmem
            · rw [List.mem_singleton] at hmem
              cases hmem
              exact List.mem_cons_self d ds
            · rcases he : enq1 with _ | _
              · rw [he] at hmem
                simp at hmem
              · rw [he] at hmem
                simp only [if_true, List.mem_singleton] at hmem
                cases hmem
          · exact List.mem_cons_of_mem d ((ihev3 u).mp hmem)
        · intro hmem
          rcases List.mem_cons.mp hmem with hmem | hmem
          · subst hmem
            rw [List.mem_append]
            left
            rw [List.mem_append]
            left
            exact List.mem_singleton_self (Ev.notified p u)
          · rw [List.mem_append]
            right
            exact (ihev3 u).mpr hmem
      · intro u hu hgu hcnt0 hdeq hw
        by_cases hud : u = d
        · subst hud
          rw [hget, Option.some.injEq] at hgu
          subst hgu
          by_cases hz : h.dependenciesLeft - 1 = 0
          · rw [if_pos ⟨hz, hw⟩] at r4
            exact r4.2.2.2
          · have hcase : ¬ (h.dependenciesLeft - 1 = 0 ∧ h.state = HState.waiting) :=
              fun hc => hz hc.1
            rw [if_neg hcase] at r4
            have hdds : ds.count u = h.dependenciesLeft - 1 := by
              rw [hcd] at hdeq
              omega
            have hsubm2 := ihsubm u hd1 hset_self (by
                rw [← r1] at hdds
                intro hc
                rw [hc] at hdds
                exact hz (by omega)) (by
                rw [r1]
                exact hdds.symm) (by
                rw [r4.2.1]
                exact hw)
            rw [r4.2.2] at hsubm2
            exact hsubm2
        · have hgu1 : (hs.set d hd1)[u]? = some hu := by
            rw [List.getElem?_set_ne (fun hc => hud hc.symm)]
            exact hgu
          exact ihsubm u hu hgu1 (by
              rw [hcount_ne u hud] at hcnt0
              exact hcnt0) (by
              rw [hcount_ne u hud] at hdeq
              exact hdeq) hw

end TaskModel

namespace TaskModel

theorem mem_app1 {α : Type} {tr : List α} {a ev : α} (hne : a ≠ ev) :
    (a ∈ tr ++ [ev]) ↔ a ∈ tr := by
  simp [List.mem_append, hne]

theorem count_app1 {α : Type} [DecidableEq α] {tr : List α} {a ev : α} (hne : a ≠ ev) :
    (tr ++ [ev]).count a = tr.count a := by
  rw [List.count_append]
  simp [List.count_singleton', hne]

theorem count_app1_self {α : Type} [DecidableEq α] {tr : List α} {a : α} :
    (tr ++ [a]).count a = tr.count a + 1 := by
  rw [List.count_append]
  simp [List.count_singleton']

theorem OrdIn.append_of_ne {tr : List Ev} {a b ev : Ev} (h : OrdIn tr a b)
    (hne : b ≠ ev) : OrdIn (tr ++ [ev]) a b := by
  apply OrdIn.append h
  intro hb
  rw [List.mem_singleton] at hb
  exact absurd hb hne

theorem OrdIn.append_present {tr : List Ev} {a b ev : Ev} (h : OrdIn tr a b)
    (hpres : b = ev → a ∈ tr) : OrdIn (tr ++ [ev]) a b := by
  apply OrdIn.append h
  intro hb
  rw [List.mem_singleton] at hb
  exact hpres hb

theorem startOrd_append {tr evs : List Ev}
    (h : ∀ (pos : Nat) (p d : Nat), tr[pos]? = some (Ev.start d) →
      Ev.edgeAdded p d ∈ tr →
      (∃ m : Nat, m < pos ∧ tr[m]? = some (Ev.ret p)) ∧
      (∃ m : Nat, m < pos ∧ tr[m]? = some (Ev.publish p)))
    (hnostart : ∀ d, Ev.start d ∉ evs)
    (hnoedge : ∀ p d, Ev.edgeAdded p d ∉ evs) :
    ∀ (pos : Nat) (p d : Nat), (tr ++ evs)[pos]? = some (Ev.start d) →
      Ev.edgeAdded p d ∈ tr ++ evs →
      (∃ m : Nat, m < pos ∧ (tr ++ evs)[m]? = some (Ev.ret p)) ∧
      (∃ m : Nat, m < pos ∧ (tr ++ evs)[m]? = some (Ev.publish p)) := by
  intro pos p d hpos hedge
  rcases getElem?_append_cases hpos with hl | ⟨_, hr⟩
  · have hedge2 : Ev.edgeAdded p d ∈ tr := by
      rw [List.mem_append] at hedge
      rcases hedge with he | he
      · exact he
      · exact absurd he (hnoedge p d)
    obtain ⟨⟨m1, hm1, hg1⟩, ⟨m2, hm2, hg2⟩⟩ := h pos p d hl hedge2
    exact ⟨⟨m1, hm1, getElem?_append_l hg1⟩, ⟨m2, hm2, getElem?_append_l hg2⟩⟩
  · exact absurd (getElem?_mem hr) (hnostart d)

theorem nestOrd_append {tr evs : List Ev} {cells cells2 : List (Option Nat)}
    (h : ∀ (pos : Nat) (t : Nat), tr[pos]? = some (Ev.joinedNested t) →
      ∃ inner, cells.getD t none = some inner ∧
        ∃ m : Nat, m < pos ∧ tr[m]? = some (Ev.ret inner))
    (hno : ∀ t, Ev.joinedNested t ∉ evs) (hc : CellsLe cells cells2) :
    ∀ (pos : Nat) (t : Nat), (tr ++ evs)[pos]? = some (Ev.joinedNested t) →
      ∃ inner, cells2.getD t none = some inner ∧
        ∃ m : Nat, m < pos ∧ (tr ++ evs)[m]? = some (Ev.ret inner) := by
  intro pos t hpos
  rcases getElem?_append_cases hpos with hl | ⟨_, hr⟩
  · obtain ⟨inner, hcell, m, hm, hg⟩ := h pos t hl
    exact ⟨inner, hc t inner hcell, m, hm, getElem?_append_l hg⟩
  · exact absurd (getElem?_mem hr) (hno t)

theorem take_succ_of_getElem {l : List MInstr} {n : Nat} {i : MInstr}
    (h : l[n]? = some i) : l.take (n + 1) = l.take n ++ [i] := by
  rw [List.take_succ, h]
  rfl

end TaskModel

namespace TaskModel

theorem inv_inert_main {cfg : Config} {instr : MInstr} {ev : Ev} {act2 : Nat}
    (hInv : Inv cfg)
    (hprog : cfg.prog[cfg.pc]? = some instr)
    (hnc : ∀ c g, MInstr.create c g ≠ instr)
    (hss : ∀ t, (Ev.submitSet t = ev ↔ MInstr.setSubmit t = instr))
    (hinc : ∀ t, (Ev.inc t = ev ↔ MInstr.incActive t = instr))
    (h1 : ∀ t, Ev.enq t ≠ ev) (h2 : ∀ t, Ev.start t ≠ ev) (h3 : ∀ t, Ev.ret t ≠ ev)
    (h4 : ∀ t, Ev.publish t ≠ ev) (h5 : ∀ t, Ev.finished t ≠ ev)
    (h6 : ∀ t, Ev.dec t ≠ ev) (h7 : ∀ p d, Ev.notified p d ≠ ev)
    (h8 : ∀ p d, Ev.edgeAdded p d ≠ ev)
    (h9 : ∀ t, Ev.joinedNested t = ev →
      ∃ inner, cfg.cells.getD t none = some inner ∧ Ev.ret inner ∈ cfg.trace) :
    Inv { cfg with pc := cfg.pc + 1, active := act2, trace := cfg.trace ++ [ev] } := by
  have htake : cfg.prog.take (cfg.pc + 1) = cfg.prog.take cfg.pc ++ [instr] :=
    take_succ_of_getElem hprog
  refine
    { lenCells := hInv.lenCells
      lenTasks := hInv.lenTasks
      tasksLink := ?_
      ssLink := ?_
      incLink := ?_
      poolNodup := hInv.poolNodup
      poolLt := hInv.poolLt
      runLt := hInv.runLt
      runKeys := hInv.runKeys
      pendWf := hInv.pendWf
      stSub := ?_
      stFin := ?_
      enqLt := ?_
      ssTr := ?_
      poolTr := ?_
      runTr1 := ?_
      runTr2 := ?_
      runTr3 := ?_
      runTr4 := ?_
      cellTr := ?_
      valInv := hInv.valInv
      ordStartEnq := fun t => (hInv.ordStartEnq t).append_of_ne (h2 t)
      ordRetStart := fun t => (hInv.ordRetStart t).append_of_ne (h3 t)
      ordPubRet := fun t => (hInv.ordPubRet t).append_of_ne (h4 t)
      ordFinPub := fun t => (hInv.ordFinPub t).append_of_ne (h5 t)
      ordDecFin := fun t => (hInv.ordDecFin t).append_of_ne (h6 t)
      ordEnqSS := fun t => (hInv.ordEnqSS t).append_of_ne (h1 t)
      ordNotPub := fun p d => (hInv.ordNotPub p d).append_of_ne (h7 p d)
      startOrd := startOrd_append hInv.startOrd
        (fun d hc => h2 d (List.mem_singleton.mp hc))
        (fun p d hc => h8 p d (List.mem_singleton.mp hc))
      nestOrd := ?_
      depsPend := hInv.depsPend
      depsFin := hInv.depsFin
      leftPend := hInv.leftPend
      edgeFin := ?_ }
  · rw [htake, createsOf_append]
    have hci : createsOf [instr] = [] := by
      cases instr <;> first
        | rfl
        | (exact absurd rfl (hnc _ _))
    rw [hci, List.append_nil]
    exact hInv.tasksLink
  · intro t
    rw [htake]
    constructor
    · intro hm
      rw [List.mem_append] at hm
      rcases hm with hm | hm
      · rw [List.mem_append]
        exact Or.inl ((hInv.ssLink t).mp hm)
      · rw [List.mem_singleton] at hm
        rw [List.mem_append]
        right
        rw [List.mem_singleton]
        exact (hss t).mp hm
    · intro hm
      rw [List.mem_append] at hm
      rcases hm with hm | hm
      · rw [List.mem_append]
        exact Or.inl ((hInv.ssLink t).mpr hm)
      · rw [List.mem_singleton] at hm
        rw [List.mem_append]
        right
        rw [List.mem_singleton]
        exact (hss t).mpr hm
  · intro t
    rw [htake, List.count_append, List.count_append, hInv.incLink t]
    congr 1
    rw [List.count_singleton', List.count_singleton']
    by_cases hc : ev = Ev.inc t
    · rw [if_pos hc, if_pos ((hinc t).mp hc.symm).symm]
    · rw [if_neg hc, if_neg (fun hd => hc ((hinc t).mpr hd.symm).symm)]
  · intro t h hg
    rw [mem_app1 (h1 t)]
    exact hInv.stSub t h hg
  · intro t h hg
    rw [mem_app1 (h5 t)]
    exact hInv.stFin t h hg
  · intro t hm
    rw [mem_app1 (h1 t)] at hm
    exact hInv.enqLt t hm
  · intro t h hg hsub
    rw [List.mem_append]
    exact Or.inl (hInv.ssTr t h hg hsub)
  · intro t
    rw [mem_app1 (h1 t), mem_app1 (h2 t)]
    exact hInv.poolTr t
  · intro t
    rw [mem_app1 (h2 t), mem_app1 (h3 t)]
    exact hInv.runTr1 t
  · intro t
    rw [mem_app1 (h3 t), mem_app1 (h4 t)]
    exact hInv.runTr2 t
  · intro t
    rw [mem_app1 (h4 t), mem_app1 (h5 t)]
    exact hInv.runTr3 t
  · intro t hp
    obtain ⟨a, b, c⟩ := hInv.runTr4 t hp
    exact ⟨(mem_app1 (h5 t)).mpr a, fun hc => b ((mem_app1 (h6 t)).mp hc), c⟩
  · intro t
    rw [mem_app1 (h4 t)]
    exact hInv.cellTr t
  · intro pos t hpos
    rcases getElem?_append_cases hpos with hl | ⟨hge2, hr⟩
    · obtain ⟨inner, hcell, m, hm, hg⟩ := hInv.nestOrd pos t hl
      exact ⟨inner, hcell, m, hm, getElem?_append_l hg⟩
    · have hev : Ev.joinedNested t = ev := List.mem_singleton.mp (getElem?_mem hr)
      obtain ⟨inner, hcell, hret⟩ := h9 t hev
      obtain ⟨m, hg⟩ := mem_getElem? hret
      exact ⟨inner, hcell, m, Nat.lt_of_lt_of_le (getElem?_lt hg) hge2,
        getElem?_append_l hg⟩
  · intro p d hm
    rw [mem_app1 (h8 p d)] at hm
    rcases hInv.edgeFin p d hm with hh | hh
    · exact Or.inl hh
    · exact Or.inr ((mem_app1 (h5 p)).mpr hh)

end TaskModel

namespace TaskModel

theorem Inv.enq_of_start {cfg : Config} (hInv : Inv cfg) {t : Nat}
    (h : Ev.start t ∈ cfg.trace) : Ev.enq t ∈ cfg.trace :=
  (hInv.ordStartEnq t).mem h

theorem Inv.enq_of_ret {cfg : Config} (hInv : Inv cfg) {t : Nat}
    (h : Ev.ret t ∈ cfg.trace) : Ev.enq t ∈ cfg.trace :=
  hInv.enq_of_start ((hInv.ordRetStart t).mem h)

theorem Inv.enq_of_publish {cfg : Config} (hInv : Inv cfg) {t : Nat}
    (h : Ev.publish t ∈ cfg.trace) : Ev.enq t ∈ cfg.trace :=
  hInv.enq_of_ret ((hInv.ordPubRet t).mem h)

theorem Inv.enq_of_finished {cfg : Config} (hInv : Inv cfg) {t : Nat}
    (h : Ev.finished t ∈ cfg.trace) : Ev.enq t ∈ cfg.trace :=
  hInv.enq_of_publish ((hInv.ordFinPub t).mem h)

theorem Inv.enq_of_dec {cfg : Config} (hInv : Inv cfg) {t : Nat}
    (h : Ev.dec t ∈ cfg.trace) : Ev.enq t ∈ cfg.trace :=
  hInv.enq_of_finished ((hInv.ordDecFin t).mem h)

theorem countP_eq_zero_of_bounds {pending : List (Nat × Nat)} {n : Nat}
    (hb : ∀ e ∈ pending, e.2 < n) :
    pending.countP (fun e => e.2 = n) = 0 := by
  rw [List.countP_eq_zero]
  intro e he
  simp only [decide_eq_true_eq]
  exact Nat.ne_of_lt (hb e he)

theorem filter_eq_nil_of_bounds {pending : List (Nat × Nat)} {n : Nat}
    (hb : ∀ e ∈ pending, e.1 < n) :
    pending.filter (fun e => e.1 = n) = [] := by
  rw [List.filter_eq_nil]
  intro e he
  simp only [decide_eq_true_eq]
  exact Nat.ne_of_lt (hb e he)

theorem inv_main_create {cfg : Config} {call : Callable} {g : Bool}
    (hInv : Inv cfg)
    (hprog : cfg.prog[cfg.pc]? = some (MInstr.create call g)) :
    Inv { cfg with
      pc := cfg.pc + 1,
      tasks := cfg.tasks ++ [⟨call, g⟩],
      handles := cfg.handles ++ [Handle.init],
      cells := cfg.cells ++ [none],
      trace := cfg.trace ++ [Ev.created cfg.tasks.length] } := by
  have htake : cfg.prog.take (cfg.pc + 1) = cfg.prog.take cfg.pc ++ [MInstr.create call g] :=
    take_succ_of_getElem hprog
  set n := cfg.handles.length with hn
  have hlt : cfg.tasks.length = n := hInv.lenTasks
  have hcl : cfg.cells.length = n := hInv.lenCells
  have hgetH : ∀ t : Nat, t < n →
      (cfg.handles ++ [Handle.init])[t]? = cfg.handles[t]? := by
    intro t ht
    exact List.getElem?_append_left ht
  have hgetH2 : (cfg.handles ++ [Handle.init])[n]? = some Handle.init := by
    rw [List.getElem?_append_right (Nat.le_refl n)]
    simp
  have hgetT : ∀ t : Nat, t < n →
      (cfg.tasks ++ [(⟨call, g⟩ : TaskRec)])[t]? = cfg.tasks[t]? := by
    intro t ht
    exact List.getElem?_append_left (by omega)
  have hCle : CellsLe cfg.cells (cfg.cells ++ [none]) := CellsLe.grow
  have hcellE : ∀ t : Nat, (cfg.cells ++ [none]).getD t none = cfg.cells.getD t none := by
    intro t
    rw [List.getD_eq_getElem?_getD, List.getD_eq_getElem?_getD]
    rcases Nat.lt_or_ge t cfg.cells.length with ht | ht
    · rw [List.getElem?_append_left ht]
    · have hrhs : cfg.cells[t]? = none := List.getElem?_eq_none ht
      rw [hrhs]
      by_cases ht2 : t = cfg.cells.length
      · subst ht2
        have hsome : (cfg.cells ++ [none])[cfg.cells.length]? = some none := by
          simp
        rw [hsome]
        rfl
      · have hnone : (cfg.cells ++ [none])[t]? = none := by
          apply List.getElem?_eq_none
          simp only [List.length_append, List.length_singleton]
          omega
        rw [hnone]
  refine
    { lenCells := by
        simp only [List.length_append, List.length_singleton]
        omega
      lenTasks := by
        simp only [List.length_append, List.length_singleton]
        omega
      tasksLink := by
        rw [htake, createsOf_append, ← hInv.tasksLink]
        rfl
      ssLink := ?_
      incLink := ?_
      poolNodup := hInv.poolNodup
      poolLt := fun t ht => by
        have := hInv.poolLt t ht
        simp only [List.length_append, List.length_singleton]
        omega
      runLt := ?_
      runKeys := hInv.runKeys
      pendWf := ?_
      stSub := ?_
      stFin := ?_
      enqLt := ?_
      ssTr := ?_
      poolTr := ?_
      runTr1 := ?_
      runTr2 := ?_
      runTr3 := ?_
      runTr4 := ?_
      cellTr := ?_
      valInv := ?_
      ordStartEnq := fun t => (hInv.ordStartEnq t).append_of_ne (by simp)
      ordRetStart := fun t => (hInv.ordRetStart t).append_of_ne (by simp)
      ordPubRet := fun t => (hInv.ordPubRet t).append_of_ne (by simp)
      ordFinPub := fun t => (hInv.ordFinPub t).append_of_ne (by simp)
      ordDecFin := fun t => (hInv.ordDecFin t).append_of_ne (by simp)
      ordEnqSS := fun t => (hInv.ordEnqSS t).append_of_ne (by simp)
      ordNotPub := fun p d => (hInv.ordNotPub p d).append_of_ne (by simp)
      startOrd := startOrd_append hInv.startOrd (by simp) (by simp)
      nestOrd := ?_
      depsPend := ?_
      depsFin := ?_
      leftPend := ?_
      edgeFin := ?_ }
  · intro t
    rw [htake, mem_app1 (by simp), mem_app1 (by simp)]
    exact hInv.ssLink t
  · intro t
    rw [htake, count_app1 (by simp), count_app1 (by simp)]
    exact hInv.incLink t
  · intro e he
    have := hInv.runLt e he
    simp only [List.length_append, List.length_singleton]
    omega
  · intro e he
    obtain ⟨a, b, c⟩ := hInv.pendWf e he
    refine ⟨a, ?_, ?_⟩ <;>
      · simp only [List.length_append, List.length_singleton]
        omega
  · intro t h hg
    by_cases ht : t < n
    · rw [hgetH t ht] at hg
      rw [mem_app1 (by simp)]
      exact hInv.stSub t h hg
    · by_cases ht2 : t = n
      · subst ht2
        rw [hgetH2, Option.some.injEq] at hg
        subst hg
        rw [mem_app1 (by simp)]
        constructor
        · intro hc
          rcases hc with hc | hc <;> exact HState.noConfusion hc
        · intro hc
          exact absurd (hInv.enqLt n hc) (by omega)
      · rw [List.getElem?_append_right (by omega)] at hg
        rw [List.getElem?_eq_none (by simp; omega)] at hg
        exact Option.noConfusion hg
  · intro t h hg
    by_cases ht : t < n
    · rw [hgetH t ht] at hg
      rw [mem_app1 (by simp)]
      exact hInv.stFin t h hg
    · by_cases ht2 : t = n
      · subst ht2
        rw [hgetH2, Option.some.injEq] at hg
        subst hg
        rw [mem_app1 (by simp)]
        constructor
        · intro hc
          exact HState.noConfusion hc
        · intro hc
          exact absurd (hInv.enqLt n (hInv.enq_of_finished hc)) (by omega)
      · rw [List.getElem?_append_right (by omega)] at hg
        rw [List.getElem?_eq_none (by simp; omega)] at hg
        exact Option.noConfusion hg
  · intro t hm
    rw [mem_app1 (by simp)] at hm
    have := hInv.enqLt t hm
    simp only [List.length_append, List.length_singleton]
    omega
  · intro t h hg hsub
    by_cases ht : t < n
    · rw [hgetH t ht] at hg
      rw [mem_app1 (by simp)]
      exact hInv.ssTr t h hg hsub
    · by_cases ht2 : t = n
      · subst ht2
        rw [hgetH2, Option.some.injEq] at hg
        subst hg
        exact Bool.noConfusion hsub
      · rw [List.getElem?_append_right (by omega)] at hg
        rw [List.getElem?_eq_none (by simp; omega)] at hg
        exact Option.noConfusion hg
  · intro t
    rw [mem_app1 (by simp), mem_app1 (by simp)]
    exact hInv.poolTr t
  · intro t
    rw [mem_app1 (by simp), mem_app1 (by simp)]
    exact hInv.runTr1 t
  · intro t
    rw [mem_app1 (by simp), mem_app1 (by simp)]
    exact hInv.runTr2 t
  · intro t
    rw [mem_app1 (by simp), mem_app1 (by simp)]
    exact hInv.runTr3 t
  · intro t hp
    obtain ⟨a, b, c⟩ := hInv.runTr4 t hp
    obtain ⟨r, hr, hrg⟩ := c
    have htl : t < n := by
      rw [← hlt]
      exact getElem?_lt hr
    refine ⟨(mem_app1 (by simp)).mpr a, fun hc => b ((mem_app1 (by simp)).mp hc),
      ⟨r, ?_, hrg⟩⟩
    rw [hgetT t htl]
    exact hr
  · intro t
    rw [hcellE t, mem_app1 (by simp)]
    exact hInv.cellTr t
  · intro t v r hr hor
    by_cases ht : t < n
    · rw [hgetT t ht] at hr
      rw [hcellE t] at hor
      exact evalCallable_mono hCle (hInv.valInv t v r hr hor)
    · exfalso
      rcases hor with hor | hor
      · have := phaseOf_isSome_mem hor
        have := hInv.runLt _ this
        simp only at this
        omega
      · rw [hcellE t] at hor
        have : Ev.publish t ∈ cfg.trace := (hInv.cellTr t).mp ⟨v, hor⟩
        exact absurd (hInv.enqLt t (hInv.enq_of_publish this)) (by omega)
  · intro pos t hpos
    rcases getElem?_append_cases hpos with hl | ⟨_, hr⟩
    · obtain ⟨inner, hcell, m, hm, hg⟩ := hInv.nestOrd pos t hl
      exact ⟨inner, hCle t inner hcell, m, hm, getElem?_append_l hg⟩
    · have := List.mem_singleton.mp (getElem?_mem hr)
      exact Ev.noConfusion this
  · intro p h hg hnf
    by_cases ht : p < n
    · rw [hgetH p ht] at hg
      exact hInv.depsPend p h hg hnf
    · by_cases ht2 : p = n
      · subst ht2
        rw [hgetH2, Option.some.injEq] at hg
        subst hg
        rw [filter_eq_nil_of_bounds (fun e he => (hInv.pendWf e he).2.1)]
        rfl
      · rw [List.getElem?_append_right (by omega)] at hg
        rw [List.getElem?_eq_none (by simp; omega)] at hg
        exact Option.noConfusion hg
  · intro p h hg hf
    by_cases ht : p < n
    · rw [hgetH p ht] at hg
      exact hInv.depsFin p h hg hf
    · by_cases ht2 : p = n
      · subst ht2
        rw [hgetH2, Option.some.injEq] at hg
        subst hg
        exact HState.noConfusion hf
      · rw [List.getElem?_append_right (by omega)] at hg
        rw [List.getElem?_eq_none (by simp; omega)] at hg
        exact Option.noConfusion hg
  · intro d h hg
    by_cases ht : d < n
    · rw [hgetH d ht] at hg
      exact hInv.leftPend d h hg
    · by_cases ht2 : d = n
      · subst ht2
        rw [hgetH2, Option.some.injEq] at hg
        subst hg
        constructor
        · intro _
          rw [countP_eq_zero_of_bounds (fun e he => (hInv.pendWf e he).2.2)]
          rfl
        · intro hc
          rcases hc with hc | hc <;> exact HState.noConfusion hc
      · rw [List.getElem?_append_right (by omega)] at hg
        rw [List.getElem?_eq_none (by simp; omega)] at hg
        exact Option.noConfusion hg
  · intro p d hm
    rw [mem_app1 (by simp)] at hm
    rcases hInv.edgeFin p d hm with hh | hh
    · exact Or.inl hh
    · exact Or.inr ((mem_app1 (by simp)).mpr hh)

end TaskModel

namespace TaskModel

theorem get_set_self {hs : List Handle} {t : Nat} {h h2 : Handle}
    (hg : hs[t]? = some h) : (hs.set t h2)[t]? = some h2 := by
  rw [List.getElem?_set_self (getElem?_lt hg)]

theorem get_set_other {hs : List Handle} {t u : Nat} {h2 : Handle} (hne : t ≠ u) :
    (hs.set t h2)[u]? = hs[u]? :=
  List.getElem?_set_ne hne

theorem inv_main_setSubmit {cfg : Config} {t : Nat} {h h2 : Handle}
    (hInv : Inv cfg)
    (hprog : cfg.prog[cfg.pc]? = some (MInstr.setSubmit t))
    (hg : cfg.handles[t]? = some h)
    (hss : h.setSubmitTask = some h2) :
    Inv { cfg with
      pc := cfg.pc + 1,
      handles := cfg.handles.set t h2,
      trace := cfg.trace ++ [Ev.submitSet t] } := by
  have htake : cfg.prog.take (cfg.pc + 1) = cfg.prog.take cfg.pc ++ [MInstr.setSubmit t] :=
    take_succ_of_getElem hprog
  have hcond : h.state = HState.preparing ∧ h.submitTask = false := by
    by_contra hc
    unfold Handle.setSubmitTask at hss
    rw [if_neg hc] at hss
    exact Option.noConfusion hss
  have hh2 : h2 = { h with submitTask := true } := by
    unfold Handle.setSubmitTask at hss
    rw [if_pos hcond, Option.some.injEq] at hss
    exact hss.symm
  subst hh2
  have hget : ∀ u : Nat, u ≠ t → (cfg.handles.set t { h with submitTask := true })[u]? =
      cfg.handles[u]? := by
    intro u hu
    exact get_set_other (fun hc => hu hc.symm)
  have hgets : (cfg.handles.set t { h with submitTask := true })[t]? =
      some { h with submitTask := true } := get_set_self hg
  refine
    { lenCells := by
        simp only [List.length_set]
        exact hInv.lenCells
      lenTasks := by
        simp only [List.length_set]
        exact hInv.lenTasks
      tasksLink := by
        rw [htake, createsOf_append]
        have hci : createsOf [MInstr.setSubmit t] = [] := rfl
        rw [hci, List.append_nil]
        exact hInv.tasksLink
      ssLink := ?_
      incLink := by
        intro u
        rw [htake, count_app1 (by simp), count_app1 (by simp)]
        exact hInv.incLink u
      poolNodup := hInv.poolNodup
      poolLt := by
        intro u hu
        have := hInv.poolLt u hu
        simpa [List.length_set] using this
      runLt := by
        intro e he
        have := hInv.runLt e he
        simpa [List.length_set] using this
      runKeys := hInv.runKeys
      pendWf := by
        intro e he
        obtain ⟨a, b, c⟩ := hInv.pendWf e he
        exact ⟨a, by simpa [List.length_set] using b, by simpa [List.length_set] using c⟩
      stSub := ?_
      stFin := ?_
      enqLt := by
        intro u hm
        rw [mem_app1 (by simp)] at hm
        have := hInv.enqLt u hm
        simpa [List.length_set] using this
      ssTr := ?_
      poolTr := by
        intro u
        rw [mem_app1 (by simp), mem_app1 (by simp)]
        exact hInv.poolTr u
      runTr1 := by
        intro u
        rw [mem_app1 (by simp), mem_app1 (by simp)]
        exact hInv.runTr1 u
      runTr2 := by
        intro u
        rw [mem_app1 (by simp), mem_app1 (by simp)]
        exact hInv.runTr2 u
      runTr3 := by
        intro u
        rw [mem_app1 (by simp), mem_app1 (by simp)]
        exact hInv.runTr3 u
      runTr4 := by
        intro u hp
        obtain ⟨a, b, c⟩ := hInv.runTr4 u hp
        exact ⟨(mem_app1 (by simp)).mpr a, fun hc => b ((mem_app1 (by simp)).mp hc), c⟩
      cellTr := by
        intro u
        rw [mem_app1 (by simp)]
        exact hInv.cellTr u
      valInv := hInv.valInv
      ordStartEnq := fun u => (hInv.ordStartEnq u).append_of_ne (by simp)
      ordRetStart := fun u => (hInv.ordRetStart u).append_of_ne (by simp)
      ordPubRet := fun u => (hInv.ordPubRet u).append_of_ne (by simp)
      ordFinPub := fun u => (hInv.ordFinPub u).append_of_ne (by simp)
      ordDecFin := fun u => (hInv.ordDecFin u).append_of_ne (by simp)
      ordEnqSS := fun u => (hInv.ordEnqSS u).append_of_ne (by simp)
      ordNotPub := fun p d => (hInv.ordNotPub p d).append_of_ne (by simp)
      startOrd := startOrd_append hInv.startOrd (by simp) (by simp)
      nestOrd := nestOrd_append hInv.nestOrd (by simp) CellsLe.rfl
      depsPend := ?_
      depsFin := ?_
      leftPend := ?_
      edgeFin := by
        intro p d hm
        rw [mem_app1 (by simp)] at hm
        rcases hInv.edgeFin p d hm with hh | hh
        · exact Or.inl hh
        · exact Or.inr ((mem_app1 (by simp)).mpr hh) }
  · intro u
    rw [htake]
    by_cases hu : u = t
    · subst hu
      constructor
      · intro _
        rw [List.mem_append]
        right
        exact List.mem_singleton_self _
      · intro _
        rw [List.mem_append]
        right
        exact List.mem_singleton_self _
    · rw [mem_app1 (by simp [hu]), mem_app1 (by simp [hu])]
      exact hInv.ssLink u
  · intro u hx hgx
    by_cases hu : u = t
    · subst hu
      rw [hgets, Option.some.injEq] at hgx
      subst hgx
      rw [mem_app1 (by simp)]
      exact hInv.stSub u h hg
    · rw [hget u hu] at hgx
      rw [mem_app1 (by simp)]
      exact hInv.stSub u hx hgx
  · intro u hx hgx
    by_cases hu : u = t
    · subst hu
      rw [hgets, Option.some.injEq] at hgx
      subst hgx
      rw [mem_app1 (by simp)]
      exact hInv.stFin u h hg
    · rw [hget u hu] at hgx
      rw [mem_app1 (by simp)]
      exact hInv.stFin u hx hgx
  · intro u hx hgx hsub
    by_cases hu : u = t
    · subst hu
      rw [List.mem_append]
      right
      exact List.mem_singleton_self _
    · rw [hget u hu] at hgx
      rw [List.mem_append]
      exact Or.inl (hInv.ssTr u hx hgx hsub)
  · intro p hx hgx hnf
    by_cases hu : p = t
    · subst hu
      rw [hgets, Option.some.injEq] at hgx
      subst hgx
      exact hInv.depsPend p h hg hnf
    · rw [hget p hu] at hgx
      exact hInv.depsPend p hx hgx hnf
  · intro p hx hgx hf
    by_cases hu : p = t
    · subst hu
      rw [hgets, Option.some.injEq] at hgx
      subst hgx
      exact hInv.depsFin p h hg hf
    · rw [hget p hu] at hgx
      exact hInv.depsFin p hx hgx hf
  · intro d hx hgx
    by_cases hu : d = t
    · subst hu
      rw [hgets, Option.some.injEq] at hgx
      subst hgx
      exact hInv.leftPend d h hg
    · rw [hget d hu] at hgx
      exact hInv.leftPend d hx hgx

end TaskModel

namespace TaskModel

theorem inv_main_addDep_reject {cfg : Config} {t p : Nat} {hp : Handle}
    (hInv : Inv cfg)
    (hprog : cfg.prog[cfg.pc]? = some (MInstr.addDep t p))
    (hgp : cfg.handles[p]? = some hp) :
    Inv { cfg with
      pc := cfg.pc + 1,
      handles := cfg.handles.set p hp,
      trace := cfg.trace ++ [Ev.edgeRejected p t] } := by
  have htake : cfg.prog.take (cfg.pc + 1) = cfg.prog.take cfg.pc ++ [MInstr.addDep t p] :=
    take_succ_of_getElem hprog
  have hgeq : ∀ u : Nat, (cfg.handles.set p hp)[u]? = cfg.handles[u]? := by
    intro u
    by_cases hu : u = p
    · subst hu
      rw [get_set_self hgp]
      exact hgp.symm
    · exact get_set_other (fun hc => hu hc.symm)
  refine
    { lenCells := by
        simp only [List.length_set]
        exact hInv.lenCells
      lenTasks := by
        simp only [List.length_set]
        exact hInv.lenTasks
      tasksLink := by
        rw [htake, createsOf_append]
        have hci : createsOf [MInstr.addDep t p] = [] := rfl
        rw [hci, List.append_nil]
        exact hInv.tasksLink
      ssLink := by
        intro u
        rw [htake, mem_app1 (by simp), mem_app1 (by simp)]
        exact hInv.ssLink u
      incLink := by
        intro u
        rw [htake, count_app1 (by simp), count_app1 (by simp)]
        exact hInv.incLink u
      poolNodup := hInv.poolNodup
      poolLt := by
        intro u hu
        have := hInv.poolLt u hu
        simpa [List.length_set] using this
      runLt := by
        intro e he
        have := hInv.runLt e he
        simpa [List.length_set] using this
      runKeys := hInv.runKeys
      pendWf := by
        intro e he
        obtain ⟨a, b, c⟩ := hInv.pendWf e he
        exact ⟨a, by simpa [List.length_set] using b, by simpa [List.length_set] using c⟩
      stSub := by
        intro u hx hgx
        rw [hgeq u] at hgx
        rw [mem_app1 (by simp)]
        exact hInv.stSub u hx hgx
      stFin := by
        intro u hx hgx
        rw [hgeq u] at hgx
        rw [mem_app1 (by simp)]
        exact hInv.stFin u hx hgx
      enqLt := by
        intro u hm
        rw [mem_app1 (by simp)] at hm
        have := hInv.enqLt u hm
        simpa [List.length_set] using this
      ssTr := by
        intro u hx hgx hsub
        rw [hgeq u] at hgx
        rw [List.mem_append]
        exact Or.inl (hInv.ssTr u hx hgx hsub)
      poolTr := by
        intro u
        rw [mem_app1 (by simp), mem_app1 (by simp)]
        exact hInv.poolTr u
      runTr1 := by
        intro u
        rw [mem_app1 (by simp), mem_app1 (by simp)]
        exact hInv.runTr1 u
      runTr2 := by
        intro u
        rw [mem_app1 (by simp), mem_app1 (by simp)]
        exact hInv.runTr2 u
      runTr3 := by
        intro u
        rw [mem_app1 (by simp), mem_app1 (by simp)]
        exact hInv.runTr3 u
      runTr4 := by
        intro u hp2
        obtain ⟨a, b, c⟩ := hInv.runTr4 u hp2
        exact ⟨(mem_app1 (by simp)).mpr a, fun hc => b ((mem_app1 (by simp)).mp hc), c⟩
      cellTr := by
        intro u
        rw [mem_app1 (by simp)]
        exact hInv.cellTr u
      valInv := hInv.valInv
      ordStartEnq := fun u => (hInv.ordStartEnq u).append_of_ne (by simp)
      ordRetStart := fun u => (hInv.ordRetStart u).append_of_ne (by simp)
      ordPubRet := fun u => (hInv.ordPubRet u).append_of_ne (by simp)
      ordFinPub := fun u => (hInv.ordFinPub u).append_of_ne (by simp)
      ordDecFin := fun u => (hInv.ordDecFin u).append_of_ne (by simp)
      ordEnqSS := fun u => (hInv.ordEnqSS u).append_of_ne (by simp)
      ordNotPub := fun q d => (hInv.ordNotPub q d).append_of_ne (by simp)
      startOrd := startOrd_append hInv.startOrd (by simp) (by simp)
      nestOrd := nestOrd_append hInv.nestOrd (by simp) CellsLe.rfl
      depsPend := by
        intro q hx hgx hnf
        rw [hgeq q] at hgx
        exact hInv.depsPend q hx hgx hnf
      depsFin := by
        intro q hx hgx hf
        rw [hgeq q] at hgx
        exact hInv.depsFin q hx hgx hf
      leftPend := by
        intro d hx hgx
        rw [hgeq d] at hgx
        exact hInv.leftPend d hx hgx
      edgeFin := by
        intro q d hm
        rw [mem_app1 (by simp)] at hm
        rcases hInv.edgeFin q d hm with hh | hh
        · exact Or.inl hh
        · exact Or.inr ((mem_app1 (by simp)).mpr hh) }

end TaskModel

namespace TaskModel

theorem inv_main_addDep_add {cfg : Config} {t p : Nat} {hd hp : Handle}
    (hInv : Inv cfg)
    (hprog : cfg.prog[cfg.pc]? = some (MInstr.addDep t p))
    (hgt : cfg.handles[t]? = some hd)
    (hgp : cfg.handles[p]? = some hp)
    (hne : t ≠ p)
    (hdpre : hd.state = HState.preparing)
    (hpnf : hp.state ≠ HState.finished) :
    Inv { cfg with
      pc := cfg.pc + 1,
      handles := ((cfg.handles.set p
        { hp with dependents := hp.dependents ++ [t] }).set t
        { hd with dependenciesLeft := hd.dependenciesLeft + 1 }),
      pending := cfg.pending ++ [(p, t)],
      trace := cfg.trace ++ [Ev.edgeAdded p t] } := by
  have htake : cfg.prog.take (cfg.pc + 1) = cfg.prog.take cfg.pc ++ [MInstr.addDep t p] :=
    take_succ_of_getElem hprog
  set hp2 : Handle := { hp with dependents := hp.dependents ++ [t] } with hhp2
  set hd2 : Handle := { hd with dependenciesLeft := hd.dependenciesLeft + 1 } with hhd2
  have hgt2 : ((cfg.handles.set p hp2).set t hd2)[t]? = some hd2 := by
    apply get_set_self
    rw [get_set_other (fun hc => hne hc.symm)]
    exact hgt
  have hgp2 : ((cfg.handles.set p hp2).set t hd2)[p]? = some hp2 := by
    rw [get_set_other hne]
    exact get_set_self hgp
  have hgo : ∀ u : Nat, u ≠ t → u ≠ p →
      ((cfg.handles.set p hp2).set t hd2)[u]? = cfg.handles[u]? := by
    intro u hut hup
    rw [get_set_other (fun hc => hut hc.symm), get_set_other (fun hc => hup hc.symm)]
  have hpltn : p < cfg.handles.length := getElem?_lt hgp
  have htltn : t < cfg.handles.length := getElem?_lt hgt
  refine
    { lenCells := by
        simp only [List.length_set]
        exact hInv.lenCells
      lenTasks := by
        simp only [List.length_set]
        exact hInv.lenTasks
      tasksLink := by
        rw [htake, createsOf_append]
        have hci : createsOf [MInstr.addDep t p] = [] := rfl
        rw [hci, List.append_nil]
        exact hInv.tasksLink
      ssLink := by
        intro u
        rw [htake, mem_app1 (by simp), mem_app1 (by simp)]
        exact hInv.ssLink u
      incLink := by
        intro u
        rw [htake, count_app1 (by simp), count_app1 (by simp)]
        exact hInv.incLink u
      poolNodup := hInv.poolNodup
      poolLt := by
        intro u hu
        have := hInv.poolLt u hu
        simpa [List.length_set] using this
      runLt := by
        intro e he
        have := hInv.runLt e he
        simpa [List.length_set] using this
      runKeys := hInv.runKeys
      pendWf := by
        intro e he
        rw [List.mem_append] at he
        rcases he with he | he
        · obtain ⟨a, b, c⟩ := hInv.pendWf e he
          exact ⟨a, by simpa [List.length_set] using b, by simpa [List.length_set] using c⟩
        · rw [List.mem_singleton] at he
          subst he
          refine ⟨fun hc => hne hc.symm, ?_, ?_⟩ <;> simpa [List.length_set]
      stSub := ?_
      stFin := ?_
      enqLt := by
        intro u hm
        rw [mem_app1 (by simp)] at hm
        have := hInv.enqLt u hm
        simpa [List.length_set] using this
      ssTr := ?_
      poolTr := by
        intro u
        rw [mem_app1 (by simp), mem_app1 (by simp)]
        exact hInv.poolTr u
      runTr1 := by
        intro u
        rw [mem_app1 (by simp), mem_app1 (by simp)]
        exact hInv.runTr1 u
      runTr2 := by
        intro u
        rw [mem_app1 (by simp), mem_app1 (by simp)]
        exact hInv.runTr2 u
      runTr3 := by
        intro u
        rw [mem_app1 (by simp), mem_app1 (by simp)]
        exact hInv.runTr3 u
      runTr4 := by
        intro u hrun
        obtain ⟨a, b, c⟩ := hInv.runTr4 u hrun
        exact ⟨(mem_app1 (by simp)).mpr a, fun hc => b ((mem_app1 (by simp)).mp hc), c⟩
      cellTr := by
        intro u
        rw [mem_app1 (by simp)]
        exact hInv.cellTr u
      valInv := hInv.valInv
      ordStartEnq := fun u => (hInv.ordStartEnq u).append_of_ne (by simp)
      ordRetStart := fun u => (hInv.ordRetStart u).append_of_ne (by simp)
      ordPubRet := fun u => (hInv.ordPubRet u).append_of_ne (by simp)
      ordFinPub := fun u => (hInv.ordFinPub u).append_of_ne (by simp)
      ordDecFin := fun u => (hInv.ordDecFin u).append_of_ne (by simp)
      ordEnqSS := fun u => (hInv.ordEnqSS u).append_of_ne (by simp)
      ordNotPub := fun q d => (hInv.ordNotPub q d).append_of_ne (by simp)
      startOrd := ?_
      nestOrd := nestOrd_append hInv.nestOrd (by simp) CellsLe.rfl
      depsPend := ?_
      depsFin := ?_
      leftPend := ?_
      edgeFin := ?_ }
  · intro u hx hgx
    rw [mem_app1 (by simp)]
    by_cases hut : u = t
    · subst hut
      rw [hgt2, Option.some.injEq] at hgx
      subst hgx
      exact hInv.stSub u hd hgt
    · by_cases hup : u = p
      · subst hup
        rw [hgp2, Option.some.injEq] at hgx
        subst hgx
        exact hInv.stSub u hp hgp
      · rw [hgo u hut hup] at hgx
        exact hInv.stSub u hx hgx
  · intro u hx hgx
    rw [mem_app1 (by simp)]
    by_cases hut : u = t
    · subst hut
      rw [hgt2, Option.some.injEq] at hgx
      subst hgx
      exact hInv.stFin u hd hgt
    · by_cases hup : u = p
      · subst hup
        rw [hgp2, Option.some.injEq] at hgx
        subst hgx
        exact hInv.stFin u hp hgp
      · rw [hgo u hut hup] at hgx
        exact hInv.stFin u hx hgx
  · intro u hx hgx hsub
    rw [List.mem_append]
    left
    by_cases hut : u = t
    · subst hut
      rw [hgt2, Option.some.injEq] at hgx
      subst hgx
      exact hInv.ssTr u hd hgt hsub
    · by_cases hup : u = p
      · subst hup
        rw [hgp2, Option.some.injEq] at hgx
        subst hgx
        exact hInv.ssTr u hp hgp hsub
      · rw [hgo u hut hup] at hgx
        exact hInv.ssTr u hx hgx hsub
  · intro pos q d hpos hedge
    rcases getElem?_append_cases hpos with hl | ⟨_, hr⟩
    · rw [List.mem_append] at hedge
      rcases hedge with he | he
      · obtain ⟨⟨m1, hm1, hg1⟩, ⟨m2, hm2, hg2⟩⟩ := hInv.startOrd pos q d hl he
        exact ⟨⟨m1, hm1, getElem?_append_l hg1⟩, ⟨m2, hm2, getElem?_append_l hg2⟩⟩
      · rw [List.mem_singleton] at he
        cases he
        exfalso
        have hst : Ev.start t ∈ cfg.trace := getElem?_mem hl
        have henq := hInv.enq_of_start hst
        have hsf := (hInv.stSub t hd hgt).mpr henq
        rcases hsf with hc | hc <;> rw [hdpre] at hc <;> exact HState.noConfusion hc
    · exact absurd (List.mem_singleton.mp (getElem?_mem hr)) (by simp)
  · intro q hx hgx hnf
    by_cases hut : q = t
    · subst hut
      rw [hgt2, Option.some.injEq] at hgx
      subst hgx
      have hold := hInv.depsPend q hd hgt (by
        rw [hdpre]
        exact fun hc => HState.noConfusion hc)
      show hd.dependents = _
      rw [hold, List.filter_append]
      have hfi : ([(p, q)].filter (fun e => e.1 = q)) = [] := by
        simp [Ne.symm hne]
      rw [hfi, List.append_nil]
    · by_cases hup : q = p
      · subst hup
        rw [hgp2, Option.some.injEq] at hgx
        subst hgx
        have hold := hInv.depsPend q hp hgp hpnf
        show hp.dependents ++ [t] = _
        rw [hold, List.filter_append]
        have hfi : ([(q, t)].filter (fun e => e.1 = q)) = [(q, t)] := by
          simp
        rw [hfi, List.map_append]
        rfl
      · rw [hgo q hut hup] at hgx
        have hold := hInv.depsPend q hx hgx hnf
        rw [hold, List.filter_append]
        have hpq : ¬ p = q := fun hc => hup hc.symm
        have hfi : ([(p, t)].filter (fun e => e.1 = q)) = [] := by
          simp [hpq]
        rw [hfi, List.append_nil]
  · intro q hx hgx hf
    by_cases hut : q = t
    · subst hut
      rw [hgt2, Option.some.injEq] at hgx
      subst hgx
      rw [show hd2.state = hd.state from rfl, hdpre] at hf
      exact HState.noConfusion hf
    · by_cases hup : q = p
      · subst hup
        rw [hgp2, Option.some.injEq] at hgx
        subst hgx
        exact absurd hf hpnf
      · rw [hgo q hut hup] at hgx
        exact hInv.depsFin q hx hgx hf
  · intro d hx hgx
    by_cases hut : d = t
    · subst hut
      rw [hgt2, Option.some.injEq] at hgx
      subst hgx
      constructor
      · intro _
        have hold := (hInv.leftPend d hd hgt).1 (Or.inl hdpre)
        show hd.dependenciesLeft + 1 = _
        rw [hold, List.countP_append]
        have hci : ([(p, d)].countP (fun e => e.2 = d)) = 1 := by
          simp
        rw [hci]
      · intro hc
        rw [show hd2.state = hd.state from rfl, hdpre] at hc
        rcases hc with hc | hc <;> exact HState.noConfusion hc
    · by_cases hup : d = p
      · subst hup
        rw [hgp2, Option.some.injEq] at hgx
        subst hgx
        have hold := hInv.leftPend d hp hgp
        have htd : ¬ t = d := fun hc => hne (by rw [hc])
        have hci : ([(d, t)].countP (fun e => e.2 = d)) = 0 := by
          simp [htd]
        constructor
        · intro hpre
          rw [List.countP_append, hci]
          exact hold.1 hpre
        · intro hsf
          rw [List.countP_append, hci]
          simpa using hold.2 hsf
      · rw [hgo d hut hup] at hgx
        have hold := hInv.leftPend d hx hgx
        have htd : ¬ t = d := fun hc => hut hc.symm
        have hci : ([(p, t)].countP (fun e => e.2 = d)) = 0 := by
          simp [htd]
        constructor
        · intro hpre
          rw [List.countP_append, hci]
          exact hold.1 hpre
        · intro hsf
          rw [List.countP_append, hci]
          simpa using hold.2 hsf
  · intro q d hm
    rcases List.mem_append.mp hm with hm | hm
    · rcases hInv.edgeFin q d hm with hh | hh
      · left
        rw [List.mem_append]
        exact Or.inl hh
      · right
        rw [List.mem_append]
        exact Or.inl hh
    · rw [List.mem_singleton] at hm
      cases hm
      left
      rw [List.mem_append]
      right
      exact List.mem_singleton_self _

end TaskModel

namespace TaskModel

theorem inv_main_finishPrep_enq {cfg : Config} {t : Nat} {h : Handle}
    (hInv : Inv cfg)
    (hprog : cfg.prog[cfg.pc]? = some (MInstr.finishPrep t))
    (hg : cfg.handles[t]? = some h)
    (hpre : h.state = HState.preparing)
    (hz : h.dependenciesLeft = 0)
    (hsub : h.submitTask = true) :
    Inv { cfg with
      pc := cfg.pc + 1,
      handles := cfg.handles.set t h.enqueue,
      pool := cfg.pool ++ [t],
      trace := cfg.trace ++ [Ev.enq t] } := by
  have htake : cfg.prog.take (cfg.pc + 1) = cfg.prog.take cfg.pc ++ [MInstr.finishPrep t] :=
    take_succ_of_getElem hprog
  have hgt2 : (cfg.handles.set t h.enqueue)[t]? = some h.enqueue := get_set_self hg
  have hgo : ∀ u : Nat, u ≠ t →
      (cfg.handles.set t h.enqueue)[u]? = cfg.handles[u]? := by
    intro u hu
    exact get_set_other (fun hc => hu hc.symm)
  have henqold : Ev.enq t ∉ cfg.trace := by
    intro hc
    rcases (hInv.stSub t h hg).mpr hc with hs | hs <;>
      rw [hpre] at hs <;> exact HState.noConfusion hs
  have hstartold : Ev.start t ∉ cfg.trace := fun hc => henqold (hInv.enq_of_start hc)
  refine
    { lenCells := by
        simp only [List.length_set]
        exact hInv.lenCells
      lenTasks := by
        simp only [List.length_set]
        exact hInv.lenTasks
      tasksLink := by
        rw [htake, createsOf_append]
        have hci : createsOf [MInstr.finishPrep t] = [] := rfl
        rw [hci, List.append_nil]
        exact hInv.tasksLink
      ssLink := by
        intro u
        rw [htake, mem_app1 (by simp), mem_app1 (by simp)]
        exact hInv.ssLink u
      incLink := by
        intro u
        rw [htake, count_app1 (by simp), count_app1 (by simp)]
        exact hInv.incLink u
      poolNodup := by
        rw [List.nodup_append]
        refine ⟨hInv.poolNodup, List.nodup_singleton t, ?_⟩
        intro u hu
        rw [List.mem_singleton]
        intro hc
        subst hc
        exact henqold ((hInv.poolTr u).mp hu).1
      poolLt := by
        intro u hu
        rw [List.mem_append] at hu
        rcases hu with hu | hu
        · have := hInv.poolLt u hu
          simpa [List.length_set] using this
        · rw [List.mem_singleton] at hu
          subst hu
          have := getElem?_lt hg
          simpa [List.length_set] using this
      runLt := by
        intro e he
        have := hInv.runLt e he
        simpa [List.length_set] using this
      runKeys := hInv.runKeys
      pendWf := by
        intro e he
        obtain ⟨a, b, c⟩ := hInv.pendWf e he
        exact ⟨a, by simpa [List.length_set] using b, by simpa [List.length_set] using c⟩
      stSub := ?_
      stFin := ?_
      enqLt := ?_
      ssTr := ?_
      poolTr := ?_
      runTr1 := by
        intro u
        rw [mem_app1 (by simp), mem_app1 (by simp)]
        exact hInv.runTr1 u
      runTr2 := by
        intro u
        rw [mem_app1 (by simp), mem_app1 (by simp)]
        exact hInv.runTr2 u
      runTr3 := by
        intro u
        rw [mem_app1 (by simp), mem_app1 (by simp)]
        exact hInv.runTr3 u
      runTr4 := by
        intro u hrun
        obtain ⟨a, b, c⟩ := hInv.runTr4 u hrun
        exact ⟨(mem_app1 (by simp)).mpr a, fun hc => b ((mem_app1 (by simp)).mp hc), c⟩
      cellTr := by
        intro u
        rw [mem_app1 (by simp)]
        exact hInv.cellTr u
      valInv := hInv.valInv
      ordStartEnq := fun u => (hInv.ordStartEnq u).append_of_ne (by simp)
      ordRetStart := fun u => (hInv.ordRetStart u).append_of_ne (by simp)
      ordPubRet := fun u => (hInv.ordPubRet u).append_of_ne (by simp)
      ordFinPub := fun u => (hInv.ordFinPub u).append_of_ne (by simp)
      ordDecFin := fun u => (hInv.ordDecFin u).append_of_ne (by simp)
      ordEnqSS := ?_
      ordNotPub := fun q d => (hInv.ordNotPub q d).append_of_ne (by simp)
      startOrd := startOrd_append hInv.startOrd (by simp) (by simp)
      nestOrd := nestOrd_append hInv.nestOrd (by simp) CellsLe.rfl
      depsPend := ?_
      depsFin := ?_
      leftPend := ?_
      edgeFin := by
        intro q d hm
        rw [mem_app1 (by simp)] at hm
        rcases hInv.edgeFin q d hm with hh | hh
        · exact Or.inl hh
        · exact Or.inr ((mem_app1 (by simp)).mpr hh) }
  · intro u hx hgx
    by_cases hu : u = t
    · subst hu
      rw [hgt2, Option.some.injEq] at hgx
      subst hgx
      constructor
      · intro _
        rw [List.mem_append]
        right
        exact List.mem_singleton_self _
      · intro _
        left
        rfl
    · rw [hgo u hu] at hgx
      rw [mem_app1 (by simp [hu])]
      exact hInv.stSub u hx hgx
  · intro u hx hgx
    rw [mem_app1 (by simp)]
    by_cases hu : u = t
    · subst hu
      rw [hgt2, Option.some.injEq] at hgx
      subst hgx
      constructor
      · intro hc
        exact HState.noConfusion (show HState.submitted = HState.finished from hc)
      · intro hc
        exact absurd ((hInv.stFin u h hg).mpr hc) (by
          rw [hpre]
          exact fun hcc => HState.noConfusion hcc)
    · rw [hgo u hu] at hgx
      exact hInv.stFin u hx hgx
  · intro u hm
    rw [List.mem_append] at hm
    rcases hm with hm | hm
    · have := hInv.enqLt u hm
      simpa [List.length_set] using this
    · rw [List.mem_singleton] at hm
      cases hm
      have := getElem?_lt hg
      simpa [List.length_set] using this
  · intro u hx hgx hsub2
    by_cases hu : u = t
    · subst hu
      rw [hgt2, Option.some.injEq] at hgx
      subst hgx
      exact Bool.noConfusion hsub2
    · rw [hgo u hu] at hgx
      rw [List.mem_append]
      exact Or.inl (hInv.ssTr u hx hgx hsub2)
  · intro u
    by_cases hu : u = t
    · subst hu
      constructor
      · intro _
        refine ⟨by
          rw [List.mem_append]
          right
          exact List.mem_singleton_self _, ?_⟩
        rw [mem_app1 (by simp)]
        exact hstartold
      · intro _
        rw [List.mem_append]
        right
        exact List.mem_singleton_self _
    · rw [mem_app1 hu, mem_app1 (by simp [hu]), mem_app1 (by simp)]
      exact hInv.poolTr u
  · intro u
    apply (hInv.ordEnqSS u).append_present
    intro he
    have hut : u = t := by
      cases he
      rfl
    subst hut
    exact hInv.ssTr u h hg hsub
  · intro q hx hgx hnf
    by_cases hu : q = t
    · subst hu
      rw [hgt2, Option.some.injEq] at hgx
      subst hgx
      exact hInv.depsPend q h hg (by
        rw [hpre]
        exact fun hcc => HState.noConfusion hcc)
    · rw [hgo q hu] at hgx
      exact hInv.depsPend q hx hgx hnf
  · intro q hx hgx hf
    by_cases hu : q = t
    · subst hu
      rw [hgt2, Option.some.injEq] at hgx
      subst hgx
      exact HState.noConfusion (show HState.submitted = HState.finished from hf)
    · rw [hgo q hu] at hgx
      exact hInv.depsFin q hx hgx hf
  · intro d hx hgx
    by_cases hu : d = t
    · subst hu
      rw [hgt2, Option.some.injEq] at hgx
      subst hgx
      constructor
      · intro hc
        exfalso
        rcases hc with hc | hc
        · exact HState.noConfusion (show HState.submitted = HState.preparing from hc)
        · exact HState.noConfusion (show HState.submitted = HState.waiting from hc)
      · intro _
        rw [← (hInv.leftPend d h hg).1 (Or.inl hpre)]
        exact hz
    · rw [hgo d hu] at hgx
      exact hInv.leftPend d hx hgx

theorem inv_main_finishPrep_wait {cfg : Config} {t : Nat} {h : Handle}
    (hInv : Inv cfg)
    (hprog : cfg.prog[cfg.pc]? = some (MInstr.finishPrep t))
    (hg : cfg.handles[t]? = some h)
    (hpre : h.state = HState.preparing)
    (hnz : h.dependenciesLeft ≠ 0) :
    Inv { cfg with
      pc := cfg.pc + 1,
      handles := cfg.handles.set t { h with state := HState.waiting } } := by
  have htake : cfg.prog.take (cfg.pc + 1) = cfg.prog.take cfg.pc ++ [MInstr.finishPrep t] :=
    take_succ_of_getElem hprog
  have hgt2 : (cfg.handles.set t { h with state := HState.waiting })[t]? =
      some { h with state := HState.waiting } := get_set_self hg
  have hgo : ∀ u : Nat, u ≠ t →
      (cfg.handles.set t { h with state := HState.waiting })[u]? = cfg.handles[u]? := by
    intro u hu
    exact get_set_other (fun hc => hu hc.symm)
  have henqold : Ev.enq t ∉ cfg.trace := by
    intro hc
    rcases (hInv.stSub t h hg).mpr hc with hs | hs <;>
      rw [hpre] at hs <;> exact HState.noConfusion hs
  refine
    { lenCells := by
        simp only [List.length_set]
        exact hInv.lenCells
      lenTasks := by
        simp only [List.length_set]
        exact hInv.lenTasks
      tasksLink := by
        rw [htake, createsOf_append]
        have hci : createsOf [MInstr.finishPrep t] = [] := rfl
        rw [hci, List.append_nil]
        exact hInv.tasksLink
      ssLink := by
        intro u
        rw [htake, mem_app1 (by simp)]
        exact hInv.ssLink u
      incLink := by
        intro u
        rw [htake, count_app1 (by simp)]
        exact hInv.incLink u
      poolNodup := hInv.poolNodup
      poolLt := by
        intro u hu
        have := hInv.poolLt u hu
        simpa [List.length_set] using this
      runLt := by
        intro e he
        have := hInv.runLt e he
        simpa [List.length_set] using this
      runKeys := hInv.runKeys
      pendWf := by
        intro e he
        obtain ⟨a, b, c⟩ := hInv.pendWf e he
        exact ⟨a, by simpa [List.length_set] using b, by simpa [List.length_set] using c⟩
      stSub := ?_
      stFin := ?_
      enqLt := by
        intro u hm
        have := hInv.enqLt u hm
        simpa [List.length_set] using this
      ssTr := ?_
      poolTr := hInv.poolTr
      runTr1 := hInv.runTr1
      runTr2 := hInv.runTr2
      runTr3 := hInv.runTr3
      runTr4 := hInv.runTr4
      cellTr := hInv.cellTr
      valInv := hInv.valInv
      ordStartEnq := hInv.ordStartEnq
      ordRetStart := hInv.ordRetStart
      ordPubRet := hInv.ordPubRet
      ordFinPub := hInv.ordFinPub
      ordDecFin := hInv.ordDecFin
      ordEnqSS := hInv.ordEnqSS
      ordNotPub := hInv.ordNotPub
      startOrd := hInv.startOrd
      nestOrd := hInv.nestOrd
      depsPend := ?_
      depsFin := ?_
      leftPend := ?_
      edgeFin := hInv.edgeFin }
  · intro u hx hgx
    by_cases hu : u = t
    · subst hu
      rw [hgt2, Option.some.injEq] at hgx
      subst hgx
      constructor
      · intro hc
        rcases hc with hc | hc <;> exact HState.noConfusion hc
      · intro hc
        exact absurd hc henqold
    · rw [hgo u hu] at hgx
      exact hInv.stSub u hx hgx
  · intro u hx hgx
    by_cases hu : u = t
    · subst hu
      rw [hgt2, Option.some.injEq] at hgx
      subst hgx
      constructor
      · intro hc
        exact HState.noConfusion hc
      · intro hc
        exact absurd ((hInv.stFin u h hg).mpr hc) (by
          rw [hpre]
          exact fun hcc => HState.noConfusion hcc)
    · rw [hgo u hu] at hgx
      exact hInv.stFin u hx hgx
  · intro u hx hgx hsub
    by_cases hu : u = t
    · subst hu
      rw [hgt2, Option.some.injEq] at hgx
      subst hgx
      exact hInv.ssTr u h hg hsub
    · rw [hgo u hu] at hgx
      exact hInv.ssTr u hx hgx hsub
  · intro q hx hgx hnf
    by_cases hu : q = t
    · subst hu
      rw [hgt2, Option.some.injEq] at hgx
      subst hgx
      exact hInv.depsPend q h hg (by
        rw [hpre]
        exact fun hcc => HState.noConfusion hcc)
    · rw [hgo q hu] at hgx
      exact hInv.depsPend q hx hgx hnf
  · intro q hx hgx hf
    by_cases hu : q = t
    · subst hu
      rw [hgt2, Option.some.injEq] at hgx
      subst hgx
      exact HState.noConfusion hf
    · rw [hgo q hu] at hgx
      exact hInv.depsFin q hx hgx hf
  · intro d hx hgx
    by_cases hu : d = t
    · subst hu
      rw [hgt2, Option.some.injEq] at hgx
      subst hgx
      constructor
      · intro _
        exact (hInv.leftPend d h hg).1 (Or.inl hpre)
      · intro hc
        rcases hc with hc | hc <;> exact HState.noConfusion hc
    · rw [hgo d hu] at hgx
      exact hInv.leftPend d hx hgx

end TaskModel

namespace TaskModel

theorem inv_act_start {cfg : Config} {t : Nat}
    (hInv : Inv cfg)
    (hpool : t ∈ cfg.pool) :
    Inv { cfg with
      pool := cfg.pool.erase t,
      running := cfg.running ++ [(t, RunPhase.running)],
      trace := cfg.trace ++ [Ev.start t] } := by
  obtain ⟨henq, hnostart⟩ := (hInv.poolTr t).mp hpool
  have htn : t < cfg.handles.length := hInv.poolLt t hpool
  obtain ⟨h, hg⟩ : ∃ h, cfg.handles[t]? = some h :=
    ⟨cfg.handles[t], List.getElem?_eq_getElem htn⟩
  have hsubfin := (hInv.stSub t h hg).mpr henq
  have hnoret : Ev.ret t ∉ cfg.trace := fun hc =>
    hnostart ((hInv.ordRetStart t).mem hc)
  have hnopub : Ev.publish t ∉ cfg.trace := fun hc =>
    hnoret ((hInv.ordPubRet t).mem hc)
  have hnofin : Ev.finished t ∉ cfg.trace := fun hc =>
    hnopub ((hInv.ordFinPub t).mem hc)
  have hnotin : phaseOf cfg.running t = none := by
    rw [phaseOf_eq_none_iff]
    intro e he hc
    have hph : phaseOf cfg.running e.1 = some e.2 := keys_nodup_phaseOf_mem hInv.runKeys he
    rw [hc] at hph
    cases hph2 : e.2 with
    | running => exact hnostart ((hInv.runTr1 t).mp (hph2 ▸ hph)).1
    | returned v => exact hnoret ((hInv.runTr2 t).mp ⟨v, hph2 ▸ hph⟩).1
    | published => exact hnopub ((hInv.runTr3 t).mp (hph2 ▸ hph)).1
    | postPending => exact hnofin (hInv.runTr4 t (hph2 ▸ hph)).1
  have htnotkeys : ∀ e ∈ cfg.running, e.1 ≠ t := phaseOf_eq_none_iff.mp hnotin
  have hphself : phaseOf (cfg.running ++ [(t, RunPhase.running)]) t = some RunPhase.running :=
    phaseOf_append_right hnotin
  have hphother : ∀ u : Nat, u ≠ t →
      phaseOf (cfg.running ++ [(t, RunPhase.running)]) u = phaseOf cfg.running u := by
    intro u hu
    exact phaseOf_append_other hu
  refine
    { lenCells := hInv.lenCells
      lenTasks := hInv.lenTasks
      tasksLink := hInv.tasksLink
      ssLink := by
        intro u
        rw [mem_app1 (by simp)]
        exact hInv.ssLink u
      incLink := by
        intro u
        rw [count_app1 (by simp)]
        exact hInv.incLink u
      poolNodup := hInv.poolNodup.erase t
      poolLt := fun u hu => hInv.poolLt u (List.mem_of_mem_erase hu)
      runLt := by
        intro e he
        rw [List.mem_append] at he
        rcases he with he | he
        · exact hInv.runLt e he
        · rw [List.mem_singleton] at he
          subst he
          exact htn
      runKeys := by
        rw [List.map_append, List.nodup_append]
        refine ⟨hInv.runKeys, List.nodup_singleton t, ?_⟩
        intro u hu
        rw [List.map_singleton, List.mem_singleton]
        intro hc
        subst hc
        rcases List.mem_map.mp hu with ⟨e, he, hfst⟩
        exact htnotkeys e he hfst
      pendWf := hInv.pendWf
      stSub := by
        intro u hx hgx
        rw [mem_app1 (by simp)]
        exact hInv.stSub u hx hgx
      stFin := by
        intro u hx hgx
        rw [mem_app1 (by simp)]
        exact hInv.stFin u hx hgx
      enqLt := by
        intro u hm
        rw [mem_app1 (by simp)] at hm
        exact hInv.enqLt u hm
      ssTr := by
        intro u hx hgx hsub
        rw [List.mem_append]
        exact Or.inl (hInv.ssTr u hx hgx hsub)
      poolTr := ?_
      runTr1 := ?_
      runTr2 := ?_
      runTr3 := ?_
      runTr4 := ?_
      cellTr := by
        intro u
        rw [mem_app1 (by simp)]
        exact hInv.cellTr u
      valInv := ?_
      ordStartEnq := by
        intro u
        apply (hInv.ordStartEnq u).append_present
        intro he
        cases he
        exact henq
      ordRetStart := fun u => (hInv.ordRetStart u).append_of_ne (by simp)
      ordPubRet := fun u => (hInv.ordPubRet u).append_of_ne (by simp)
      ordFinPub := fun u => (hInv.ordFinPub u).append_of_ne (by simp)
      ordDecFin := fun u => (hInv.ordDecFin u).append_of_ne (by simp)
      ordEnqSS := fun u => (hInv.ordEnqSS u).append_of_ne (by simp)
      ordNotPub := fun q d => (hInv.ordNotPub q d).append_of_ne (by simp)
      startOrd := ?_
      nestOrd := nestOrd_append hInv.nestOrd (by simp) CellsLe.rfl
      depsPend := hInv.depsPend
      depsFin := hInv.depsFin
      leftPend := hInv.leftPend
      edgeFin := by
        intro q d hm
        rw [mem_app1 (by simp)] at hm
        rcases hInv.edgeFin q d hm with hh | hh
        · exact Or.inl hh
        · exact Or.inr ((mem_app1 (by simp)).mpr hh) }
  · intro u
    by_cases hu : u = t
    · subst hu
      constructor
      · intro hm
        exfalso
        exact ((hInv.poolNodup.mem_erase_iff).mp hm).1 rfl
      · intro hm
        exfalso
        apply hm.2
        rw [List.mem_append]
        right
        exact List.mem_singleton_self _
    · rw [hInv.poolNodup.mem_erase_iff, mem_app1 (by simp [hu]), mem_app1 (by simp [hu])]
      constructor
      · intro hm
        exact (hInv.poolTr u).mp hm.2
      · intro hm
        exact ⟨hu, (hInv.poolTr u).mpr hm⟩
  · intro u
    by_cases hu : u = t
    · subst hu
      rw [hphself]
      constructor
      · intro _
        refine ⟨by
          rw [List.mem_append]
          right
          exact List.mem_singleton_self _, ?_⟩
        rw [mem_app1 (by simp)]
        exact hnoret
      · intro _
        rfl
    · rw [hphother u hu, mem_app1 (by simp [hu]), mem_app1 (by simp)]
      exact hInv.runTr1 u
  · intro u
    by_cases hu : u = t
    · subst hu
      rw [hphself]
      constructor
      · intro ⟨v, hv⟩
        exact absurd hv (by simp)
      · intro ⟨hr, _⟩
        exfalso
        rw [mem_app1 (by simp)] at hr
        exact hnoret hr
    · have : ∀ v : Nat,
          (phaseOf (cfg.running ++ [(t, RunPhase.running)]) u = some (RunPhase.returned v)) ↔
          (phaseOf cfg.running u = some (RunPhase.returned v)) := by
        intro v
        rw [hphother u hu]
      constructor
      · intro ⟨v, hv⟩
        rw [this v] at hv
        obtain ⟨hr, hp⟩ := (hInv.runTr2 u).mp ⟨v, hv⟩
        refine ⟨(mem_app1 (by simp)).mpr hr, ?_⟩
        rw [mem_app1 (by simp)]
        exact hp
      · intro ⟨hr, hp⟩
        rw [mem_app1 (by simp [hu])] at hr
        rw [mem_app1 (by simp)] at hp
        obtain ⟨v, hv⟩ := (hInv.runTr2 u).mpr ⟨hr, hp⟩
        exact ⟨v, (this v).mpr hv⟩
  · intro u
    by_cases hu : u = t
    · subst hu
      rw [hphself]
      constructor
      · intro hc
        exact absurd hc (by simp)
      · intro ⟨hp, _⟩
        exfalso
        rw [mem_app1 (by simp)] at hp
        exact hnopub hp
    · rw [hphother u hu, mem_app1 (by simp), mem_app1 (by simp)]
      exact hInv.runTr3 u
  · intro u hph
    by_cases hu : u = t
    · subst hu
      rw [hphself] at hph
      exact absurd hph (by simp)
    · rw [hphother u hu] at hph
      obtain ⟨a, b, c⟩ := hInv.runTr4 u hph
      exact ⟨(mem_app1 (by simp)).mpr a, fun hc => b ((mem_app1 (by simp)).mp hc), c⟩
  · intro u v r hr hor
    by_cases hu : u = t
    · subst hu
      rcases hor with hor | hor
      · rw [hphself] at hor
        exact absurd hor (by simp)
      · exact hInv.valInv u v r hr (Or.inr hor)
    · rcases hor with hor | hor
      · rw [hphother u hu] at hor
        exact hInv.valInv u v r hr (Or.inl hor)
      · exact hInv.valInv u v r hr (Or.inr hor)
  · intro pos q d hpos hedge
    have hedge2 : Ev.edgeAdded q d ∈ cfg.trace := by
      rw [mem_app1 (by simp)] at hedge
      exact hedge
    rcases getElem?_append_cases hpos with hl | ⟨hge, hr⟩
    · obtain ⟨⟨m1, hm1, hg1⟩, ⟨m2, hm2, hg2⟩⟩ := hInv.startOrd pos q d hl hedge2
      exact ⟨⟨m1, hm1, getElem?_append_l hg1⟩, ⟨m2, hm2, getElem?_append_l hg2⟩⟩
    · have hev := List.mem_singleton.mp (getElem?_mem hr)
      cases hev
      have hcount := (hInv.leftPend t h hg).2 hsubfin
      have hnp : (q, t) ∉ cfg.pending := by
        intro hc
        have : 0 < cfg.pending.countP (fun e => e.2 = t) := by
          rw [List.countP_pos]
          exact ⟨(q, t), hc, by simp⟩
        omega
      have hfin : Ev.finished q ∈ cfg.trace := by
        rcases hInv.edgeFin q t hedge2 with hh | hh
        · exact absurd hh hnp
        · exact hh
      have hpub : Ev.publish q ∈ cfg.trace := (hInv.ordFinPub q).mem hfin
      have hret : Ev.ret q ∈ cfg.trace := (hInv.ordPubRet q).mem hpub
      obtain ⟨m1, hg1⟩ := mem_getElem? hret
      obtain ⟨m2, hg2⟩ := mem_getElem? hpub
      exact ⟨⟨m1, Nat.lt_of_lt_of_le (getElem?_lt hg1) hge, getElem?_append_l hg1⟩,
        ⟨m2, Nat.lt_of_lt_of_le (getElem?_lt hg2) hge, getElem?_append_l hg2⟩⟩

end TaskModel

namespace TaskModel

theorem inv_act_ret {cfg : Config} {t : Nat} {trec : TaskRec} {v : Nat}
    (hInv : Inv cfg)
    (hph : phaseOf cfg.running t = some RunPhase.running)
    (htr : cfg.tasks[t]? = some trec)
    (hev : evalCallable trec.call cfg.cells = some v) :
    Inv { cfg with
      running := setPhase cfg.running t (RunPhase.returned v),
      trace := cfg.trace ++ [Ev.ret t] } := by
  obtain ⟨hstart, hnoret⟩ := (hInv.runTr1 t).mp hph
  have hnopub : Ev.publish t ∉ cfg.trace := fun hc =>
    hnoret ((hInv.ordPubRet t).mem hc)
  have hnofin : Ev.finished t ∉ cfg.trace := fun hc =>
    hnopub ((hInv.ordFinPub t).mem hc)
  have hphself : phaseOf (setPhase cfg.running t (RunPhase.returned v)) t =
      some (RunPhase.returned v) := phaseOf_setPhase_self hph
  have hphother : ∀ u : Nat, u ≠ t →
      phaseOf (setPhase cfg.running t (RunPhase.returned v)) u = phaseOf cfg.running u :=
    fun u hu => phaseOf_setPhase_other hu
  refine
    { lenCells := hInv.lenCells
      lenTasks := hInv.lenTasks
      tasksLink := hInv.tasksLink
      ssLink := by
        intro u
        rw [mem_app1 (by simp)]
        exact hInv.ssLink u
      incLink := by
        intro u
        rw [count_app1 (by simp)]
        exact hInv.incLink u
      poolNodup := hInv.poolNodup
      poolLt := hInv.poolLt
      runLt := by
        intro e he
        rcases mem_setPhase he with he2 | he2
        · have h2 := hInv.runLt (t, RunPhase.running) (phaseOf_isSome_mem hph)
          rw [he2]
          exact h2
        · exact hInv.runLt e he2
      runKeys := by
        rw [setPhase_keys]
        exact hInv.runKeys
      pendWf := hInv.pendWf
      stSub := by
        intro u hx hgx
        rw [mem_app1 (by simp)]
        exact hInv.stSub u hx hgx
      stFin := by
        intro u hx hgx
        rw [mem_app1 (by simp)]
        exact hInv.stFin u hx hgx
      enqLt := by
        intro u hm
        rw [mem_app1 (by simp)] at hm
        exact hInv.enqLt u hm
      ssTr := by
        intro u hx hgx hsub
        rw [List.mem_append]
        exact Or.inl (hInv.ssTr u hx hgx hsub)
      poolTr := by
        intro u
        rw [mem_app1 (by simp), mem_app1 (by simp)]
        exact hInv.poolTr u
      runTr1 := ?_
      runTr2 := ?_
      runTr3 := ?_
      runTr4 := ?_
      cellTr := by
        intro u
        rw [mem_app1 (by simp)]
        exact hInv.cellTr u
      valInv := ?_
      ordStartEnq := fun u => (hInv.ordStartEnq u).append_of_ne (by simp)
      ordRetStart := by
        intro u
        apply (hInv.ordRetStart u).append_present
        intro he
        cases he
        exact hstart
      ordPubRet := fun u => (hInv.ordPubRet u).append_of_ne (by simp)
      ordFinPub := fun u => (hInv.ordFinPub u).append_of_ne (by simp)
      ordDecFin := fun u => (hInv.ordDecFin u).append_of_ne (by simp)
      ordEnqSS := fun u => (hInv.ordEnqSS u).append_of_ne (by simp)
      ordNotPub := fun q d => (hInv.ordNotPub q d).append_of_ne (by simp)
      startOrd := startOrd_append hInv.startOrd (by simp) (by simp)
      nestOrd := nestOrd_append hInv.nestOrd (by simp) CellsLe.rfl
      depsPend := hInv.depsPend
      depsFin := hInv.depsFin
      leftPend := hInv.leftPend
      edgeFin := by
        intro q d hm
        rw [mem_app1 (by simp)] at hm
        rcases hInv.edgeFin q d hm with hh | hh
        · exact Or.inl hh
        · exact Or.inr ((mem_app1 (by simp)).mpr hh) }
  · intro u
    by_cases hu : u = t
    · subst hu
      rw [hphself]
      constructor
      · intro hc
        exact absurd hc (by simp)
      · intro ⟨_, hnr⟩
        exfalso
        apply hnr
        rw [List.mem_append]
        right
        exact List.mem_singleton_self _
    · rw [hphother u hu, mem_app1 (by simp), mem_app1 (by simp [hu])]
      exact hInv.runTr1 u
  · intro u
    by_cases hu : u = t
    · subst hu
      constructor
      · intro _
        refine ⟨by
          rw [List.mem_append]
          right
          exact List.mem_singleton_self _, ?_⟩
        rw [mem_app1 (by simp)]
        exact hnopub
      · intro _
        exact ⟨v, hphself⟩
    · constructor
      · intro ⟨w, hw⟩
        rw [hphother u hu] at hw
        obtain ⟨hr, hp⟩ := (hInv.runTr2 u).mp ⟨w, hw⟩
        refine ⟨(mem_app1 (by simp [hu])).mpr hr, ?_⟩
        rw [mem_app1 (by simp)]
        exact hp
      · intro ⟨hr, hp⟩
        rw [mem_app1 (by simp [hu])] at hr
        rw [mem_app1 (by simp)] at hp
        obtain ⟨w, hw⟩ := (hInv.runTr2 u).mpr ⟨hr, hp⟩
        refine ⟨w, ?_⟩
        rw [hphother u hu]
        exact hw
  · intro u
    by_cases hu : u = t
    · subst hu
      rw [hphself]
      constructor
      · intro hc
        exact absurd hc (by simp)
      · intro ⟨hp, _⟩
        exfalso
        rw [mem_app1 (by simp)] at hp
        exact hnopub hp
    · rw [hphother u hu, mem_app1 (by simp), mem_app1 (by simp)]
      exact hInv.runTr3 u
  · intro u hph2
    by_cases hu : u = t
    · subst hu
      rw [hphself] at hph2
      exact absurd hph2 (by simp)
    · rw [hphother u hu] at hph2
      obtain ⟨a, b, c⟩ := hInv.runTr4 u hph2
      exact ⟨(mem_app1 (by simp)).mpr a, fun hc => b ((mem_app1 (by simp)).mp hc), c⟩
  · intro u w r hr hor
    by_cases hu : u = t
    · subst hu
      rcases hor with hor | hor
      · rw [hphself, Option.some.injEq] at hor
        rw [htr, Option.some.injEq] at hr
        subst hr
        have : w = v := by
          cases hor
          rfl
        subst this
        exact hev
      · exact hInv.valInv u w r hr (Or.inr hor)
    · rcases hor with hor | hor
      · rw [hphother u hu] at hor
        exact hInv.valInv u w r hr (Or.inl hor)
      · exact hInv.valInv u w r hr (Or.inr hor)

end TaskModel

namespace TaskModel

theorem inv_act_publish {cfg : Config} {t : Nat} {v : Nat}
    (hInv : Inv cfg)
    (hph : phaseOf cfg.running t = some (RunPhase.returned v)) :
    Inv { cfg with
      cells := cfg.cells.set t (some v),
      running := setPhase cfg.running t RunPhase.published,
      trace := cfg.trace ++ [Ev.publish t] } := by
  obtain ⟨hret, hnopub⟩ := (hInv.runTr2 t).mp ⟨v, hph⟩
  have hnofin : Ev.finished t ∉ cfg.trace := fun hc =>
    hnopub ((hInv.ordFinPub t).mem hc)
  have htn : t < cfg.handles.length := hInv.runLt (t, RunPhase.returned v)
    (phaseOf_isSome_mem hph)
  have htc : t < cfg.cells.length := by
    rw [hInv.lenCells]
    exact htn
  have hcellnone : cfg.cells.getD t none = none := by
    rcases hc : cfg.cells.getD t none with _ | w
    · rfl
    · exact absurd ((hInv.cellTr t).mp ⟨w, hc⟩) hnopub
  have hCle : CellsLe cfg.cells (cfg.cells.set t (some v)) := CellsLe.set_of_none hcellnone
  have hphself : phaseOf (setPhase cfg.running t RunPhase.published) t =
      some RunPhase.published := phaseOf_setPhase_self hph
  have hphother : ∀ u : Nat, u ≠ t →
      phaseOf (setPhase cfg.running t RunPhase.published) u = phaseOf cfg.running u :=
    fun u hu => phaseOf_setPhase_other hu
  have hcellself : (cfg.cells.set t (some v)).getD t none = some v := getD_set_self htc
  have hcellother : ∀ u : Nat, u ≠ t →
      (cfg.cells.set t (some v)).getD u none = cfg.cells.getD u none := by
    intro u hu
    exact getD_set_other (fun hc => hu hc.symm)
  refine
    { lenCells := by
        rw [List.length_set]
        exact hInv.lenCells
      lenTasks := hInv.lenTasks
      tasksLink := hInv.tasksLink
      ssLink := by
        intro u
        rw [mem_app1 (by simp)]
        exact hInv.ssLink u
      incLink := by
        intro u
        rw [count_app1 (by simp)]
        exact hInv.incLink u
      poolNodup := hInv.poolNodup
      poolLt := hInv.poolLt
      runLt := by
        intro e he
        rcases mem_setPhase he with he2 | he2
        · have h2 := hInv.runLt (t, RunPhase.returned v) (phaseOf_isSome_mem hph)
          rw [he2]
          exact h2
        · exact hInv.runLt e he2
      runKeys := by
        rw [setPhase_keys]
        exact hInv.runKeys
      pendWf := hInv.pendWf
      stSub := by
        intro u hx hgx
        rw [mem_app1 (by simp)]
        exact hInv.stSub u hx hgx
      stFin := by
        intro u hx hgx
        rw [mem_app1 (by simp)]
        exact hInv.stFin u hx hgx
      enqLt := by
        intro u hm
        rw [mem_app1 (by simp)] at hm
        exact hInv.enqLt u hm
      ssTr := by
        intro u hx hgx hsub
        rw [List.mem_append]
        exact Or.inl (hInv.ssTr u hx hgx hsub)
      poolTr := by
        intro u
        rw [mem_app1 (by simp), mem_app1 (by simp)]
        exact hInv.poolTr u
      runTr1 := ?_
      runTr2 := ?_
      runTr3 := ?_
      runTr4 := ?_
      cellTr := ?_
      valInv := ?_
      ordStartEnq := fun u => (hInv.ordStartEnq u).append_of_ne (by simp)
      ordRetStart := fun u => (hInv.ordRetStart u).append_of_ne (by simp)
      ordPubRet := by
        intro u
        apply (hInv.ordPubRet u).append_present
        intro he
        cases he
        exact hret
      ordFinPub := fun u => (hInv.ordFinPub u).append_of_ne (by simp)
      ordDecFin := fun u => (hInv.ordDecFin u).append_of_ne (by simp)
      ordEnqSS := fun u => (hInv.ordEnqSS u).append_of_ne (by simp)
      ordNotPub := fun q d => (hInv.ordNotPub q d).append_of_ne (by simp)
      startOrd := startOrd_append hInv.startOrd (by simp) (by simp)
      nestOrd := nestOrd_append hInv.nestOrd (by simp) hCle
      depsPend := hInv.depsPend
      depsFin := hInv.depsFin
      leftPend := hInv.leftPend
      edgeFin := by
        intro q d hm
        rw [mem_app1 (by simp)] at hm
        rcases hInv.edgeFin q d hm with hh | hh
        · exact Or.inl hh
        · exact Or.inr ((mem_app1 (by simp)).mpr hh) }
  · intro u
    by_cases hu : u = t
    · subst hu
      rw [hphself]
      constructor
      · intro hc
        exact absurd hc (by simp)
      · intro ⟨_, hnr⟩
        exact absurd (List.mem_append.mpr (Or.inl hret)) hnr
    · rw [hphother u hu, mem_app1 (by simp), mem_app1 (by simp)]
      exact hInv.runTr1 u
  · intro u
    by_cases hu : u = t
    · subst hu
      constructor
      · intro ⟨w, hw⟩
        rw [hphself] at hw
        exact absurd hw (by simp)
      · intro ⟨_, hnp⟩
        exfalso
        apply hnp
        rw [List.mem_append]
        right
        exact List.mem_singleton_self _
    · constructor
      · intro ⟨w, hw⟩
        rw [hphother u hu] at hw
        obtain ⟨hr, hp⟩ := (hInv.runTr2 u).mp ⟨w, hw⟩
        refine ⟨(mem_app1 (by simp)).mpr hr, ?_⟩
        rw [mem_app1 (by simp [hu])]
        exact hp
      · intro ⟨hr, hp⟩
        rw [mem_app1 (by simp)] at hr
        rw [mem_app1 (by simp [hu])] at hp
        obtain ⟨w, hw⟩ := (hInv.runTr2 u).mpr ⟨hr, hp⟩
        refine ⟨w, ?_⟩
        rw [hphother u hu]
        exact hw
  · intro u
    by_cases hu : u = t
    · subst hu
      rw [hphself]
      constructor
      · intro _
        refine ⟨by
          rw [List.mem_append]
          right
          exact List.mem_singleton_self _, ?_⟩
        rw [mem_app1 (by simp)]
        exact hnofin
      · intro _
        rfl
    · rw [hphother u hu, mem_app1 (by simp [hu]), mem_app1 (by simp)]
      exact hInv.runTr3 u
  · intro u hph2
    by_cases hu : u = t
    · subst hu
      rw [hphself] at hph2
      exact absurd hph2 (by simp)
    · rw [hphother u hu] at hph2
      obtain ⟨a, b, c⟩ := hInv.runTr4 u hph2
      exact ⟨(mem_app1 (by simp)).mpr a, fun hc => b ((mem_app1 (by simp)).mp hc), c⟩
  · intro u
    by_cases hu : u = t
    · subst hu
      rw [hcellself]
      constructor
      · intro _
        rw [List.mem_append]
        right
        exact List.mem_singleton_self _
      · intro _
        exact ⟨v, rfl⟩
    · rw [hcellother u hu, mem_app1 (by simp [hu])]
      exact hInv.cellTr u
  · intro u w r hr hor
    by_cases hu : u = t
    · subst hu
      rcases hor with hor | hor
      · rw [hphself] at hor
        exact absurd hor (by simp)
      · rw [hcellself, Option.some.injEq] at hor
        subst hor
        have hold := hInv.valInv u v r hr (Or.inl hph)
        exact evalCallable_mono hCle hold
    · rcases hor with hor | hor
      · rw [hphother u hu] at hor
        exact evalCallable_mono hCle (hInv.valInv u w r hr (Or.inl hor))
      · rw [hcellother u hu] at hor
        exact evalCallable_mono hCle (hInv.valInv u w r hr (Or.inr hor))

theorem inv_act_post {cfg : Config} {t : Nat}
    (hInv : Inv cfg)
    (hph : phaseOf cfg.running t = some RunPhase.postPending) :
    Inv { cfg with
      active := cfg.active - 1,
      running := dropRun cfg.running t,
      trace := cfg.trace ++ [Ev.dec t] } := by
  obtain ⟨hfin, hnodec, hgroup⟩ := hInv.runTr4 t hph
  have hpub : Ev.publish t ∈ cfg.trace := (hInv.ordFinPub t).mem hfin
  have hret : Ev.ret t ∈ cfg.trace := (hInv.ordPubRet t).mem hpub
  have hstart : Ev.start t ∈ cfg.trace := (hInv.ordRetStart t).mem hret
  have hphself : phaseOf (dropRun cfg.running t) t = none := phaseOf_dropRun_self
  have hphother : ∀ u : Nat, u ≠ t →
      phaseOf (dropRun cfg.running t) u = phaseOf cfg.running u :=
    fun u hu => phaseOf_dropRun_other hu
  refine
    { lenCells := hInv.lenCells
      lenTasks := hInv.lenTasks
      tasksLink := hInv.tasksLink
      ssLink := by
        intro u
        rw [mem_app1 (by simp)]
        exact hInv.ssLink u
      incLink := by
        intro u
        rw [count_app1 (by simp)]
        exact hInv.incLink u
      poolNodup := hInv.poolNodup
      poolLt := hInv.poolLt
      runLt := fun e he => hInv.runLt e (List.mem_of_mem_filter he)
      runKeys := (hInv.runKeys).sublist (dropRun_sublist.map Prod.fst)
      pendWf := hInv.pendWf
      stSub := by
        intro u hx hgx
        rw [mem_app1 (by simp)]
        exact hInv.stSub u hx hgx
      stFin := by
        intro u hx hgx
        rw [mem_app1 (by simp)]
        exact hInv.stFin u hx hgx
      enqLt := by
        intro u hm
        rw [mem_app1 (by simp)] at hm
        exact hInv.enqLt u hm
      ssTr := by
        intro u hx hgx hsub
        rw [List.mem_append]
        exact Or.inl (hInv.ssTr u hx hgx hsub)
      poolTr := by
        intro u
        rw [mem_app1 (by simp), mem_app1 (by simp)]
        exact hInv.poolTr u
      runTr1 := ?_
      runTr2 := ?_
      runTr3 := ?_
      runTr4 := ?_
      cellTr := by
        intro u
        rw [mem_app1 (by simp)]
        exact hInv.cellTr u
      valInv := ?_
      ordStartEnq := fun u => (hInv.ordStartEnq u).append_of_ne (by simp)
      ordRetStart := fun u => (hInv.ordRetStart u).append_of_ne (by simp)
      ordPubRet := fun u => (hInv.ordPubRet u).append_of_ne (by simp)
      ordFinPub := fun u => (hInv.ordFinPub u).append_of_ne (by simp)
      ordDecFin := by
        intro u
        apply (hInv.ordDecFin u).append_present
        intro he
        cases he
        exact hfin
      ordEnqSS := fun u => (hInv.ordEnqSS u).append_of_ne (by simp)
      ordNotPub := fun q d => (hInv.ordNotPub q d).append_of_ne (by simp)
      startOrd := startOrd_append hInv.startOrd (by simp) (by simp)
      nestOrd := nestOrd_append hInv.nestOrd (by simp) CellsLe.rfl
      depsPend := hInv.depsPend
      depsFin := hInv.depsFin
      leftPend := hInv.leftPend
      edgeFin := by
        intro q d hm
        rw [mem_app1 (by simp)] at hm
        rcases hInv.edgeFin q d hm with hh | hh
        · exact Or.inl hh
        · exact Or.inr ((mem_app1 (by simp)).mpr hh) }
  · intro u
    by_cases hu : u = t
    · subst hu
      rw [hphself]
      constructor
      · intro hc
        exact Option.noConfusion hc
      · intro ⟨_, hnr⟩
        exact absurd (List.mem_append.mpr (Or.inl hret)) hnr
    · rw [hphother u hu, mem_app1 (by simp), mem_app1 (by simp)]
      exact hInv.runTr1 u
  · intro u
    by_cases hu : u = t
    · subst hu
      constructor
      · intro ⟨w, hw⟩
        rw [hphself] at hw
        exact Option.noConfusion hw
      · intro ⟨_, hnp⟩
        exact absurd (List.mem_append.mpr (Or.inl hpub)) hnp
    · constructor
      · intro ⟨w, hw⟩
        rw [hphother u hu] at hw
        obtain ⟨hr, hp⟩ := (hInv.runTr2 u).mp ⟨w, hw⟩
        refine ⟨(mem_app1 (by simp)).mpr hr, ?_⟩
        rw [mem_app1 (by simp)]
        exact hp
      · intro ⟨hr, hp⟩
        rw [mem_app1 (by simp)] at hr
        rw [mem_app1 (by simp)] at hp
        obtain ⟨w, hw⟩ := (hInv.runTr2 u).mpr ⟨hr, hp⟩
        refine ⟨w, ?_⟩
        rw [hphother u hu]
        exact hw
  · intro u
    by_cases hu : u = t
    · subst hu
      rw [hphself]
      constructor
      · intro hc
        exact Option.noConfusion hc
      · intro ⟨_, hnf⟩
        exact absurd (List.mem_append.mpr (Or.inl hfin)) hnf
    · rw [hphother u hu, mem_app1 (by simp), mem_app1 (by simp)]
      exact hInv.runTr3 u
  · intro u hph2
    by_cases hu : u = t
    · subst hu
      rw [hphself] at hph2
      exact Option.noConfusion hph2
    · rw [hphother u hu] at hph2
      obtain ⟨a, b, c⟩ := hInv.runTr4 u hph2
      refine ⟨(mem_app1 (by simp)).mpr a, fun hc => b ?_, c⟩
      rw [mem_app1 (by simp [hu])] at hc
      exact hc
  · intro u w r hr hor
    by_cases hu : u = t
    · subst hu
      rcases hor with hor | hor
      · rw [hphself] at hor
        exact Option.noConfusion hor
      · exact hInv.valInv u w r hr (Or.inr hor)
    · rcases hor with hor | hor
      · rw [hphother u hu] at hor
        exact hInv.valInv u w r hr (Or.inl hor)
      · exact hInv.valInv u w r hr (Or.inr hor)

end TaskModel

namespace TaskModel

theorem count_snd_filter {l : List (Nat × Nat)} {t u : Nat} :
    ((l.filter (fun e => e.1 = t)).map Prod.snd).count u =
      l.countP (fun e => e.1 = t ∧ e.2 = u) := by
  induction l with
  | nil => rfl
  | cons e l ih =>
      by_cases he : e.1 = t
      · rw [List.filter_cons_of_pos (by simp [he]), List.map_cons]
        by_cases hu : e.2 = u
        · rw [List.count_cons, List.countP_cons, ih]
          simp [he, hu]
        · rw [List.count_cons, List.countP_cons, ih]
          have hun : ¬ u = e.2 := fun hc => hu hc.symm
          simp [he, hu, hun]
      · rw [List.filter_cons_of_neg (by simp [he]), List.countP_cons, ih]
        simp [he]

theorem countP_filter_split {l : List (Nat × Nat)} {t d : Nat} :
    l.countP (fun e => e.2 = d) =
      (l.filter (fun e => ¬ e.1 = t)).countP (fun e => e.2 = d) +
        l.countP (fun e => e.1 = t ∧ e.2 = d) := by
  induction l with
  | nil => rfl
  | cons e l ih =>
      by_cases he : e.1 = t
      · rw [List.filter_cons_of_neg (by simp [he]), List.countP_cons, List.countP_cons, ih]
        by_cases hd : e.2 = d
        · simp [he, hd]
          omega
        · simp [he, hd]
      · rw [List.filter_cons_of_pos (by simp [he]), List.countP_cons, List.countP_cons,
          List.countP_cons, ih]
        by_cases hd : e.2 = d
        · simp [he, hd]
          omega
        · simp [he, hd]

theorem filter_fst_filter_ne {l : List (Nat × Nat)} {u t : Nat} (h : u ≠ t) :
    (l.filter (fun e => ¬ e.1 = t)).filter (fun e => e.1 = u) =
      l.filter (fun e => e.1 = u) := by
  induction l with
  | nil => rfl
  | cons e l ih =>
      by_cases he : e.1 = t
      · rw [List.filter_cons_of_neg (by simp [he])]
        have heu : ¬ e.1 = u := by
          rw [he]
          exact fun hc => h hc.symm
        rw [List.filter_cons_of_neg (by simp [heu])]
        exact ih
      · rw [List.filter_cons_of_pos (by simp [he])]
        by_cases hu : e.1 = u
        · rw [List.filter_cons_of_pos (by simp [hu]), List.filter_cons_of_pos (by simp [hu])]
          rw [ih]
        · rw [List.filter_cons_of_neg (by simp [hu]), List.filter_cons_of_neg (by simp [hu])]
          exact ih

end TaskModel

namespace TaskModel

theorem inv_act_finish {cfg : Config} {t : Nat} {h : Handle}
    {hs1 : List Handle} {enqs : List Nat} {evs : List Ev} {hself : Handle}
    {running2 : List (Nat × RunPhase)}
    (hInv : Inv cfg)
    (hph : phaseOf cfg.running t = some RunPhase.published)
    (hg : cfg.handles[t]? = some h)
    (hsub : h.state = HState.submitted)
    (hna : notifyAll t cfg.handles h.dependents = some (hs1, enqs, evs))
    (hselfg : hs1[t]? = some hself)
    (hps : (phaseOf running2 t = some RunPhase.postPending ∧
        ∃ r, cfg.tasks[t]? = some r ∧ r.inGroup = true) ∨ phaseOf running2 t = none)
    (hpo : ∀ u : Nat, u ≠ t → phaseOf running2 u = phaseOf cfg.running u)
    (hkeys : (running2.map Prod.fst).Nodup)
    (hrlt : ∀ e ∈ running2, e.1 < cfg.handles.length) :
    Inv { cfg with
      handles := hs1.set t { hself with dependents := [], state := HState.finished },
      pool := cfg.pool ++ enqs,
      pending := cfg.pending.filter (fun e => ¬ e.1 = t),
      running := running2,
      trace := cfg.trace ++ evs ++ [Ev.finished t] } := by
  obtain ⟨hpub, hnofin⟩ := (hInv.runTr3 t).mp hph
  have hret : Ev.ret t ∈ cfg.trace := (hInv.ordPubRet t).mem hpub
  have hstart : Ev.start t ∈ cfg.trace := (hInv.ordRetStart t).mem hret
  have htn : t < cfg.handles.length :=
    hInv.runLt (t, RunPhase.published) (phaseOf_isSome_mem hph)
  have henq : Ev.enq t ∈ cfg.trace := (hInv.stSub t h hg).mp (Or.inl hsub)
  have hsubnf : h.state ≠ HState.finished := by
    rw [hsub]
    exact fun hc => HState.noConfusion hc
  have hdeps : h.dependents = (cfg.pending.filter (fun e => e.1 = t)).map Prod.snd :=
    hInv.depsPend t h hg hsubnf
  have hmemds : ∀ e, e ∈ h.dependents → (t, e) ∈ cfg.pending := by
    intro e he
    rw [hdeps] at he
    rcases List.mem_map.mp he with ⟨pr, hprf, hsnd⟩
    have hf := List.mem_filter.mp hprf
    have hfst : pr.1 = t := by
      have := hf.2
      simpa using this
    have : pr = (t, e) := by
      cases pr
      simp only at hfst hsnd
      rw [hfst, hsnd]
    rw [← this]
    exact hf.1
  have hcountds : ∀ e : Nat, h.dependents.count e =
      cfg.pending.countP (fun x => x.1 = t ∧ x.2 = e) := by
    intro e
    rw [hdeps]
    exact count_snd_filter
  have hcnt : ∀ e ∈ h.dependents, ∃ he, cfg.handles[e]? = some he ∧
      h.dependents.count e ≤ he.dependenciesLeft := by
    intro e he
    have hpe := hmemds e he
    have hewf := hInv.pendWf (t, e) hpe
    have hen : e < cfg.handles.length := hewf.2.2
    refine ⟨cfg.handles[e], List.getElem?_eq_getElem hen, ?_⟩
    have hge : cfg.handles[e]? = some cfg.handles[e] := List.getElem?_eq_getElem hen
    have hcpos : 0 < cfg.pending.countP (fun x => x.2 = e) := by
      rw [List.countP_pos]
      exact ⟨(t, e), hpe, by simp⟩
    have hstatepre : cfg.handles[e].state = HState.preparing ∨
        cfg.handles[e].state = HState.waiting := by
      rcases hst : cfg.handles[e].state with _ | _ | _ | _
      · exact Or.inl rfl
      · exact Or.inr rfl
      · have := (hInv.leftPend e cfg.handles[e] hge).2 (Or.inl hst)
        omega
      · have := (hInv.leftPend e cfg.handles[e] hge).2 (Or.inr hst)
        omega
    have hdepseq := (hInv.leftPend e cfg.handles[e] hge).1 hstatepre
    rw [hdepseq, hcountds e]
    apply List.countP_mono_left
    intro x _ hx
    simp only [decide_eq_true_eq] at hx ⊢
    exact hx.2
  obtain ⟨hlen1, hmain, henqsc, hndq, hevin, hev2, hev3, hsubm⟩ := notifyAll_spec hna hcnt
  have htnotds : t ∉ h.dependents := by
    intro hc
    exact (hInv.pendWf (t, t) (hmemds t hc)).1 rfl
  have hcdt : h.dependents.count t = 0 := List.count_eq_zero.mpr htnotds
  have hselfh : hself = h := by
    have := hmain t h hg
    rw [hcdt] at this
    have haf : afterNotify h 0 = h := by
      unfold afterNotify
      rw [if_pos rfl]
    rw [haf] at this
    rw [this, Option.some.injEq] at hselfg
    exact hselfg.symm
  rw [hselfh]
  have hnotifq : ∀ q d : Nat, Ev.notified q d ∈ evs → q = t := by
    intro q d hc
    rcases hevin _ hc with ⟨u, _, he⟩ | ⟨u, _, he⟩
    · cases he
      rfl
    · exact Ev.noConfusion he
  have hmemT : ∀ x : Ev, (∀ u : Nat, x ≠ Ev.notified t u) → (∀ u : Nat, x ≠ Ev.enq u) →
      x ≠ Ev.finished t →
      (x ∈ cfg.trace ++ evs ++ [Ev.finished t] ↔ x ∈ cfg.trace) := by
    intro x hn1 hn2 hn3
    rw [List.mem_append, List.mem_append]
    constructor
    · intro hm
      rcases hm with (hm | hm) | hm
      · exact hm
      · exfalso
        rcases hevin _ hm with ⟨u, _, he⟩ | ⟨u, _, he⟩
        · exact hn1 u he
        · exact hn2 u he
      · rw [List.mem_singleton] at hm
        exact absurd hm hn3
    · intro hm
      exact Or.inl (Or.inl hm)
  have hmemEnq : ∀ u : Nat,
      (Ev.enq u ∈ cfg.trace ++ evs ++ [Ev.finished t] ↔ Ev.enq u ∈ cfg.trace ∨ u ∈ enqs) := by
    intro u
    rw [List.mem_append, List.mem_append]
    constructor
    · intro hm
      rcases hm with (hm | hm) | hm
      · exact Or.inl hm
      · exact Or.inr ((hev2 u).mp hm)
      · rw [List.mem_singleton] at hm
        exact Ev.noConfusion hm
    · intro hm
      rcases hm with hm | hm
      · exact Or.inl (Or.inl hm)
      · exact Or.inl (Or.inr ((hev2 u).mpr hm))
  have henqwait : ∀ u, u ∈ enqs → ∃ hu, cfg.handles[u]? = some hu ∧
      hu.state = HState.waiting ∧ hu.submitTask = true ∧
      hu.dependenciesLeft = h.dependents.count u ∧ h.dependents.count u ≠ 0 := by
    intro u hu
    obtain ⟨hx, hgx, hnz, hdx, hwx, hsx⟩ := (henqsc u).mp hu
    exact ⟨hx, hgx, hwx, hsx, hdx.symm ▸ rfl, hnz⟩
  have henqnoenq : ∀ u, u ∈ enqs → Ev.enq u ∉ cfg.trace := by
    intro u hu hc
    obtain ⟨hx, hgx, hwx, _, _, _⟩ := henqwait u hu
    rcases (hInv.stSub u hx hgx).mpr hc with hs | hs <;>
      rw [hwx] at hs <;> exact HState.noConfusion hs
  have hgself : (hs1.set t { h with dependents := [], state := HState.finished })[t]? =
      some { h with dependents := [], state := HState.finished } := get_set_self hselfg
  have hgoth : ∀ u : Nat, u ≠ t →
      (hs1.set t { h with dependents := [], state := HState.finished })[u]? = hs1[u]? :=
    fun u hu => get_set_other (fun hc => hu hc.symm)
  have hafter : ∀ u : Nat, u ≠ t → ∀ hx,
      (hs1.set t { h with dependents := [], state := HState.finished })[u]? = some hx →
      ∃ hu, cfg.handles[u]? = some hu ∧ hx = afterNotify hu (h.dependents.count u) := by
    intro u hu hx hgx
    rw [hgoth u hu] at hgx
    by_cases hun : u < cfg.handles.length
    · obtain ⟨hu0, hgu0⟩ : ∃ hu0, cfg.handles[u]? = some hu0 :=
        ⟨cfg.handles[u], List.getElem?_eq_getElem hun⟩
      have := hmain u hu0 hgu0
      rw [hgx, Option.some.injEq] at this
      exact ⟨hu0, hgu0, this⟩
    · exfalso
      have : hs1[u]? = none := by
        apply List.getElem?_eq_none
        rw [hlen1]
        exact Nat.le_of_not_lt hun
      rw [this] at hgx
      exact Option.noConfusion hgx
  have hstatetrip : ∀ u hu, cfg.handles[u]? = some hu → h.dependents.count u ≠ 0 →
      (hu.state = HState.preparing ∨ hu.state = HState.waiting) := by
    intro u hu hgu hnz
    rcases hst : hu.state with _ | _ | _ | _
    · exact Or.inl rfl
    · exact Or.inr rfl
    · exfalso
      have h2 := (hInv.leftPend u hu hgu).2 (Or.inl hst)
      rw [hcountds u] at hnz
      have : 0 < cfg.pending.countP (fun x => x.2 = u) := by
        apply Nat.lt_of_lt_of_le (Nat.pos_of_ne_zero hnz)
        apply List.countP_mono_left
        intro x _ hx
        simp only [decide_eq_true_eq] at hx ⊢
        exact hx.2
      omega
    · exfalso
      have h2 := (hInv.leftPend u hu hgu).2 (Or.inr hst)
      rw [hcountds u] at hnz
      have : 0 < cfg.pending.countP (fun x => x.2 = u) := by
        apply Nat.lt_of_lt_of_le (Nat.pos_of_ne_zero hnz)
        apply List.countP_mono_left
        intro x _ hx
        simp only [decide_eq_true_eq] at hx ⊢
        exact hx.2
      omega
  have hnoev : ∀ x : Ev, (∀ u : Nat, x ≠ Ev.notified t u) → (∀ u : Nat, x ≠ Ev.enq u) →
      x ∉ evs := by
    intro x h1 h2 hc
    rcases hevin _ hc with ⟨u, _, he⟩ | ⟨u, _, he⟩
    · exact h1 u he
    · exact h2 u he
  have hmemStart : ∀ u : Nat, (Ev.start u ∈ cfg.trace ++ evs ++ [Ev.finished t] ↔
      Ev.start u ∈ cfg.trace) := fun u => hmemT _ (by simp) (by simp) (by simp)
  have hmemRet : ∀ u : Nat, (Ev.ret u ∈ cfg.trace ++ evs ++ [Ev.finished t] ↔
      Ev.ret u ∈ cfg.trace) := fun u => hmemT _ (by simp) (by simp) (by simp)
  have hmemPub : ∀ u : Nat, (Ev.publish u ∈ cfg.trace ++ evs ++ [Ev.finished t] ↔
      Ev.publish u ∈ cfg.trace) := fun u => hmemT _ (by simp) (by simp) (by simp)
  have hmemDec : ∀ u : Nat, (Ev.dec u ∈ cfg.trace ++ evs ++ [Ev.finished t] ↔
      Ev.dec u ∈ cfg.trace) := fun u => hmemT _ (by simp) (by simp) (by simp)
  have hmemFin : ∀ u : Nat, (Ev.finished u ∈ cfg.trace ++ evs ++ [Ev.finished t] ↔
      (Ev.finished u ∈ cfg.trace ∨ u = t)) := by
    intro u
    rw [List.mem_append, List.mem_append]
    constructor
    · intro hm
      rcases hm with (hm | hm) | hm
      · exact Or.inl hm
      · exact absurd hm (hnoev _ (by simp) (by simp))
      · rw [List.mem_singleton] at hm
        injection hm with hm2
        exact Or.inr hm2
    · intro hm
      rcases hm with hm | hm
      · exact Or.inl (Or.inl hm)
      · rw [hm]
        exact Or.inr (List.mem_singleton.mpr rfl)
  have hchar : ∀ u : Nat, u ≠ t → ∀ hx : Handle,
      (hs1.set t { h with dependents := [], state := HState.finished })[u]? = some hx →
      ∃ hu, cfg.handles[u]? = some hu ∧
        ((h.dependents.count u = 0 ∧ hx = hu ∧ u ∉ enqs) ∨
         (h.dependents.count u ≠ 0 ∧ hu.dependenciesLeft = h.dependents.count u ∧
          hu.state = HState.waiting ∧ hu.submitTask = true ∧
          hx = ⟨HState.submitted, 0, false, hu.dependents⟩ ∧ u ∈ enqs) ∨
         (h.dependents.count u ≠ 0 ∧
          ¬ (hu.dependenciesLeft = h.dependents.count u ∧ hu.state = HState.waiting) ∧
          (hu.state = HState.preparing ∨ hu.state = HState.waiting) ∧
          hx = { hu with dependenciesLeft := hu.dependenciesLeft - h.dependents.count u } ∧
          u ∉ enqs)) := by
    intro u hu0 hx hgx
    obtain ⟨hu, hgu, hxe⟩ := hafter u hu0 hx hgx
    refine ⟨hu, hgu, ?_⟩
    by_cases hc0 : h.dependents.count u = 0
    · left
      refine ⟨hc0, ?_, ?_⟩
      · rw [hxe]
        simp only [afterNotify]
        rw [if_pos hc0]
      · intro hin
        obtain ⟨hx2, hgx2, hnz, _, _, _⟩ := (henqsc u).mp hin
        exact hnz hc0
    · by_cases hhit : hu.dependenciesLeft = h.dependents.count u ∧ hu.state = HState.waiting
      · right; left
        have hst : hu.submitTask = true := hsubm u hu hgu hc0 hhit.1 hhit.2
        refine ⟨hc0, hhit.1, hhit.2, hst, ?_, ?_⟩
        · rw [hxe]
          simp only [afterNotify]
          rw [if_neg hc0, if_pos hhit]
        · exact (henqsc u).mpr ⟨hu, hgu, hc0, hhit.1, hhit.2, hst⟩
      · right; right
        refine ⟨hc0, hhit, hstatetrip u hu hgu hc0, ?_, ?_⟩
        · rw [hxe]
          simp only [afterNotify]
          rw [if_neg hc0, if_neg hhit]
        · intro hin
          obtain ⟨hx2, hgx2, hnz, hd2, hw2, hs2⟩ := (henqsc u).mp hin
          rw [hgu, Option.some.injEq] at hgx2
          rw [← hgx2] at hd2 hw2
          exact hhit ⟨hd2, hw2⟩
  refine
    { lenCells := by
        rw [List.length_set, hlen1]
        exact hInv.lenCells
      lenTasks := by
        rw [List.length_set, hlen1]
        exact hInv.lenTasks
      tasksLink := hInv.tasksLink
      ssLink := by
        intro u
        rw [hmemT (Ev.submitSet u) (by simp) (by simp) (by simp)]
        exact hInv.ssLink u
      incLink := by
        intro u
        rw [List.count_append, List.count_append]
        have h1 : evs.count (Ev.inc u) = 0 := by
          rw [List.count_eq_zero]
          intro hc
          rcases hevin _ hc with ⟨x, _, he⟩ | ⟨x, _, he⟩ <;> exact Ev.noConfusion he
        have h2 : ([Ev.finished t] : List Ev).count (Ev.inc u) = 0 := by
          simp
        rw [h1, h2]
        simpa using hInv.incLink u
      poolNodup := by
        rw [List.nodup_append]
        refine ⟨hInv.poolNodup, hndq, ?_⟩
        intro u hu hc
        exact henqnoenq u hc ((hInv.poolTr u).mp hu).1
      poolLt := by
        intro u hu
        rw [List.mem_append] at hu
        rw [List.length_set, hlen1]
        rcases hu with hu | hu
        · exact hInv.poolLt u hu
        · obtain ⟨hx, hgx, _⟩ := henqwait u hu
          exact getElem?_lt hgx
      runLt := by
        intro e he
        rw [List.length_set, hlen1]
        exact hrlt e he
      runKeys := hkeys
      pendWf := by
        intro e he
        obtain ⟨a, b, c⟩ := hInv.pendWf e (List.mem_of_mem_filter he)
        exact ⟨a, by
          rw [List.length_set, hlen1]
          exact b, by
          rw [List.length_set, hlen1]
          exact c⟩
      stSub := ?stSubh
      stFin := ?stFinh
      enqLt := ?enqLth
      ssTr := ?ssTrh
      poolTr := ?poolTrh
      runTr1 := ?runTr1h
      runTr2 := ?runTr2h
      runTr3 := ?runTr3h
      runTr4 := ?runTr4h
      cellTr := by
        intro u
        rw [hmemT (Ev.publish u) (by simp) (by simp) (by simp)]
        exact hInv.cellTr u
      valInv := ?valInvh
      ordStartEnq := ?ordStartEnqh
      ordRetStart := ?ordRetStarth
      ordPubRet := ?ordPubReth
      ordFinPub := ?ordFinPubh
      ordDecFin := ?ordDecFinh
      ordEnqSS := ?ordEnqSSh
      ordNotPub := ?ordNotPubh
      startOrd := ?startOrdh
      nestOrd := ?nestOrdh
      depsPend := ?depsPendh
      depsFin := ?depsFinh
      leftPend := ?leftPendh
      edgeFin := ?edgeFinh }
  case stSubh =>
    intro u hx hgx
    rw [hmemEnq u]
    by_cases hut : u = t
    · subst hut
      rw [hgself, Option.some.injEq] at hgx
      constructor
      · intro _
        exact Or.inl henq
      · intro _
        refine Or.inr ?_
        rw [← hgx]
    · obtain ⟨hu, hgu, hcase⟩ := hchar u hut hx hgx
      rcases hcase with ⟨hc0, hxe, hne⟩ | ⟨hc0, hd, hw, hst, hxe, hin⟩ | ⟨hc0, hmiss, hpw, hxe, hne⟩
      · rw [hxe]
        constructor
        · intro hss
          exact Or.inl ((hInv.stSub u hu hgu).mp hss)
        · intro hss
          rcases hss with hss | hss
          · exact (hInv.stSub u hu hgu).mpr hss
          · exact absurd hss hne
      · constructor
        · intro _
          exact Or.inr hin
        · intro _
          refine Or.inl ?_
          rw [hxe]
      · have hsx : hx.state = hu.state := by rw [hxe]
        constructor
        · intro hss
          rw [hsx] at hss
          exfalso
          rcases hpw with hpw | hpw <;> rcases hss with hss | hss <;>
            (rw [hpw] at hss; exact HState.noConfusion hss)
        · intro hss
          exfalso
          rcases hss with hss | hss
          · rcases (hInv.stSub u hu hgu).mpr hss with h2 | h2 <;>
              rcases hpw with hpw | hpw <;> (rw [hpw] at h2; exact HState.noConfusion h2)
          · exact hne hss
  case stFinh =>
    intro u hx hgx
    rw [hmemFin u]
    by_cases hut : u = t
    · subst hut
      rw [hgself, Option.some.injEq] at hgx
      constructor
      · intro _
        exact Or.inr rfl
      · intro _
        rw [← hgx]
    · obtain ⟨hu, hgu, hcase⟩ := hchar u hut hx hgx
      rcases hcase with ⟨hc0, hxe, hne⟩ | ⟨hc0, hd, hw, hst, hxe, hin⟩ | ⟨hc0, hmiss, hpw, hxe, hne⟩
      · rw [hxe]
        constructor
        · intro hf
          exact Or.inl ((hInv.stFin u hu hgu).mp hf)
        · intro hf
          rcases hf with hf | hf
          · exact (hInv.stFin u hu hgu).mpr hf
          · exact absurd hf hut
      · have hsx : hx.state = HState.submitted := by rw [hxe]
        constructor
        · intro hf
          rw [hsx] at hf
          exact absurd hf (fun hc => HState.noConfusion hc)
        · intro hf
          exfalso
          rcases hf with hf | hf
          · have h2 := (hInv.stFin u hu hgu).mpr hf
            rw [hw] at h2
            exact HState.noConfusion h2
          · exact hut hf
      · have hsx : hx.state = hu.state := by rw [hxe]
        constructor
        · intro hf
          rw [hsx] at hf
          exfalso
          rcases hpw with hpw | hpw <;> (rw [hpw] at hf; exact HState.noConfusion hf)
        · intro hf
          exfalso
          rcases hf with hf | hf
          · have h2 := (hInv.stFin u hu hgu).mpr hf
            rcases hpw with hpw | hpw <;> (rw [hpw] at h2; exact HState.noConfusion h2)
          · exact hut hf
  case enqLth =>
    intro u hu
    rw [List.length_set, hlen1]
    rcases (hmemEnq u).mp hu with hm | hm
    · exact hInv.enqLt u hm
    · obtain ⟨hx, hgx, _⟩ := henqwait u hm
      exact getElem?_lt hgx
  case ssTrh =>
    intro u hx hgx hst
    rw [hmemT (Ev.submitSet u) (by simp) (by simp) (by simp)]
    by_cases hut : u = t
    · subst hut
      rw [hgself, Option.some.injEq] at hgx
      have hsx : hx.submitTask = h.submitTask := by rw [← hgx]
      rw [hsx] at hst
      exact hInv.ssTr u h hg hst
    · obtain ⟨hu, hgu, hcase⟩ := hchar u hut hx hgx
      rcases hcase with ⟨hc0, hxe, hne⟩ | ⟨hc0, hd, hw, hsu, hxe, hin⟩ | ⟨hc0, hmiss, hpw, hxe, hne⟩
      · rw [hxe] at hst
        exact hInv.ssTr u hu hgu hst
      · exact hInv.ssTr u hu hgu hsu
      · have htx : hx.submitTask = hu.submitTask := by rw [hxe]
        rw [htx] at hst
        exact hInv.ssTr u hu hgu hst
  case poolTrh =>
    intro u
    rw [List.mem_append, hmemEnq u, hmemStart u]
    constructor
    · intro hm
      rcases hm with hm | hm
      · obtain ⟨he, hs⟩ := (hInv.poolTr u).mp hm
        exact ⟨Or.inl he, hs⟩
      · refine ⟨Or.inr hm, ?_⟩
        intro hstu
        obtain ⟨hx, hgx, hwx, _, _, _⟩ := henqwait u hm
        have henqu : Ev.enq u ∈ cfg.trace := (hInv.ordStartEnq u).mem hstu
        rcases (hInv.stSub u hx hgx).mpr henqu with h2 | h2 <;>
          (rw [hwx] at h2; exact HState.noConfusion h2)
    · intro hm
      obtain ⟨he, hs⟩ := hm
      rcases he with he | he
      · exact Or.inl ((hInv.poolTr u).mpr ⟨he, hs⟩)
      · exact Or.inr he
  case runTr1h =>
    intro u
    rw [hmemStart u, hmemRet u]
    by_cases hut : u = t
    · subst hut
      constructor
      · intro hc
        exfalso
        rcases hps with ⟨hpp, _⟩ | hpn
        · rw [hpp, Option.some.injEq] at hc
          exact RunPhase.noConfusion hc
        · rw [hpn] at hc
          exact Option.noConfusion hc
      · intro hc
        exact absurd hret hc.2
    · rw [hpo u hut, hInv.runTr1 u]
  case runTr2h =>
    intro u
    rw [hmemRet u, hmemPub u]
    by_cases hut : u = t
    · subst hut
      constructor
      · intro hc
        exfalso
        obtain ⟨v, hv⟩ := hc
        rcases hps with ⟨hpp, _⟩ | hpn
        · rw [hpp, Option.some.injEq] at hv
          exact RunPhase.noConfusion hv
        · rw [hpn] at hv
          exact Option.noConfusion hv
      · intro hc
        exact absurd hpub hc.2
    · rw [hpo u hut]
      exact hInv.runTr2 u
  case runTr3h =>
    intro u
    rw [hmemPub u, hmemFin u]
    by_cases hut : u = t
    · subst hut
      constructor
      · intro hc
        exfalso
        rcases hps with ⟨hpp, _⟩ | hpn
        · rw [hpp, Option.some.injEq] at hc
          exact RunPhase.noConfusion hc
        · rw [hpn] at hc
          exact Option.noConfusion hc
      · intro hc
        exact absurd (Or.inr rfl) hc.2
    · rw [hpo u hut, hInv.runTr3 u]
      constructor
      · intro hc
        refine ⟨hc.1, ?_⟩
        intro hm
        rcases hm with hm | hm
        · exact hc.2 hm
        · exact hut hm
      · intro hc
        exact ⟨hc.1, fun hm => hc.2 (Or.inl hm)⟩
  case runTr4h =>
    intro u hc
    by_cases hut : u = t
    · subst hut
      rcases hps with ⟨hpp, r, hr, hgrp⟩ | hpn
      · refine ⟨List.mem_append.mpr (Or.inr (List.mem_singleton.mpr rfl)), ?_, r, hr, hgrp⟩
        rw [hmemDec u]
        intro hdec
        exact hnofin ((hInv.ordDecFin u).mem hdec)
      · rw [hpn] at hc
        exact Option.noConfusion hc
    · rw [hpo u hut] at hc
      obtain ⟨f1, f2, f3⟩ := hInv.runTr4 u hc
      refine ⟨List.mem_append.mpr (Or.inl (List.mem_append.mpr (Or.inl f1))), ?_, f3⟩
      rw [hmemDec u]
      exact f2
  case valInvh =>
    intro u v r hr hor
    by_cases hut : u = t
    · subst hut
      rcases hor with hph2 | hcell
      · exfalso
        rcases hps with ⟨hpp, _⟩ | hpn
        · rw [hpp, Option.some.injEq] at hph2
          exact RunPhase.noConfusion hph2
        · rw [hpn] at hph2
          exact Option.noConfusion hph2
      · exact hInv.valInv u v r hr (Or.inr hcell)
    · rw [hpo u hut] at hor
      exact hInv.valInv u v r hr hor
  case ordStartEnqh =>
    intro u
    rw [List.append_assoc]
    apply OrdIn.append (hInv.ordStartEnq u)
    intro hb
    rcases List.mem_append.mp hb with hb | hb
    · exact absurd hb (hnoev _ (by simp) (by simp))
    · rw [List.mem_singleton] at hb
      exact Ev.noConfusion hb
  case ordRetStarth =>
    intro u
    rw [List.append_assoc]
    apply OrdIn.append (hInv.ordRetStart u)
    intro hb
    rcases List.mem_append.mp hb with hb | hb
    · exact absurd hb (hnoev _ (by simp) (by simp))
    · rw [List.mem_singleton] at hb
      exact Ev.noConfusion hb
  case ordPubReth =>
    intro u
    rw [List.append_assoc]
    apply OrdIn.append (hInv.ordPubRet u)
    intro hb
    rcases List.mem_append.mp hb with hb | hb
    · exact absurd hb (hnoev _ (by simp) (by simp))
    · rw [List.mem_singleton] at hb
      exact Ev.noConfusion hb
  case ordFinPubh =>
    intro u
    rw [List.append_assoc]
    apply OrdIn.append (hInv.ordFinPub u)
    intro hb
    rcases List.mem_append.mp hb with hb | hb
    · exact absurd hb (hnoev _ (by simp) (by simp))
    · rw [List.mem_singleton] at hb
      injection hb with hb2
      rw [hb2]
      exact hpub
  case ordDecFinh =>
    intro u
    rw [List.append_assoc]
    apply OrdIn.append (hInv.ordDecFin u)
    intro hb
    rcases List.mem_append.mp hb with hb | hb
    · exact absurd hb (hnoev _ (by simp) (by simp))
    · rw [List.mem_singleton] at hb
      exact Ev.noConfusion hb
  case ordEnqSSh =>
    intro u
    rw [List.append_assoc]
    apply OrdIn.append (hInv.ordEnqSS u)
    intro hb
    rcases List.mem_append.mp hb with hb | hb
    · have hin : u ∈ enqs := (hev2 u).mp hb
      obtain ⟨hx, hgx, _, hsx, _, _⟩ := henqwait u hin
      exact hInv.ssTr u hx hgx hsx
    · rw [List.mem_singleton] at hb
      exact Ev.noConfusion hb
  case ordNotPubh =>
    intro p d
    rw [List.append_assoc]
    apply OrdIn.append (hInv.ordNotPub p d)
    intro hb
    rcases List.mem_append.mp hb with hb | hb
    · have hpt : p = t := hnotifq p d hb
      rw [hpt]
      exact hpub
    · rw [List.mem_singleton] at hb
      exact Ev.noConfusion hb
  case startOrdh =>
    have hns : ∀ d : Nat, Ev.start d ∉ evs ++ [Ev.finished t] := by
      intro d hc
      rcases List.mem_append.mp hc with hc | hc
      · exact (hnoev _ (by simp) (by simp)) hc
      · rw [List.mem_singleton] at hc
        exact Ev.noConfusion hc
    have hne2 : ∀ p d : Nat, Ev.edgeAdded p d ∉ evs ++ [Ev.finished t] := by
      intro p d hc
      rcases List.mem_append.mp hc with hc | hc
      · exact (hnoev _ (by simp) (by simp)) hc
      · rw [List.mem_singleton] at hc
        exact Ev.noConfusion hc
    intro pos p d hpos hedge
    rw [List.append_assoc] at hpos hedge
    obtain ⟨⟨m1, hm1, hg1⟩, ⟨m2, hm2, hg2⟩⟩ :=
      startOrd_append hInv.startOrd hns hne2 pos p d hpos hedge
    refine ⟨⟨m1, hm1, ?_⟩, ⟨m2, hm2, ?_⟩⟩
    · rw [List.append_assoc]
      exact hg1
    · rw [List.append_assoc]
      exact hg2
  case nestOrdh =>
    have hno2 : ∀ x : Nat, Ev.joinedNested x ∉ evs ++ [Ev.finished t] := by
      intro x hc
      rcases List.mem_append.mp hc with hc | hc
      · exact (hnoev _ (by simp) (by simp)) hc
      · rw [List.mem_singleton] at hc
        exact Ev.noConfusion hc
    intro pos u hpos
    rw [List.append_assoc] at hpos
    obtain ⟨inner, hcin, m, hm, hg⟩ :=
      nestOrd_append hInv.nestOrd hno2 CellsLe.rfl pos u hpos
    refine ⟨inner, hcin, m, hm, ?_⟩
    rw [List.append_assoc]
    exact hg
  case depsPendh =>
    intro p hx hgx hnf
    by_cases hpt : p = t
    · subst hpt
      rw [hgself, Option.some.injEq] at hgx
      exfalso
      apply hnf
      rw [← hgx]
    · obtain ⟨hu, hgu, hcase⟩ := hchar p hpt hx hgx
      have hkey : hx.dependents = hu.dependents ∧ hu.state ≠ HState.finished := by
        rcases hcase with ⟨hc0, hxe, hne⟩ | ⟨hc0, hd, hw, hsu, hxe, hin⟩ | ⟨hc0, hmiss, hpw, hxe, hne⟩
        · constructor
          · rw [hxe]
          · intro hc
            apply hnf
            rw [hxe, hc]
        · constructor
          · rw [hxe]
          · rw [hw]
            intro hc
            exact HState.noConfusion hc
        · constructor
          · rw [hxe]
          · rcases hpw with hpw | hpw <;> (rw [hpw]; intro hc; exact HState.noConfusion hc)
      rw [hkey.1, hInv.depsPend p hu hgu hkey.2, filter_fst_filter_ne hpt]
  case depsFinh =>
    intro p hx hgx hf
    by_cases hpt : p = t
    · subst hpt
      rw [hgself, Option.some.injEq] at hgx
      rw [← hgx]
    · obtain ⟨hu, hgu, hcase⟩ := hchar p hpt hx hgx
      rcases hcase with ⟨hc0, hxe, hne⟩ | ⟨hc0, hd, hw, hsu, hxe, hin⟩ | ⟨hc0, hmiss, hpw, hxe, hne⟩
      · rw [hxe]
        apply hInv.depsFin p hu hgu
        rw [← hxe]
        exact hf
      · exfalso
        have hsx : hx.state = HState.submitted := by rw [hxe]
        rw [hsx] at hf
        exact HState.noConfusion hf
      · exfalso
        have hsx : hx.state = hu.state := by rw [hxe]
        rw [hsx] at hf
        rcases hpw with hpw | hpw <;> (rw [hpw] at hf; exact HState.noConfusion hf)
  case leftPendh =>
    intro d hx hgx
    dsimp only
    have hsplit : cfg.pending.countP (fun e => e.2 = d) =
        (cfg.pending.filter (fun e => ¬ e.1 = t)).countP (fun e => e.2 = d) +
          cfg.pending.countP (fun e => e.1 = t ∧ e.2 = d) := countP_filter_split
    by_cases hdt : d = t
    · subst hdt
      rw [hgself, Option.some.injEq] at hgx
      constructor
      · intro hc
        exfalso
        have hsx : hx.state = HState.finished := by rw [← hgx]
        rcases hc with hc | hc <;> (rw [hsx] at hc; exact HState.noConfusion hc)
      · intro _
        have h0 := (hInv.leftPend d h hg).2 (Or.inl hsub)
        omega
    · obtain ⟨hu, hgu, hcase⟩ := hchar d hdt hx hgx
      have hcd : h.dependents.count d = cfg.pending.countP (fun e => e.1 = t ∧ e.2 = d) :=
        hcountds d
      rcases hcase with ⟨hc0, hxe, hne⟩ | ⟨hc0, hdl, hw, hsu, hxe, hin⟩ | ⟨hc0, hmiss, hpw, hxe, hne⟩
      · have hold := hInv.leftPend d hu hgu
        have hsx : hx.state = hu.state := by rw [hxe]
        have hlx : hx.dependenciesLeft = hu.dependenciesLeft := by rw [hxe]
        constructor
        · intro hc
          rw [hsx] at hc
          have h1 := hold.1 hc
          rw [hlx, h1]
          omega
        · intro hc
          rw [hsx] at hc
          have h1 := hold.2 hc
          omega
      · have hold := hInv.leftPend d hu hgu
        have hsx : hx.state = HState.submitted := by rw [hxe]
        constructor
        · intro hc
          exfalso
          rcases hc with hc | hc <;> (rw [hsx] at hc; exact HState.noConfusion hc)
        · intro _
          have h1 := hold.1 (Or.inr hw)
          omega
      · have hold := hInv.leftPend d hu hgu
        have hsx : hx.state = hu.state := by rw [hxe]
        have hlx : hx.dependenciesLeft = hu.dependenciesLeft - h.dependents.count d := by
          rw [hxe]
        constructor
        · intro hc
          rw [hsx] at hc
          have h1 := hold.1 hc
          rw [hlx, h1]
          omega
        · intro hc
          rw [hsx] at hc
          have h1 := hold.2 hc
          omega
  case edgeFinh =>
    intro p d hm
    rw [hmemT (Ev.edgeAdded p d) (by simp) (by simp) (by simp)] at hm
    rcases hInv.edgeFin p d hm with hin | hfin2
    · by_cases hpt : p = t
      · subst hpt
        exact Or.inr (List.mem_append.mpr (Or.inr (List.mem_singleton.mpr rfl)))
      · refine Or.inl ?_
        rw [List.mem_filter]
        exact ⟨hin, by simp [hpt]⟩
    · exact Or.inr (List.mem_append.mpr (Or.inl (List.mem_append.mpr (Or.inl hfin2))))

end TaskModel

namespace TaskModel

theorem inv_step {cfg cfg2 : Config} {a : Act}
    (hInv : Inv cfg) (hstep : stepFn cfg a = some cfg2) : Inv cfg2 := by
  cases a with
  | main =>
      simp only [stepFn] at hstep
      unfold stepMain at hstep
      rcases hprog : cfg.prog[cfg.pc]? with _ | instr
      · rw [hprog] at hstep
        exact Option.noConfusion hstep
      rw [hprog] at hstep
      dsimp only at hstep
      cases instr with
      | create call g =>
          dsimp only at hstep
          cases hstep
          exact inv_main_create hInv hprog
      | addDep t p =>
          dsimp only at hstep
          rcases hgt : cfg.handles[t]? with _ | hd
          · rw [hgt] at hstep
            dsimp only at hstep
            exact Option.noConfusion hstep
          rcases hgp : cfg.handles[p]? with _ | hp
          · rw [hgt, hgp] at hstep
            dsimp only at hstep
            exact Option.noConfusion hstep
          rw [hgt, hgp] at hstep
          dsimp only at hstep
          by_cases htp : t = p
          · rw [if_pos htp] at hstep
            exact Option.noConfusion hstep
          rw [if_neg htp] at hstep
          by_cases hdp : hd.state = HState.preparing
          · rw [if_pos hdp] at hstep
            by_cases hpf : hp.state = HState.finished
            · have hadd : hp.addDependent t = (hp, false) := by
                unfold Handle.addDependent
                rw [if_pos hpf]
              rw [hadd] at hstep
              dsimp only at hstep
              cases hstep
              exact inv_main_addDep_reject hInv hprog hgp
            · have hadd : hp.addDependent t =
                  ({ hp with dependents := hp.dependents ++ [t] }, true) := by
                unfold Handle.addDependent
                rw [if_neg hpf]
              rw [hadd] at hstep
              dsimp only at hstep
              cases hstep
              exact inv_main_addDep_add hInv hprog hgt hgp htp hdp hpf
          · rw [if_neg hdp] at hstep
            exact Option.noConfusion hstep
      | setSubmit t =>
          dsimp only at hstep
          rcases hg : cfg.handles[t]? with _ | h
          · rw [hg] at hstep
            dsimp only at hstep
            exact Option.noConfusion hstep
          rw [hg] at hstep
          dsimp only at hstep
          rcases hss : h.setSubmitTask with _ | h2
          · rw [hss] at hstep
            exact Option.noConfusion hstep
          rw [hss] at hstep
          dsimp only at hstep
          cases hstep
          exact inv_main_setSubmit hInv hprog hg hss
      | finishPrep t =>
          dsimp only at hstep
          rcases hg : cfg.handles[t]? with _ | h
          · rw [hg] at hstep
            dsimp only at hstep
            exact Option.noConfusion hstep
          rw [hg] at hstep
          dsimp only at hstep
          by_cases hpre : h.state = HState.preparing
          · by_cases hz : h.dependenciesLeft = 0
            · by_cases hst : h.submitTask = true
              · have hfp : h.finishPreparation = some (h.enqueue, true) := by
                  unfold Handle.finishPreparation
                  rw [if_pos hpre, if_pos hz, if_pos hst]
                rw [hfp] at hstep
                dsimp only at hstep
                cases hstep
                exact inv_main_finishPrep_enq hInv hprog hg hpre hz hst
              · have hfp : h.finishPreparation = none := by
                  unfold Handle.finishPreparation
                  rw [if_pos hpre, if_pos hz, if_neg hst]
                rw [hfp] at hstep
                exact Option.noConfusion hstep
            · have hfp : h.finishPreparation =
                  some ({ h with state := HState.waiting }, false) := by
                unfold Handle.finishPreparation
                rw [if_pos hpre, if_neg hz]
              rw [hfp] at hstep
              dsimp only at hstep
              rw [show (if false = true then [t] else ([] : List Nat)) = [] from rfl,
                show (if false = true then [Ev.enq t] else ([] : List Ev)) = [] from rfl,
                List.append_nil, List.append_nil] at hstep
              cases hstep
              exact inv_main_finishPrep_wait hInv hprog hg hpre hz
          · have hfp : h.finishPreparation = none := by
              unfold Handle.finishPreparation
              rw [if_neg hpre]
            rw [hfp] at hstep
            exact Option.noConfusion hstep
      | incActive t =>
          dsimp only at hstep
          cases hstep
          refine inv_inert_main hInv hprog (fun c g hc => MInstr.noConfusion hc)
            ?_ ?_ (fun u hc => Ev.noConfusion hc) (fun u hc => Ev.noConfusion hc)
            (fun u hc => Ev.noConfusion hc) (fun u hc => Ev.noConfusion hc)
            (fun u hc => Ev.noConfusion hc) (fun u hc => Ev.noConfusion hc)
            (fun p d hc => Ev.noConfusion hc) (fun p d hc => Ev.noConfusion hc)
            (fun u hc => absurd hc (fun hc2 => Ev.noConfusion hc2))
          · intro u
            constructor
            · intro hc
              exact Ev.noConfusion hc
            · intro hc
              exact MInstr.noConfusion hc
          · intro u
            constructor
            · intro hc
              injection hc with h2
              rw [h2]
            · intro hc
              injection hc with h2
              rw [h2]
      | joinTask t =>
          dsimp only at hstep
          rcases hc : cfg.cells.getD t none with _ | v
          · rw [hc] at hstep
            exact Option.noConfusion hstep
          rw [hc] at hstep
          dsimp only at hstep
          cases hstep
          refine inv_inert_main hInv hprog (fun c g hc => MInstr.noConfusion hc)
            ?_ ?_ (fun u hc => Ev.noConfusion hc) (fun u hc => Ev.noConfusion hc)
            (fun u hc => Ev.noConfusion hc) (fun u hc => Ev.noConfusion hc)
            (fun u hc => Ev.noConfusion hc) (fun u hc => Ev.noConfusion hc)
            (fun p d hc => Ev.noConfusion hc) (fun p d hc => Ev.noConfusion hc)
            (fun u hc => absurd hc (fun hc2 => Ev.noConfusion hc2))
          · intro u
            constructor
            · intro hc
              exact Ev.noConfusion hc
            · intro hc
              exact MInstr.noConfusion hc
          · intro u
            constructor
            · intro hc
              exact Ev.noConfusion hc
            · intro hc
              exact MInstr.noConfusion hc
      | joinNested t =>
          dsimp only at hstep
          rcases hc1 : cfg.cells.getD t none with _ | inner
          · rw [hc1] at hstep
            exact Option.noConfusion hstep
          rw [hc1] at hstep
          dsimp only at hstep
          rcases hc2 : cfg.cells.getD inner none with _ | w
          · rw [hc2] at hstep
            exact Option.noConfusion hstep
          rw [hc2] at hstep
          dsimp only at hstep
          cases hstep
          refine inv_inert_main hInv hprog (fun c g hc => MInstr.noConfusion hc)
            ?_ ?_ (fun u hc => Ev.noConfusion hc) (fun u hc => Ev.noConfusion hc)
            (fun u hc => Ev.noConfusion hc) (fun u hc => Ev.noConfusion hc)
            (fun u hc => Ev.noConfusion hc) (fun u hc => Ev.noConfusion hc)
            (fun p d hc => Ev.noConfusion hc) (fun p d hc => Ev.noConfusion hc)
            ?_
          · intro u
            constructor
            · intro hc
              exact Ev.noConfusion hc
            · intro hc
              exact MInstr.noConfusion hc
          · intro u
            constructor
            · intro hc
              exact Ev.noConfusion hc
            · intro hc
              exact MInstr.noConfusion hc
          · intro u hc
            injection hc with h2
            rw [h2]
            refine ⟨inner, hc1, ?_⟩
            exact (hInv.ordPubRet inner).mem ((hInv.cellTr inner).mp ⟨w, hc2⟩)
      | groupJoin =>
          dsimp only at hstep
          by_cases ha : cfg.active = 0
          · rw [if_pos ha] at hstep
            cases hstep
            refine inv_inert_main hInv hprog (fun c g hc => MInstr.noConfusion hc)
              ?_ ?_ (fun u hc => Ev.noConfusion hc) (fun u hc => Ev.noConfusion hc)
              (fun u hc => Ev.noConfusion hc) (fun u hc => Ev.noConfusion hc)
              (fun u hc => Ev.noConfusion hc) (fun u hc => Ev.noConfusion hc)
              (fun p d hc => Ev.noConfusion hc) (fun p d hc => Ev.noConfusion hc)
              (fun u hc => absurd hc (fun hc2 => Ev.noConfusion hc2))
            · intro u
              constructor
              · intro hc
                exact Ev.noConfusion hc
              · intro hc
                exact MInstr.noConfusion hc
            · intro u
              constructor
              · intro hc
                exact Ev.noConfusion hc
              · intro hc
                exact MInstr.noConfusion hc
          · rw [if_neg ha] at hstep
            exact Option.noConfusion hstep
  | start t =>
      simp only [stepFn] at hstep
      by_cases hp : t ∈ cfg.pool
      · rw [if_pos hp] at hstep
        cases hstep
        exact inv_act_start hInv hp
      · rw [if_neg hp] at hstep
        exact Option.noConfusion hstep
  | ret t =>
      simp only [stepFn] at hstep
      rcases hph : phaseOf cfg.running t with _ | ph
      · rw [hph] at hstep
        exact Option.noConfusion hstep
      rw [hph] at hstep
      cases ph
      case returned v => exact Option.noConfusion hstep
      case published => exact Option.noConfusion hstep
      case postPending => exact Option.noConfusion hstep
      case running =>
        dsimp only at hstep
        rcases htr : cfg.tasks[t]? with _ | trec
        · rw [htr] at hstep
          exact Option.noConfusion hstep
        rw [htr] at hstep
        dsimp only at hstep
        rcases hev : evalCallable trec.call cfg.cells with _ | v
        · rw [hev] at hstep
          exact Option.noConfusion hstep
        rw [hev] at hstep
        dsimp only at hstep
        cases hstep
        exact inv_act_ret hInv hph htr hev
  | publish t =>
      simp only [stepFn] at hstep
      rcases hph : phaseOf cfg.running t with _ | ph
      · rw [hph] at hstep
        exact Option.noConfusion hstep
      rw [hph] at hstep
      cases ph
      case running => exact Option.noConfusion hstep
      case published => exact Option.noConfusion hstep
      case postPending => exact Option.noConfusion hstep
      case returned v =>
        dsimp only at hstep
        cases hstep
        exact inv_act_publish hInv hph
  | finish t =>
      simp only [stepFn] at hstep
      rcases hph : phaseOf cfg.running t with _ | ph
      · rw [hph] at hstep
        exact Option.noConfusion hstep
      rw [hph] at hstep
      cases ph
      case running => exact Option.noConfusion hstep
      case returned v => exact Option.noConfusion hstep
      case postPending => exact Option.noConfusion hstep
      case published =>
        dsimp only at hstep
        rcases hg : cfg.handles[t]? with _ | h
        · rw [hg] at hstep
          exact Option.noConfusion hstep
        rw [hg] at hstep
        dsimp only at hstep
        by_cases hsub : h.state = HState.submitted
        · rw [if_pos hsub] at hstep
          rcases hna : notifyAll t cfg.handles h.dependents with _ | trip
          · rw [hna] at hstep
            exact Option.noConfusion hstep
          rcases trip with ⟨hs1, enqs, evs⟩
          rw [hna] at hstep
          dsimp only at hstep
          rcases hselfg : hs1[t]? with _ | hself
          · rw [hselfg] at hstep
            exact Option.noConfusion hstep
          rw [hselfg] at hstep
          dsimp only at hstep
          have htlt : t < cfg.handles.length :=
            hInv.runLt (t, RunPhase.published) (phaseOf_isSome_mem hph)
          rcases htr : cfg.tasks[t]? with _ | trec
          · rw [htr] at hstep
            dsimp only at hstep
            cases hstep
            refine inv_act_finish hInv hph hg hsub hna hselfg
              (Or.inr phaseOf_dropRun_self) (fun u hu => phaseOf_dropRun_other hu)
              (hInv.runKeys.sublist (dropRun_sublist.map Prod.fst)) ?_
            intro e he
            exact hInv.runLt e (dropRun_sublist.subset he)
          rw [htr] at hstep
          dsimp only at hstep
          by_cases hgrp : trec.inGroup = true
          · rw [if_pos hgrp] at hstep
            cases hstep
            refine inv_act_finish hInv hph hg hsub hna hselfg
              (Or.inl ⟨phaseOf_setPhase_self hph, trec, htr, hgrp⟩)
              (fun u hu => phaseOf_setPhase_other hu) ?_ ?_
            · rw [setPhase_keys]
              exact hInv.runKeys
            · intro e he
              rcases mem_setPhase he with he2 | he2
              · rw [he2]
                exact htlt
              · exact hInv.runLt e he2
          · rw [if_neg hgrp] at hstep
            cases hstep
            refine inv_act_finish hInv hph hg hsub hna hselfg
              (Or.inr phaseOf_dropRun_self) (fun u hu => phaseOf_dropRun_other hu)
              (hInv.runKeys.sublist (dropRun_sublist.map Prod.fst)) ?_
            intro e he
            exact hInv.runLt e (dropRun_sublist.subset he)
        · rw [if_neg hsub] at hstep
          exact Option.noConfusion hstep
  | post t =>
      simp only [stepFn] at hstep
      rcases hph : phaseOf cfg.running t with _ | ph
      · rw [hph] at hstep
        exact Option.noConfusion hstep
      rw [hph] at hstep
      cases ph
      case running => exact Option.noConfusion hstep
      case returned v => exact Option.noConfusion hstep
      case published => exact Option.noConfusion hstep
      case postPending =>
        dsimp only at hstep
        cases hstep
        exact inv_act_post hInv hph

end TaskModel

namespace TaskModel

theorem inv_init {prog : List MInstr} : Inv (initConfig prog) := by
  refine
    { lenCells := rfl
      lenTasks := rfl
      tasksLink := rfl
      ssLink := by intro t; simp [initConfig]
      incLink := by intro t; simp [initConfig]
      poolNodup := List.nodup_nil
      poolLt := by intro t ht; simp [initConfig] at ht
      runLt := by intro e he; simp [initConfig] at he
      runKeys := by simp [initConfig]
      pendWf := by intro e he; simp [initConfig] at he
      stSub := by intro t h hg; simp [initConfig] at hg
      stFin := by intro t h hg; simp [initConfig] at hg
      enqLt := by intro t ht; simp [initConfig] at ht
      ssTr := by intro t h hg; simp [initConfig] at hg
      poolTr := by intro t; simp [initConfig]
      runTr1 := by intro t; simp [initConfig, phaseOf]
      runTr2 := by intro t; simp [initConfig, phaseOf]
      runTr3 := by intro t; simp [initConfig, phaseOf]
      runTr4 := by intro t hc; simp [initConfig, phaseOf] at hc
      cellTr := by intro t; simp [initConfig]
      valInv := by intro t v r hr; simp [initConfig] at hr
      ordStartEnq := by intro t pos hpos; simp [initConfig] at hpos
      ordRetStart := by intro t pos hpos; simp [initConfig] at hpos
      ordPubRet := by intro t pos hpos; simp [initConfig] at hpos
      ordFinPub := by intro t pos hpos; simp [initConfig] at hpos
      ordDecFin := by intro t pos hpos; simp [initConfig] at hpos
      ordEnqSS := by intro t pos hpos; simp [initConfig] at hpos
      ordNotPub := by intro p d pos hpos; simp [initConfig] at hpos
      startOrd := by intro pos p d hpos; simp [initConfig] at hpos
      nestOrd := by intro pos t hpos; simp [initConfig] at hpos
      depsPend := by intro p h hg; simp [initConfig] at hg
      depsFin := by intro p h hg; simp [initConfig] at hg
      leftPend := by intro d h hg; simp [initConfig] at hg
      edgeFin := by intro p d hm; simp [initConfig] at hm }

theorem inv_exec {acts : List Act} {cfg cfg2 : Config}
    (hInv : Inv cfg) (hex : exec cfg acts = some cfg2) : Inv cfg2 := by
  induction acts generalizing cfg with
  | nil =>
      unfold exec at hex
      cases hex
      exact hInv
  | cons a acts ih =>
      unfold exec at hex
      rcases hs : stepFn cfg a with _ | cfg1
      · rw [hs] at hex
        exact Option.noConfusion hex
      rw [hs] at hex
      exact ih (inv_step hInv hs) hex

/-- Every reachable configuration satisfies the master invariant. -/
theorem reach_inv {prog : List MInstr} {cfg : Config} (h : Reach prog cfg) : Inv cfg := by
  obtain ⟨acts, hex⟩ := h
  exact inv_exec inv_init hex

end TaskModel

namespace TaskModel

/-
  Static shape of compiled programs: within every `task_group::submit`
  block the `++active` instruction precedes `set_submit_task` and
  `finish_preparation`, and every instruction refers to an already
  allocated task id.
-/

theorem createsOf_map_addDep {deps : List Nat} {t : Nat} :
    createsOf (deps.map (fun p => MInstr.addDep t p)) = [] := by
  induction deps with
  | nil => rfl
  | cons d deps ih =>
      rw [List.map_cons]
      unfold createsOf at ih ⊢
      rw [List.filterMap_cons]
      exact ih

theorem createsOf_block {s : Submission} {k : Nat} :
    createsOf (submissionInstrs s k) = (subsRec s).toList := by
  cases s <;>
    simp [submissionInstrs, subsRec, createsOf, List.filterMap_append,
      show ∀ (deps : List Nat) (t : Nat),
        List.filterMap (fun i => match i with
          | MInstr.create call inGroup => some (⟨call, inGroup⟩ : TaskRec)
          | _ => none) (deps.map (fun p => MInstr.addDep t p)) = [] from
        fun deps t => createsOf_map_addDep]

theorem createsOf_compile {subs : List Submission} {k : Nat} :
    createsOf (compileProg subs k) = subs.filterMap subsRec := by
  induction subs generalizing k with
  | nil => rfl
  | cons s rest ih =>
      rw [compileProg, createsOf_append, createsOf_block, List.filterMap_cons]
      cases hs : subsRec s
      · simp [ih]
      · simp [ih]

theorem mem_take_append {α : Type} {a : α} {l1 l2 : List α} {m : Nat} :
    a ∈ (l1 ++ l2).take m ↔ a ∈ l1.take m ∨ a ∈ l2.take (m - l1.length) := by
  rw [List.take_append_eq_append_take, List.mem_append]

theorem block_len {s : Submission} {k : Nat} :
    (createsOf (submissionInstrs s k)).length = numTasks s := by
  cases s <;> simp [createsOf_block, subsRec, numTasks]

theorem incActive_in_block {s : Submission} {k t m : Nat}
    (h : MInstr.incActive t ∈ (submissionInstrs s k).take m) :
    t = k ∧ (∃ deps call, s = Submission.group deps call) ∧ 0 < m := by
  have hm : MInstr.incActive t ∈ submissionInstrs s k := List.take_subset m _ h
  have hpos : 0 < m := by
    rcases Nat.eq_zero_or_pos m with hz | hp
    · subst hz
      simp at h
    · exact hp
  cases s with
  | free deps call =>
      exfalso
      simp [submissionInstrs] at hm
  | group deps call =>
      refine ⟨?_, ⟨deps, call, rfl⟩, hpos⟩
      simpa [submissionInstrs] using hm
  | sjoin j =>
      exfalso
      simp [submissionInstrs] at hm
  | sjoinNested j =>
      exfalso
      simp [submissionInstrs] at hm
  | sgroupJoin =>
      exfalso
      simp [submissionInstrs] at hm

theorem setSubmit_in_block {s : Submission} {k t m : Nat}
    (h : MInstr.setSubmit t ∈ (submissionInstrs s k).take m) :
    t = k ∧ numTasks s = 1 := by
  have hm : MInstr.setSubmit t ∈ submissionInstrs s k := List.take_subset m _ h
  cases s with
  | free deps call =>
      refine ⟨?_, rfl⟩
      simpa [submissionInstrs] using hm
  | group deps call =>
      refine ⟨?_, rfl⟩
      simpa [submissionInstrs] using hm
  | sjoin j => simp [submissionInstrs] at hm
  | sjoinNested j => simp [submissionInstrs] at hm
  | sgroupJoin => simp [submissionInstrs] at hm

end TaskModel

namespace TaskModel

theorem setSubmit_in_group_take {deps : List Nat} {call : Callable} {k t m : Nat}
    (h : MInstr.setSubmit t ∈ (submissionInstrs (Submission.group deps call) k).take m) :
    MInstr.incActive k ∈ (submissionInstrs (Submission.group deps call) k).take m := by
  simp only [submissionInstrs] at h ⊢
  rw [mem_take_append] at h
  rw [mem_take_append]
  rcases h with h | h
  · exfalso
    have := List.take_subset _ _ h
    simp at this
  · refine Or.inr ?_
    rcases hj : m - ([MInstr.create call true] ++
        deps.map (fun p => MInstr.addDep k p)).length with _ | j1
    · rw [hj] at h
      simp at h
    · rcases j1 with _ | j2
      · rw [hj] at h
        simp [List.take_succ_cons] at h
      · rw [List.take_succ_cons]
        exact List.mem_cons_self _ _

theorem compile_incActive_ge {subs : List Submission} {k t : Nat}
    (h : MInstr.incActive t ∈ compileProg subs k) : k ≤ t := by
  induction subs generalizing k with
  | nil => cases h
  | cons s rest ih =>
      rw [compileProg] at h
      rcases List.mem_append.mp h with h | h
      · have h2 : MInstr.incActive t ∈
            (submissionInstrs s k).take (submissionInstrs s k).length := by
          rw [List.take_length]
          exact h
        exact Nat.le_of_eq (incActive_in_block h2).1.symm
      · have := ih h
        omega

theorem compile_setSubmit_ge {subs : List Submission} {k t : Nat}
    (h : MInstr.setSubmit t ∈ compileProg subs k) : k ≤ t := by
  induction subs generalizing k with
  | nil => cases h
  | cons s rest ih =>
      rw [compileProg] at h
      rcases List.mem_append.mp h with h | h
      · have h2 : MInstr.setSubmit t ∈
            (submissionInstrs s k).take (submissionInstrs s k).length := by
          rw [List.take_length]
          exact h
        exact Nat.le_of_eq (setSubmit_in_block h2).1.symm
      · have := ih h
        omega

theorem compile_incActive_lt {subs : List Submission} {k t m : Nat}
    (h : MInstr.incActive t ∈ (compileProg subs k).take m) :
    t < k + (createsOf ((compileProg subs k).take m)).length := by
  induction subs generalizing k m with
  | nil => simp [compileProg] at h
  | cons s rest ih =>
      rw [compileProg] at h ⊢
      rw [List.take_append_eq_append_take, createsOf_append, List.length_append]
      rcases mem_take_append.mp h with h | h
      · obtain ⟨ht, ⟨deps, call, hs⟩, hm⟩ := incActive_in_block h
        subst hs
        have h1 : 1 ≤ (createsOf
            ((submissionInstrs (Submission.group deps call) k).take m)).length := by
          rcases m with _ | m2
          · omega
          · simp only [submissionInstrs]
            rw [List.singleton_append, List.cons_append, List.take_succ_cons]
            unfold createsOf
            rw [List.filterMap_cons]
            simp
        omega
      · have h2 := ih h
        have hmB : (submissionInstrs s k).length ≤ m := by
          by_contra hc
          push_neg at hc
          rw [Nat.sub_eq_zero_of_le (Nat.le_of_lt hc)] at h
          simp at h
        rw [List.take_of_length_le hmB, block_len]
        omega

theorem compile_setSubmit_inc {subs : List Submission} {k t m : Nat} {r : TaskRec}
    (hss : MInstr.setSubmit t ∈ (compileProg subs k).take m)
    (hr : (subs.filterMap subsRec)[t - k]? = some r)
    (hk : k ≤ t)
    (hg : r.inGroup = true) :
    MInstr.incActive t ∈ (compileProg subs k).take m := by
  induction subs generalizing k m with
  | nil => simp [compileProg] at hss
  | cons s rest ih =>
      rw [compileProg] at hss ⊢
      rw [mem_take_append] at hss
      rw [mem_take_append]
      cases s with
      | free deps call =>
          have hco : ((Submission.free deps call :: rest).filterMap subsRec) =
              (⟨call, false⟩ : TaskRec) :: rest.filterMap subsRec := by
            simp [List.filterMap_cons, subsRec]
          rcases hss with h | h
          · exfalso
            have ht := (setSubmit_in_block h).1
            rw [hco, ht, Nat.sub_self, List.getElem?_cons_zero, Option.some.injEq] at hr
            rw [← hr] at hg
            exact Bool.noConfusion hg
          · refine Or.inr ?_
            have hge : k + 1 ≤ t := by
              have hmem := List.take_subset _ _ h
              have := compile_setSubmit_ge hmem
              simp [numTasks] at this
              omega
            have hr2 : (rest.filterMap subsRec)[t - (k + numTasks
                (Submission.free deps call))]? = some r := by
              rw [hco] at hr
              have harith : t - k = (t - (k + 1)) + 1 := by omega
              rw [harith, List.getElem?_cons_succ] at hr
              simpa [numTasks] using hr
            exact ih h hr2 (by simpa [numTasks] using hge)
      | group deps call =>
          have hco : ((Submission.group deps call :: rest).filterMap subsRec) =
              (⟨call, true⟩ : TaskRec) :: rest.filterMap subsRec := by
            simp [List.filterMap_cons, subsRec]
          rcases hss with h | h
          · refine Or.inl ?_
            have ht := (setSubmit_in_block h).1
            rw [ht]
            exact setSubmit_in_group_take h
          · refine Or.inr ?_
            have hge : k + 1 ≤ t := by
              have hmem := List.take_subset _ _ h
              have := compile_setSubmit_ge hmem
              simp [numTasks] at this
              omega
            have hr2 : (rest.filterMap subsRec)[t - (k + numTasks
                (Submission.group deps call))]? = some r := by
              rw [hco] at hr
              have harith : t - k = (t - (k + 1)) + 1 := by omega
              rw [harith, List.getElem?_cons_succ] at hr
              simpa [numTasks] using hr
            exact ih h hr2 (by simpa [numTasks] using hge)
      | sjoin j =>
          rcases hss with h | h
          · exact absurd (List.take_subset _ _ h) (by simp [submissionInstrs])
          · refine Or.inr ?_
            have hco : ((Submission.sjoin j :: rest).filterMap subsRec) =
                rest.filterMap subsRec := by
              simp [List.filterMap_cons, subsRec]
            rw [hco] at hr
            exact ih h (by simpa [numTasks] using hr) (by simpa [numTasks] using hk)
      | sjoinNested j =>
          rcases hss with h | h
          · exact absurd (List.take_subset _ _ h) (by simp [submissionInstrs])
          · refine Or.inr ?_
            have hco : ((Submission.sjoinNested j :: rest).filterMap subsRec) =
                rest.filterMap subsRec := by
              simp [List.filterMap_cons, subsRec]
            rw [hco] at hr
            exact ih h (by simpa [numTasks] using hr) (by simpa [numTasks] using hk)
      | sgroupJoin =>
          rcases hss with h | h
          · exact absurd (List.take_subset _ _ h) (by simp [submissionInstrs])
          · refine Or.inr ?_
            have hco : ((Submission.sgroupJoin :: rest).filterMap subsRec) =
                rest.filterMap subsRec := by
              simp [List.filterMap_cons, subsRec]
            rw [hco] at hr
            exact ih h (by simpa [numTasks] using hr) (by simpa [numTasks] using hk)

end TaskModel

namespace TaskModel

theorem isPre_getElem? {α : Type} {l1 l2 : List α} {i : Nat} {x : α}
    (h : List.IsPrefix l1 l2) (hg : l1[i]? = some x) : l2[i]? = some x := by
  obtain ⟨rest, hrest⟩ := h
  rw [← hrest]
  exact getElem?_append_l hg

/-- `task_group::submit` runs `++active` (under the group mutex) before
`set_submit_task`/`finish_preparation`; hence in a reachable configuration of
a compiled program, a group task whose dispatch closure is installed (or that
was already enqueued) has its increment in the trace. -/
theorem group_inc_mem {subs : List Submission} {cfg : Config} {t : Nat}
    {h : Handle} {r : TaskRec}
    (hprog : cfg.prog = compileProg subs 0) (hInv : Inv cfg)
    (hg : cfg.handles[t]? = some h) (htr : cfg.tasks[t]? = some r)
    (hgrp : r.inGroup = true)
    (hcond : h.submitTask = true ∨ Ev.enq t ∈ cfg.trace) :
    Ev.inc t ∈ cfg.trace := by
  have hss : Ev.submitSet t ∈ cfg.trace := by
    rcases hcond with hc | hc
    · exact hInv.ssTr t h hg hc
    · exact (hInv.ordEnqSS t).mem hc
  have hssp : MInstr.setSubmit t ∈ cfg.prog.take cfg.pc := (hInv.ssLink t).mp hss
  have hr2 : (subs.filterMap subsRec)[t - 0]? = some r := by
    have h1 : (createsOf (cfg.prog.take cfg.pc))[t]? = some r := by
      rw [← hInv.tasksLink]
      exact htr
    have h2 := isPre_getElem? createsOf_take_pre h1
    rw [hprog, createsOf_compile] at h2
    simpa using h2
  rw [hprog] at hssp
  have hinc : MInstr.incActive t ∈ (compileProg subs 0).take cfg.pc :=
    compile_setSubmit_inc hssp hr2 (Nat.zero_le t) hgrp
  have hcnt := hInv.incLink t
  rw [hprog] at hcnt
  have hpos : 0 < ((compileProg subs 0).take cfg.pc).count (MInstr.incActive t) :=
    List.count_pos_iff.mpr hinc
  exact List.count_pos_iff.mp (by omega)

theorem gjoinOrd_append {tr evs2 : List Ev}
    (h : ∀ pos : Nat, tr[pos]? = some Ev.gjoin →
      ∀ u : Nat, Ev.inc u ∈ tr.take pos → Ev.dec u ∈ tr.take pos)
    (hng : Ev.gjoin ∉ evs2) :
    ∀ pos : Nat, (tr ++ evs2)[pos]? = some Ev.gjoin →
      ∀ u : Nat, Ev.inc u ∈ (tr ++ evs2).take pos →
        Ev.dec u ∈ (tr ++ evs2).take pos := by
  intro pos hpos u hu
  rcases getElem?_append_cases hpos with hl | ⟨hge, hr⟩
  · have hlt : pos < tr.length := getElem?_lt hl
    have htake : (tr ++ evs2).take pos = tr.take pos := by
      rw [List.take_append_eq_append_take, Nat.sub_eq_zero_of_le (Nat.le_of_lt hlt)]
      simp
    rw [htake] at hu ⊢
    exact h pos hl u hu
  · exact absurd (getElem?_mem hr) hng

theorem ginv_of_inert {cfg cfg2 : Config} (hG : GInv cfg)
    (ha : cfg2.active = cfg.active)
    (hl : cfg2.handles.length = cfg.handles.length)
    (evs2 : List Ev)
    (htr : cfg2.trace = cfg.trace ++ evs2)
    (hni : ∀ u : Nat, Ev.inc u ∉ evs2)
    (hnd : ∀ u : Nat, Ev.dec u ∉ evs2)
    (hng : Ev.gjoin ∉ evs2) : GInv cfg2 := by
  have hci : ∀ u : Nat, cfg2.trace.count (Ev.inc u) = cfg.trace.count (Ev.inc u) := by
    intro u
    rw [htr, List.count_append, List.count_eq_zero.mpr (hni u)]
    omega
  have hcd : ∀ u : Nat, cfg2.trace.count (Ev.dec u) = cfg.trace.count (Ev.dec u) := by
    intro u
    rw [htr, List.count_append, List.count_eq_zero.mpr (hnd u)]
    omega
  refine
    { activeSum := by
        rw [ha, hl, hG.activeSum]
        apply Finset.sum_congr rfl
        intro u _
        rw [hci u, hcd u]
      decLeInc := by
        intro u
        rw [hci u, hcd u]
        exact hG.decLeInc u
      incLt := by
        intro u hu
        rw [htr, List.mem_append] at hu
        rcases hu with hu | hu
        · rw [hl]
          exact hG.incLt u hu
        · exact absurd hu (hni u)
      ordDecInc := by
        intro u
        rw [htr]
        apply OrdIn.append (hG.ordDecInc u)
        intro hb
        exact absurd hb (hnd u)
      gjoinOrd := by
        rw [htr]
        exact gjoinOrd_append hG.gjoinOrd hng }

end TaskModel

namespace TaskModel

theorem ginv_create {cfg : Config} {call : Callable} {g : Bool}
    (hG : GInv cfg)
    (hzi : cfg.trace.count (Ev.inc cfg.handles.length) = 0)
    (hzd : cfg.trace.count (Ev.dec cfg.handles.length) = 0)
    (hlen : cfg.tasks.length = cfg.handles.length) :
    GInv { cfg with
      pc := cfg.pc + 1,
      tasks := cfg.tasks ++ [⟨call, g⟩],
      handles := cfg.handles ++ [Handle.init],
      cells := cfg.cells ++ [none],
      trace := cfg.trace ++ [Ev.created cfg.tasks.length] } := by
  have hci : ∀ u : Nat, (cfg.trace ++ [Ev.created cfg.tasks.length]).count (Ev.inc u) =
      cfg.trace.count (Ev.inc u) := by
    intro u
    rw [List.count_append, List.count_singleton']
    simp
  have hcd : ∀ u : Nat, (cfg.trace ++ [Ev.created cfg.tasks.length]).count (Ev.dec u) =
      cfg.trace.count (Ev.dec u) := by
    intro u
    rw [List.count_append, List.count_singleton']
    simp
  refine
    { activeSum := by
        dsimp only
        rw [List.length_append, List.length_singleton, Finset.sum_range_succ, hG.activeSum]
        rw [hci cfg.handles.length, hcd cfg.handles.length, hzi, hzd]
        have : ∀ u ∈ Finset.range cfg.handles.length,
            (cfg.trace ++ [Ev.created cfg.tasks.length]).count (Ev.inc u) -
              (cfg.trace ++ [Ev.created cfg.tasks.length]).count (Ev.dec u) =
            cfg.trace.count (Ev.inc u) - cfg.trace.count (Ev.dec u) := by
          intro u _
          rw [hci u, hcd u]
        rw [Finset.sum_congr rfl this]
        simp
      decLeInc := by
        intro u
        dsimp only
        rw [hci u, hcd u]
        exact hG.decLeInc u
      incLt := by
        intro u hu
        dsimp only at hu ⊢
        rw [List.mem_append, List.mem_singleton] at hu
        rw [List.length_append, List.length_singleton]
        rcases hu with hu | hu
        · exact Nat.lt_succ_of_lt (hG.incLt u hu)
        · exact Ev.noConfusion hu
      ordDecInc := by
        intro u
        dsimp only
        apply OrdIn.append (hG.ordDecInc u)
        intro hb
        rw [List.mem_singleton] at hb
        exact Ev.noConfusion hb
      gjoinOrd := by
        dsimp only
        apply gjoinOrd_append hG.gjoinOrd
        rw [List.mem_singleton]
        intro hb
        exact Ev.noConfusion hb }

theorem ginv_inc {cfg : Config} {t : Nat} (hG : GInv cfg)
    (htn : t < cfg.handles.length) :
    GInv { cfg with
      pc := cfg.pc + 1,
      active := cfg.active + 1,
      trace := cfg.trace ++ [Ev.inc t] } := by
  have hci : ∀ u : Nat, (cfg.trace ++ [Ev.inc t]).count (Ev.inc u) =
      cfg.trace.count (Ev.inc u) + (if u = t then 1 else 0) := by
    intro u
    rw [List.count_append, List.count_singleton']
    by_cases hu : u = t
    · subst hu
      simp
    · have : ¬ (Ev.inc t = Ev.inc u) := by
        intro hc
        injection hc with hc2
        exact hu hc2.symm
      rw [if_neg this, if_neg hu]
  have hcd : ∀ u : Nat, (cfg.trace ++ [Ev.inc t]).count (Ev.dec u) =
      cfg.trace.count (Ev.dec u) := by
    intro u
    rw [List.count_append, List.count_singleton']
    simp
  refine
    { activeSum := by
        dsimp only
        rw [hG.activeSum]
        have hpt : ∀ u ∈ Finset.range cfg.handles.length,
            (cfg.trace ++ [Ev.inc t]).count (Ev.inc u) -
              (cfg.trace ++ [Ev.inc t]).count (Ev.dec u) =
            (cfg.trace.count (Ev.inc u) - cfg.trace.count (Ev.dec u)) +
              (if u = t then 1 else 0) := by
          intro u _
          rw [hci u, hcd u]
          have := hG.decLeInc u
          by_cases hu : u = t
          · rw [if_pos hu]
            omega
          · rw [if_neg hu]
            omega
        rw [Finset.sum_congr rfl hpt, Finset.sum_add_distrib,
          Finset.sum_ite_eq' (Finset.range cfg.handles.length) t (fun _ => 1),
          if_pos (Finset.mem_range.mpr htn)]
      decLeInc := by
        intro u
        dsimp only
        rw [hci u, hcd u]
        have := hG.decLeInc u
        omega
      incLt := by
        intro u hu
        dsimp only at hu ⊢
        rw [List.mem_append, List.mem_singleton] at hu
        rcases hu with hu | hu
        · exact hG.incLt u hu
        · injection hu with hu2
          rw [hu2]
          exact htn
      ordDecInc := by
        intro u
        dsimp only
        apply OrdIn.append (hG.ordDecInc u)
        intro hb
        rw [List.mem_singleton] at hb
        exact Ev.noConfusion hb
      gjoinOrd := by
        dsimp only
        apply gjoinOrd_append hG.gjoinOrd
        rw [List.mem_singleton]
        intro hb
        exact Ev.noConfusion hb }

theorem ginv_post {cfg : Config} {t : Nat} (hG : GInv cfg)
    (htn : t < cfg.handles.length)
    (hinc : Ev.inc t ∈ cfg.trace)
    (hnd : Ev.dec t ∉ cfg.trace) :
    GInv { cfg with
      active := cfg.active - 1,
      running := dropRun cfg.running t,
      trace := cfg.trace ++ [Ev.dec t] } := by
  have hzd : cfg.trace.count (Ev.dec t) = 0 := List.count_eq_zero.mpr hnd
  have hpi : 0 < cfg.trace.count (Ev.inc t) := List.count_pos_iff.mpr hinc
  have hci : ∀ u : Nat, (cfg.trace ++ [Ev.dec t]).count (Ev.inc u) =
      cfg.trace.count (Ev.inc u) := by
    intro u
    rw [List.count_append, List.count_singleton']
    simp
  have hcd : ∀ u : Nat, (cfg.trace ++ [Ev.dec t]).count (Ev.dec u) =
      cfg.trace.count (Ev.dec u) + (if u = t then 1 else 0) := by
    intro u
    rw [List.count_append, List.count_singleton']
    by_cases hu : u = t
    · subst hu
      simp
    · have : ¬ (Ev.dec t = Ev.dec u) := by
        intro hc
        injection hc with hc2
        exact hu hc2.symm
      rw [if_neg this, if_neg hu]
  refine
    { activeSum := by
        dsimp only
        rw [hG.activeSum]
        have hpt : ∀ u ∈ Finset.range cfg.handles.length,
            (cfg.trace.count (Ev.inc u) - cfg.trace.count (Ev.dec u)) =
            ((cfg.trace ++ [Ev.dec t]).count (Ev.inc u) -
              (cfg.trace ++ [Ev.dec t]).count (Ev.dec u)) +
              (if u = t then 1 else 0) := by
          intro u _
          rw [hci u, hcd u]
          by_cases hu : u = t
          · rw [if_pos hu]
            subst hu
            omega
          · rw [if_neg hu]
            omega
        rw [Finset.sum_congr rfl hpt, Finset.sum_add_distrib,
          Finset.sum_ite_eq' (Finset.range cfg.handles.length) t (fun _ => 1),
          if_pos (Finset.mem_range.mpr htn)]
        have hterm : 0 < cfg.trace.count (Ev.inc t) - cfg.trace.count (Ev.dec t) := by
          omega
        have hsplit := Finset.sum_erase_add (Finset.range cfg.handles.length)
          (fun u => cfg.trace.count (Ev.inc u) - cfg.trace.count (Ev.dec u))
          (Finset.mem_range.mpr htn)
        simp only at hsplit
        omega
      decLeInc := by
        intro u
        dsimp only
        rw [hci u, hcd u]
        have := hG.decLeInc u
        by_cases hu : u = t
        · subst hu
          rw [if_pos rfl]
          omega
        · rw [if_neg hu]
          omega
      incLt := by
        intro u hu
        dsimp only at hu ⊢
        rw [List.mem_append, List.mem_singleton] at hu
        rcases hu with hu | hu
        · exact hG.incLt u hu
        · exact Ev.noConfusion hu
      ordDecInc := by
        intro u
        dsimp only
        apply OrdIn.append_present (hG.ordDecInc u)
        intro hb
        injection hb with hb2
        rw [hb2]
        exact hinc
      gjoinOrd := by
        dsimp only
        apply gjoinOrd_append hG.gjoinOrd
        rw [List.mem_singleton]
        intro hb
        exact Ev.noConfusion hb }

theorem ginv_gjoin {cfg : Config} (hG : GInv cfg) (ha : cfg.active = 0) :
    GInv { cfg with pc := cfg.pc + 1, trace := cfg.trace ++ [Ev.gjoin] } := by
  have hall : ∀ u : Nat, Ev.inc u ∈ cfg.trace → Ev.dec u ∈ cfg.trace := by
    intro u hu
    have hun : u < cfg.handles.length := hG.incLt u hu
    have hsum : (∑ v in Finset.range cfg.handles.length,
        (cfg.trace.count (Ev.inc v) - cfg.trace.count (Ev.dec v))) = 0 := by
      rw [← hG.activeSum]
      exact ha
    have hterm := Finset.sum_eq_zero_iff.mp hsum u (Finset.mem_range.mpr hun)
    have hle := hG.decLeInc u
    have hpi : 0 < cfg.trace.count (Ev.inc u) := List.count_pos_iff.mpr hu
    have hpd : 0 < cfg.trace.count (Ev.dec u) := by omega
    exact List.count_pos_iff.mp hpd
  have hci : ∀ u : Nat, (cfg.trace ++ [Ev.gjoin]).count (Ev.inc u) =
      cfg.trace.count (Ev.inc u) := by
    intro u
    rw [List.count_append, List.count_singleton']
    simp
  have hcd : ∀ u : Nat, (cfg.trace ++ [Ev.gjoin]).count (Ev.dec u) =
      cfg.trace.count (Ev.dec u) := by
    intro u
    rw [List.count_append, List.count_singleton']
    simp
  refine
    { activeSum := by
        dsimp only
        rw [hG.activeSum]
        apply Finset.sum_congr rfl
        intro u _
        rw [hci u, hcd u]
      decLeInc := by
        intro u
        dsimp only
        rw [hci u, hcd u]
        exact hG.decLeInc u
      incLt := by
        intro u hu
        dsimp only at hu ⊢
        rw [List.mem_append, List.mem_singleton] at hu
        rcases hu with hu | hu
        · exact hG.incLt u hu
        · exact Ev.noConfusion hu
      ordDecInc := by
        intro u
        dsimp only
        apply OrdIn.append (hG.ordDecInc u)
        intro hb
        rw [List.mem_singleton] at hb
        exact Ev.noConfusion hb
      gjoinOrd := by
        dsimp only
        intro pos hpos u hu
        rcases getElem?_append_cases hpos with hl | ⟨hge, hr⟩
        · have hlt : pos < cfg.trace.length := getElem?_lt hl
          have htake : (cfg.trace ++ [Ev.gjoin]).take pos = cfg.trace.take pos := by
            rw [List.take_append_eq_append_take,
              Nat.sub_eq_zero_of_le (Nat.le_of_lt hlt)]
            simp
          rw [htake] at hu ⊢
          exact hG.gjoinOrd pos hl u hu
        · have hp0 : pos - cfg.trace.length = 0 := by
            have := getElem?_lt hr
            simp at this
            omega
          have hpe : pos = cfg.trace.length := by omega
          have htake : (cfg.trace ++ [Ev.gjoin]).take pos = cfg.trace := by
            rw [hpe, List.take_append_eq_append_take, List.take_length, Nat.sub_self]
            simp
          rw [htake] at hu ⊢
          exact hall u hu }

end TaskModel

namespace TaskModel

theorem step_prog {cfg cfg2 : Config} {a : Act} (hstep : stepFn cfg a = some cfg2) :
    cfg2.prog = cfg.prog := by
  cases a <;> simp only [stepFn, stepMain] at hstep <;>
    (repeat' split at hstep) <;>
    (first
      | exact Option.noConfusion hstep
      | (cases hstep; rfl))

theorem step_pc_mono {cfg cfg2 : Config} {a : Act} (hstep : stepFn cfg a = some cfg2) :
    cfg.pc ≤ cfg2.pc := by
  cases a <;> simp only [stepFn, stepMain] at hstep <;>
    (repeat' split at hstep) <;>
    (first
      | exact Option.noConfusion hstep
      | (cases hstep; simp))

end TaskModel

namespace TaskModel

theorem notifyAll_length {p : Nat} {ds : List Nat} {hs hs2 : List Handle}
    {enqs : List Nat} {evs : List Ev}
    (h : notifyAll p hs ds = some (hs2, enqs, evs)) : hs2.length = hs.length := by
  induction ds generalizing hs hs2 enqs evs with
  | nil =>
      unfold notifyAll at h
      cases h
      rfl
  | cons d ds ih =>
      unfold notifyAll at h
      rcases h1 : notifyOne hs d with _ | pr1
      · rw [h1] at h
        exact Option.noConfusion h
      rcases pr1 with ⟨hs1, enq1⟩
      rw [h1] at h
      dsimp only at h
      rcases h2 : notifyAll p hs1 ds with _ | pr2
      · rw [h2] at h
        exact Option.noConfusion h
      rcases pr2 with ⟨hs3, enqs3, evs3⟩
      rw [h2] at h
      dsimp only at h
      rw [Option.some.injEq, Prod.mk.injEq] at h
      obtain ⟨he1, _⟩ := h
      have hlen1 : hs1.length = hs.length := by
        unfold notifyOne at h1
        rcases hg : hs[d]? with _ | hd
        · rw [hg] at h1
          exact Option.noConfusion h1
        rw [hg] at h1
        dsimp only at h1
        rcases hrd : hd.removeDependency with _ | pr3
        · rw [hrd] at h1
          exact Option.noConfusion h1
        rcases pr3 with ⟨hd2, enqx⟩
        rw [hrd] at h1
        dsimp only at h1
        rw [Option.some.injEq, Prod.mk.injEq] at h1
        rw [← h1.1, List.length_set]
      rw [← he1, ih h2]
      exact hlen1

theorem notifyAll_evs {p : Nat} {ds : List Nat} {hs hs2 : List Handle}
    {enqs : List Nat} {evs : List Ev}
    (h : notifyAll p hs ds = some (hs2, enqs, evs)) :
    ∀ ev ∈ evs, (∃ u : Nat, ev = Ev.notified p u) ∨ (∃ u : Nat, ev = Ev.enq u) := by
  induction ds generalizing hs hs2 enqs evs with
  | nil =>
      unfold notifyAll at h
      cases h
      intro ev hev
      cases hev
  | cons d ds ih =>
      unfold notifyAll at h
      rcases h1 : notifyOne hs d with _ | pr1
      · rw [h1] at h
        exact Option.noConfusion h
      rcases pr1 with ⟨hs1, enq1⟩
      rw [h1] at h
      dsimp only at h
      rcases h2 : notifyAll p hs1 ds with _ | pr2
      · rw [h2] at h
        exact Option.noConfusion h
      rcases pr2 with ⟨hs3, enqs3, evs3⟩
      rw [h2] at h
      dsimp only at h
      rw [Option.some.injEq, Prod.mk.injEq] at h
      obtain ⟨_, h⟩ := h
      rw [Prod.mk.injEq] at h
      obtain ⟨_, hevs⟩ := h
      intro ev hev
      rw [← hevs] at hev
      rw [List.mem_append, List.mem_append] at hev
      rcases hev with (hev | hev) | hev
      · rw [List.mem_singleton] at hev
        exact Or.inl ⟨d, hev⟩
      · rcases henq : enq1 with _ | _
        · rw [henq] at hev
          simp at hev
        · rw [henq] at hev
          rw [show (if true = true then [Ev.enq d] else []) = [Ev.enq d] from rfl,
            List.mem_singleton] at hev
          exact Or.inr ⟨d, hev⟩
      · exact ih h2 ev hev

end TaskModel

namespace TaskModel

theorem ginv_step {subs : List Submission} {cfg cfg2 : Config} {a : Act}
    (hprog : cfg.prog = compileProg subs 0)
    (hInv : Inv cfg) (hG : GInv cfg)
    (hstep : stepFn cfg a = some cfg2) : GInv cfg2 := by
  cases a with
  | main =>
      simp only [stepFn] at hstep
      unfold stepMain at hstep
      rcases hprogpc : cfg.prog[cfg.pc]? with _ | instr
      · rw [hprogpc] at hstep
        exact Option.noConfusion hstep
      rw [hprogpc] at hstep
      dsimp only at hstep
      cases instr with
      | create call g =>
          dsimp only at hstep
          cases hstep
          have hzi : cfg.trace.count (Ev.inc cfg.handles.length) = 0 := by
            by_contra hc
            have hm : Ev.inc cfg.handles.length ∈ cfg.trace :=
              List.count_pos_iff.mp (Nat.pos_of_ne_zero hc)
            exact absurd (hG.incLt _ hm) (Nat.lt_irrefl _)
          have hzd : cfg.trace.count (Ev.dec cfg.handles.length) = 0 := by
            by_contra hc
            have hm : Ev.dec cfg.handles.length ∈ cfg.trace :=
              List.count_pos_iff.mp (Nat.pos_of_ne_zero hc)
            exact absurd (hInv.enqLt _ (hInv.enq_of_dec hm)) (Nat.lt_irrefl _)
          exact ginv_create hG hzi hzd hInv.lenTasks
      | addDep t p =>
          dsimp only at hstep
          rcases hgt : cfg.handles[t]? with _ | hd
          · rw [hgt] at hstep
            dsimp only at hstep
            exact Option.noConfusion hstep
          rcases hgp : cfg.handles[p]? with _ | hp
          · rw [hgt, hgp] at hstep
            dsimp only at hstep
            exact Option.noConfusion hstep
          rw [hgt, hgp] at hstep
          dsimp only at hstep
          by_cases htp : t = p
          · rw [if_pos htp] at hstep
            exact Option.noConfusion hstep
          rw [if_neg htp] at hstep
          by_cases hdp : hd.state = HState.preparing
          · rw [if_pos hdp] at hstep
            by_cases hpf : hp.state = HState.finished
            · have hadd : hp.addDependent t = (hp, false) := by
                unfold Handle.addDependent
                rw [if_pos hpf]
              rw [hadd] at hstep
              dsimp only at hstep
              cases hstep
              exact ginv_of_inert hG rfl (by simp) [Ev.edgeRejected p t] rfl
                (by simp) (by simp) (by simp)
            · have hadd : hp.addDependent t =
                  ({ hp with dependents := hp.dependents ++ [t] }, true) := by
                unfold Handle.addDependent
                rw [if_neg hpf]
              rw [hadd] at hstep
              dsimp only at hstep
              cases hstep
              exact ginv_of_inert hG rfl (by simp) [Ev.edgeAdded p t] rfl
                (by simp) (by simp) (by simp)
          · rw [if_neg hdp] at hstep
            exact Option.noConfusion hstep
      | setSubmit t =>
          dsimp only at hstep
          rcases hg : cfg.handles[t]? with _ | h
          · rw [hg] at hstep
            dsimp only at hstep
            exact Option.noConfusion hstep
          rw [hg] at hstep
          dsimp only at hstep
          rcases hss : h.setSubmitTask with _ | h2
          · rw [hss] at hstep
            exact Option.noConfusion hstep
          rw [hss] at hstep
          dsimp only at hstep
          cases hstep
          exact ginv_of_inert hG rfl (by simp) [Ev.submitSet t] rfl
            (by simp) (by simp) (by simp)
      | finishPrep t =>
          dsimp only at hstep
          rcases hg : cfg.handles[t]? with _ | h
          · rw [hg] at hstep
            dsimp only at hstep
            exact Option.noConfusion hstep
          rw [hg] at hstep
          dsimp only at hstep
          by_cases hpre : h.state = HState.preparing
          · by_cases hz : h.dependenciesLeft = 0
            · by_cases hst : h.submitTask = true
              · have hfp : h.finishPreparation = some (h.enqueue, true) := by
                  unfold Handle.finishPreparation
                  rw [if_pos hpre, if_pos hz, if_pos hst]
                rw [hfp] at hstep
                dsimp only at hstep
                cases hstep
                exact ginv_of_inert hG rfl (by simp) [Ev.enq t]
                  (by rw [show (if true = true then [Ev.enq t] else ([] : List Ev)) =
                    [Ev.enq t] from rfl])
                  (by simp) (by simp) (by simp)
              · have hfp : h.finishPreparation = none := by
                  unfold Handle.finishPreparation
                  rw [if_pos hpre, if_pos hz, if_neg hst]
                rw [hfp] at hstep
                exact Option.noConfusion hstep
            · have hfp : h.finishPreparation =
                  some ({ h with state := HState.waiting }, false) := by
                unfold Handle.finishPreparation
                rw [if_pos hpre, if_neg hz]
              rw [hfp] at hstep
              dsimp only at hstep
              cases hstep
              exact ginv_of_inert hG rfl (by simp) []
                (by rw [show (if false = true then [Ev.enq t] else ([] : List Ev)) =
                  [] from rfl]) (by simp) (by simp) (by simp)
          · have hfp : h.finishPreparation = none := by
              unfold Handle.finishPreparation
              rw [if_neg hpre]
            rw [hfp] at hstep
            exact Option.noConfusion hstep
      | incActive t =>
          dsimp only at hstep
          cases hstep
          have hmem : MInstr.incActive t ∈ cfg.prog.take (cfg.pc + 1) := by
            rw [take_succ_of_getElem hprogpc]
            exact List.mem_append.mpr (Or.inr (List.mem_singleton.mpr rfl))
          have hlt := compile_incActive_lt (show MInstr.incActive t ∈
            (compileProg subs 0).take (cfg.pc + 1) from hprog ▸ hmem)
          have he : createsOf (cfg.prog.take (cfg.pc + 1)) =
              createsOf (cfg.prog.take cfg.pc) := by
            rw [take_succ_of_getElem hprogpc, createsOf_append]
            simp [createsOf]
          rw [← hprog, he, ← hInv.tasksLink] at hlt
          have htn : t < cfg.handles.length := by
            have := hInv.lenTasks
            omega
          exact ginv_inc hG htn
      | joinTask t =>
          dsimp only at hstep
          rcases hc : cfg.cells.getD t none with _ | v
          · rw [hc] at hstep
            exact Option.noConfusion hstep
          rw [hc] at hstep
          dsimp only at hstep
          cases hstep
          exact ginv_of_inert hG rfl rfl [Ev.joined t] rfl
            (by simp) (by simp) (by simp)
      | joinNested t =>
          dsimp only at hstep
          rcases hc1 : cfg.cells.getD t none with _ | inner
          · rw [hc1] at hstep
            exact Option.noConfusion hstep
          rw [hc1] at hstep
          dsimp only at hstep
          rcases hc2 : cfg.cells.getD inner none with _ | w
          · rw [hc2] at hstep
            exact Option.noConfusion hstep
          rw [hc2] at hstep
          dsimp only at hstep
          cases hstep
          exact ginv_of_inert hG rfl rfl [Ev.joinedNested t] rfl
            (by simp) (by simp) (by simp)
      | groupJoin =>
          dsimp only at hstep
          by_cases ha : cfg.active = 0
          · rw [if_pos ha] at hstep
            cases hstep
            exact ginv_gjoin hG ha
          · rw [if_neg ha] at hstep
            exact Option.noConfusion hstep
  | start t =>
      simp only [stepFn] at hstep
      by_cases hp : t ∈ cfg.pool
      · rw [if_pos hp] at hstep
        cases hstep
        exact ginv_of_inert hG rfl rfl [Ev.start t] rfl
          (by simp) (by simp) (by simp)
      · rw [if_neg hp] at hstep
        exact Option.noConfusion hstep
  | ret t =>
      simp only [stepFn] at hstep
      rcases hph : phaseOf cfg.running t with _ | ph
      · rw [hph] at hstep
        exact Option.noConfusion hstep
      rw [hph] at hstep
      cases ph
      case returned v => exact Option.noConfusion hstep
      case published => exact Option.noConfusion hstep
      case postPending => exact Option.noConfusion hstep
      case running =>
        dsimp only at hstep
        rcases htr : cfg.tasks[t]? with _ | trec
        · rw [htr] at hstep
          exact Option.noConfusion hstep
        rw [htr] at hstep
        dsimp only at hstep
        rcases hev : evalCallable trec.call cfg.cells with _ | v
        · rw [hev] at hstep
          exact Option.noConfusion hstep
        rw [hev] at hstep
        dsimp only at hstep
        cases hstep
        exact ginv_of_inert hG rfl rfl [Ev.ret t] rfl
          (by simp) (by simp) (by simp)
  | publish t =>
      simp only [stepFn] at hstep
      rcases hph : phaseOf cfg.running t with _ | ph
      · rw [hph] at hstep
        exact Option.noConfusion hstep
      rw [hph] at hstep
      cases ph
      case running => exact Option.noConfusion hstep
      case published => exact Option.noConfusion hstep
      case postPending => exact Option.noConfusion hstep
      case returned v =>
        dsimp only at hstep
        cases hstep
        exact ginv_of_inert hG rfl rfl [Ev.publish t] rfl
          (by simp) (by simp) (by simp)
  | finish t =>
      simp only [stepFn] at hstep
      rcases hph : phaseOf cfg.running t with _ | ph
      · rw [hph] at hstep
        exact Option.noConfusion hstep
      rw [hph] at hstep
      cases ph
      case running => exact Option.noConfusion hstep
      case returned v => exact Option.noConfusion hstep
      case postPending => exact Option.noConfusion hstep
      case published =>
        dsimp only at hstep
        rcases hg : cfg.handles[t]? with _ | h
        · rw [hg] at hstep
          exact Option.noConfusion hstep
        rw [hg] at hstep
        dsimp only at hstep
        by_cases hsub : h.state = HState.submitted
        · rw [if_pos hsub] at hstep
          rcases hna : notifyAll t cfg.handles h.dependents with _ | trip
          · rw [hna] at hstep
            exact Option.noConfusion hstep
          rcases trip with ⟨hs1, enqs, evs⟩
          rw [hna] at hstep
          dsimp only at hstep
          rcases hselfg : hs1[t]? with _ | hself
          · rw [hselfg] at hstep
            exact Option.noConfusion hstep
          rw [hselfg] at hstep
          dsimp only at hstep
          have hni2 : ∀ u : Nat, Ev.inc u ∉ evs ++ [Ev.finished t] := by
            intro u hc
            rcases List.mem_append.mp hc with hc | hc
            · rcases notifyAll_evs hna _ hc with ⟨x, he⟩ | ⟨x, he⟩ <;>
                exact Ev.noConfusion he
            · rw [List.mem_singleton] at hc
              exact Ev.noConfusion hc
          have hnd2 : ∀ u : Nat, Ev.dec u ∉ evs ++ [Ev.finished t] := by
            intro u hc
            rcases List.mem_append.mp hc with hc | hc
            · rcases notifyAll_evs hna _ hc with ⟨x, he⟩ | ⟨x, he⟩ <;>
                exact Ev.noConfusion he
            · rw [List.mem_singleton] at hc
              exact Ev.noConfusion hc
          have hng2 : Ev.gjoin ∉ evs ++ [Ev.finished t] := by
            intro hc
            rcases List.mem_append.mp hc with hc | hc
            · rcases notifyAll_evs hna _ hc with ⟨x, he⟩ | ⟨x, he⟩ <;>
                exact Ev.noConfusion he
            · rw [List.mem_singleton] at hc
              exact Ev.noConfusion hc
          rcases htr : cfg.tasks[t]? with _ | trec
          · rw [htr] at hstep
            dsimp only at hstep
            cases hstep
            refine ginv_of_inert hG rfl ?_ (evs ++ [Ev.finished t])
              (by rw [List.append_assoc]) hni2 hnd2 hng2
            rw [List.length_set]
            exact notifyAll_length hna
          rw [htr] at hstep
          dsimp only at hstep
          by_cases hgrp : trec.inGroup = true
          · rw [if_pos hgrp] at hstep
            cases hstep
            refine ginv_of_inert hG rfl ?_ (evs ++ [Ev.finished t])
              (by rw [List.append_assoc]) hni2 hnd2 hng2
            rw [List.length_set]
            exact notifyAll_length hna
          · rw [if_neg hgrp] at hstep
            cases hstep
            refine ginv_of_inert hG rfl ?_ (evs ++ [Ev.finished t])
              (by rw [List.append_assoc]) hni2 hnd2 hng2
            rw [List.length_set]
            exact notifyAll_length hna
        · rw [if_neg hsub] at hstep
          exact Option.noConfusion hstep
  | post t =>
      simp only [stepFn] at hstep
      rcases hph : phaseOf cfg.running t with _ | ph
      · rw [hph] at hstep
        exact Option.noConfusion hstep
      rw [hph] at hstep
      cases ph
      case running => exact Option.noConfusion hstep
      case returned v => exact Option.noConfusion hstep
      case published => exact Option.noConfusion hstep
      case postPending =>
        dsimp only at hstep
        cases hstep
        obtain ⟨hfin, hdec, r, htr, hgrp⟩ := hInv.runTr4 t hph
        have htn : t < cfg.handles.length :=
          hInv.runLt (t, RunPhase.postPending) (phaseOf_isSome_mem hph)
        have hh : cfg.handles[t]? = some cfg.handles[t] := List.getElem?_eq_getElem htn
        have henq : Ev.enq t ∈ cfg.trace := hInv.enq_of_finished hfin
        have hinc := group_inc_mem hprog hInv hh htr hgrp (Or.inr henq)
        exact ginv_post hG htn hinc hdec

end TaskModel

namespace TaskModel

theorem ginv_init {prog : List MInstr} : GInv (initConfig prog) := by
  refine
    { activeSum := by simp [initConfig]
      decLeInc := by intro t; simp [initConfig]
      incLt := by intro t ht; simp [initConfig] at ht
      ordDecInc := by intro t pos hpos; simp [initConfig] at hpos
      gjoinOrd := by intro pos hpos; simp [initConfig] at hpos }

theorem ginv_exec {subs : List Submission} {acts : List Act} {cfg cfg2 : Config}
    (hprog : cfg.prog = compileProg subs 0)
    (hInv : Inv cfg) (hG : GInv cfg)
    (hex : exec cfg acts = some cfg2) : GInv cfg2 := by
  induction acts generalizing cfg with
  | nil =>
      unfold exec at hex
      cases hex
      exact hG
  | cons a acts ih =>
      unfold exec at hex
      rcases hs : stepFn cfg a with _ | cfg1
      · rw [hs] at hex
        exact Option.noConfusion hex
      rw [hs] at hex
      have hprog1 : cfg1.prog = compileProg subs 0 := by
        rw [step_prog hs]
        exact hprog
      exact ih hprog1 (inv_step hInv hs) (ginv_step hprog hInv hG hs) hex

/-- Every configuration reachable from a compiled driver program satisfies
the group-counter invariant. -/
theorem reach_ginv {subs : List Submission} {cfg : Config}
    (h : Reach (compileProg subs 0) cfg) : GInv cfg := by
  obtain ⟨acts, hex⟩ := h
  exact ginv_exec rfl inv_init ginv_init hex

end TaskModel

namespace TaskModel

theorem exec_prog {acts : List Act} {cfg cfg2 : Config}
    (hex : exec cfg acts = some cfg2) : cfg2.prog = cfg.prog := by
  induction acts generalizing cfg with
  | nil =>
      unfold exec at hex
      cases hex
      rfl
  | cons a acts ih =>
      unfold exec at hex
      rcases hs : stepFn cfg a with _ | cfg1
      · rw [hs] at hex
        exact Option.noConfusion hex
      rw [hs] at hex
      rw [ih hex, step_prog hs]

theorem reach_prog {prog : List MInstr} {cfg : Config} (h : Reach prog cfg) :
    cfg.prog = prog := by
  obtain ⟨acts, hex⟩ := h
  exact exec_prog hex

theorem rank_le_three (s : HState) : s.rank ≤ 3 := by
  cases s <;> simp [HState.rank]

theorem removeDependency_rank {h h2 : Handle} {e : Bool}
    (hrd : h.removeDependency = some (h2, e)) : h.state.rank ≤ h2.state.rank := by
  unfold Handle.removeDependency at hrd
  dsimp only at hrd
  by_cases h0 : h.dependenciesLeft - 1 = 0
  · rw [if_pos h0] at hrd
    by_cases hp : h.state = HState.preparing
    · rw [if_pos hp] at hrd
      rw [Option.some.injEq, Prod.mk.injEq] at hrd
      rw [← hrd.1, hp]
    · rw [if_neg hp] at hrd
      by_cases hw : h.state = HState.waiting
      · rw [if_pos hw] at hrd
        by_cases hs : h.submitTask = true
        · rw [if_pos hs] at hrd
          rw [Option.some.injEq, Prod.mk.injEq] at hrd
          rw [← hrd.1, hw]
          simp [Handle.enqueue, HState.rank]
        · rw [if_neg hs] at hrd
          exact Option.noConfusion hrd
      · rw [if_neg hw] at hrd
        exact Option.noConfusion hrd
  · rw [if_neg h0] at hrd
    rw [Option.some.injEq, Prod.mk.injEq] at hrd
    rw [← hrd.1]

theorem notifyOne_rank {hs : List Handle} {d : Nat} {hs1 : List Handle} {e : Bool}
    (hna : notifyOne hs d = some (hs1, e)) :
    ∀ (u : Nat) (hu hu2 : Handle), hs[u]? = some hu → hs1[u]? = some hu2 →
      hu.state.rank ≤ hu2.state.rank := by
  unfold notifyOne at hna
  rcases hg : hs[d]? with _ | hd
  · rw [hg] at hna
    exact Option.noConfusion hna
  rw [hg] at hna
  dsimp only at hna
  rcases hrd : hd.removeDependency with _ | pr
  · rw [hrd] at hna
    exact Option.noConfusion hna
  rcases pr with ⟨hd2, e2⟩
  rw [hrd] at hna
  dsimp only at hna
  rw [Option.some.injEq, Prod.mk.injEq] at hna
  obtain ⟨hh, _⟩ := hna
  intro u hu hu2 hgu hgu2
  rw [← hh] at hgu2
  by_cases hud : u = d
  · subst hud
    rw [hg, Option.some.injEq] at hgu
    rw [get_set_self hg, Option.some.injEq] at hgu2
    rw [← hgu, ← hgu2]
    exact removeDependency_rank hrd
  · rw [get_set_other (fun hc => hud hc.symm), hgu, Option.some.injEq] at hgu2
    rw [← hgu2]

theorem notifyAll_rank {p : Nat} {ds : List Nat} {hs hs2 : List Handle}
    {enqs : List Nat} {evs : List Ev}
    (hna : notifyAll p hs ds = some (hs2, enqs, evs)) :
    ∀ (u : Nat) (hu hu2 : Handle), hs[u]? = some hu → hs2[u]? = some hu2 →
      hu.state.rank ≤ hu2.state.rank := by
  induction ds generalizing hs hs2 enqs evs with
  | nil =>
      unfold notifyAll at hna
      cases hna
      intro u hu hu2 hgu hgu2
      rw [hgu, Option.some.injEq] at hgu2
      rw [hgu2]
  | cons d ds ih =>
      unfold notifyAll at hna
      rcases h1 : notifyOne hs d with _ | pr1
      · rw [h1] at hna
        exact Option.noConfusion hna
      rcases pr1 with ⟨hs1, enq1⟩
      rw [h1] at hna
      dsimp only at hna
      rcases h2 : notifyAll p hs1 ds with _ | pr2
      · rw [h2] at hna
        exact Option.noConfusion hna
      rcases pr2 with ⟨hs3, enqs3, evs3⟩
      rw [h2] at hna
      dsimp only at hna
      rw [Option.some.injEq, Prod.mk.injEq] at hna
      obtain ⟨hh, _⟩ := hna
      intro u hu hu2 hgu hgu2
      rw [← hh] at hgu2
      have hlen1 : hs1.length = hs.length := by
        unfold notifyOne at h1
        rcases hg : hs[d]? with _ | hd
        · rw [hg] at h1
          exact Option.noConfusion h1
        rw [hg] at h1
        dsimp only at h1
        rcases hrd : hd.removeDependency with _ | pr3
        · rw [hrd] at h1
          exact Option.noConfusion h1
        rcases pr3 with ⟨hd2, e2⟩
        rw [hrd] at h1
        dsimp only at h1
        rw [Option.some.injEq, Prod.mk.injEq] at h1
        rw [← h1.1, List.length_set]
      have hu1 : u < hs1.length := by
        rw [hlen1]
        exact getElem?_lt hgu
      have hmid : hs1[u]? = some hs1[u] := List.getElem?_eq_getElem hu1
      exact Nat.le_trans (notifyOne_rank h1 u hu hs1[u] hgu hmid)
        (ih h2 u hs1[u] hu2 hmid hgu2)

end TaskModel

namespace TaskModel

theorem step_rank_mono {cfg cfg2 : Config} {a : Act} {t : Nat} {h h2 : Handle}
    (hstep : stepFn cfg a = some cfg2)
    (hg : cfg.handles[t]? = some h)
    (hg2 : cfg2.handles[t]? = some h2) :
    h.state.rank ≤ h2.state.rank := by
  cases a with
  | main =>
      simp only [stepFn] at hstep
      unfold stepMain at hstep
      rcases hprogpc : cfg.prog[cfg.pc]? with _ | instr
      · rw [hprogpc] at hstep
        exact Option.noConfusion hstep
      rw [hprogpc] at hstep
      dsimp only at hstep
      cases instr with
      | create call g =>
          dsimp only at hstep
          cases hstep
          rw [getElem?_append_l hg, Option.some.injEq] at hg2
          rw [hg2]
      | addDep t0 p =>
          dsimp only at hstep
          rcases hgt : cfg.handles[t0]? with _ | hd
          · rw [hgt] at hstep
            dsimp only at hstep
            exact Option.noConfusion hstep
          rcases hgp : cfg.handles[p]? with _ | hp
          · rw [hgt, hgp] at hstep
            dsimp only at hstep
            exact Option.noConfusion hstep
          rw [hgt, hgp] at hstep
          dsimp only at hstep
          by_cases htp : t0 = p
          · rw [if_pos htp] at hstep
            exact Option.noConfusion hstep
          rw [if_neg htp] at hstep
          by_cases hdp : hd.state = HState.preparing
          · rw [if_pos hdp] at hstep
            by_cases hpf : hp.state = HState.finished
            · have hadd : hp.addDependent t0 = (hp, false) := by
                unfold Handle.addDependent
                rw [if_pos hpf]
              rw [hadd] at hstep
              dsimp only at hstep
              cases hstep
              by_cases htp2 : t = p
              · subst htp2
                rw [get_set_self hgp, Option.some.injEq] at hg2
                have hh : hp = h := by
                  rw [hgp, Option.some.injEq] at hg
                  exact hg
                rw [← hg2, hh]
              · rw [get_set_other (fun hc => htp2 hc.symm), hg, Option.some.injEq] at hg2
                rw [hg2]
            · have hadd : hp.addDependent t0 =
                  ({ hp with dependents := hp.dependents ++ [t0] }, true) := by
                unfold Handle.addDependent
                rw [if_neg hpf]
              rw [hadd] at hstep
              dsimp only at hstep
              cases hstep
              by_cases htt : t = t0
              · subst htt
                have hmid : (cfg.handles.set p
                    { hp with dependents := hp.dependents ++ [t] })[t]? = some hd := by
                  rw [get_set_other (fun hc => htp hc.symm)]
                  exact hgt
                rw [get_set_self hmid, Option.some.injEq] at hg2
                have hh : hd = h := by
                  rw [hgt, Option.some.injEq] at hg
                  exact hg
                rw [← hg2, ← hh]
              · rw [get_set_other (fun hc => htt hc.symm)] at hg2
                by_cases htp2 : t = p
                · subst htp2
                  rw [get_set_self hgp, Option.some.injEq] at hg2
                  have hh : hp = h := by
                    rw [hgp, Option.some.injEq] at hg
                    exact hg
                  rw [← hg2, ← hh]
                · rw [get_set_other (fun hc => htp2 hc.symm), hg,
                    Option.some.injEq] at hg2
                  rw [hg2]
          · rw [if_neg hdp] at hstep
            exact Option.noConfusion hstep
      | setSubmit t0 =>
          dsimp only at hstep
          rcases hgu : cfg.handles[t0]? with _ | hu
          · rw [hgu] at hstep
            dsimp only at hstep
            exact Option.noConfusion hstep
          rw [hgu] at hstep
          dsimp only at hstep
          rcases hss : hu.setSubmitTask with _ | hu2
          · rw [hss] at hstep
            exact Option.noConfusion hstep
          rw [hss] at hstep
          dsimp only at hstep
          cases hstep
          have hu2e : hu2 = { hu with submitTask := true } := by
            unfold Handle.setSubmitTask at hss
            by_cases hc : hu.state = HState.preparing ∧ hu.submitTask = false
            · rw [if_pos hc, Option.some.injEq] at hss
              exact hss.symm
            · rw [if_neg hc] at hss
              exact Option.noConfusion hss
          by_cases htt : t = t0
          · subst htt
            rw [get_set_self hgu, Option.some.injEq] at hg2
            have hh : hu = h := by
              rw [hgu, Option.some.injEq] at hg
              exact hg
            rw [← hg2, hu2e, ← hh]
          · rw [get_set_other (fun hc => htt hc.symm), hg, Option.some.injEq] at hg2
            rw [hg2]
      | finishPrep t0 =>
          dsimp only at hstep
          rcases hgu : cfg.handles[t0]? with _ | hu
          · rw [hgu] at hstep
            dsimp only at hstep
            exact Option.noConfusion hstep
          rw [hgu] at hstep
          dsimp only at hstep
          by_cases hpre : hu.state = HState.preparing
          · by_cases hz : hu.dependenciesLeft = 0
            · by_cases hst : hu.submitTask = true
              · have hfp : hu.finishPreparation = some (hu.enqueue, true) := by
                  unfold Handle.finishPreparation
                  rw [if_pos hpre, if_pos hz, if_pos hst]
                rw [hfp] at hstep
                dsimp only at hstep
                cases hstep
                by_cases htt : t = t0
                · subst htt
                  rw [get_set_self hgu, Option.some.injEq] at hg2
                  have hh : hu = h := by
                    rw [hgu, Option.some.injEq] at hg
                    exact hg
                  rw [← hg2, ← hh, hpre]
                  exact (by decide : HState.preparing.rank ≤ HState.submitted.rank)
                · rw [get_set_other (fun hc => htt hc.symm), hg,
                    Option.some.injEq] at hg2
                  rw [hg2]
              · have hfp : hu.finishPreparation = none := by
                  unfold Handle.finishPreparation
                  rw [if_pos hpre, if_pos hz, if_neg hst]
                rw [hfp] at hstep
                exact Option.noConfusion hstep
            · have hfp : hu.finishPreparation =
                  some ({ hu with state := HState.waiting }, false) := by
                unfold Handle.finishPreparation
                rw [if_pos hpre, if_neg hz]
              rw [hfp] at hstep
              dsimp only at hstep
              cases hstep
              by_cases htt : t = t0
              · subst htt
                rw [get_set_self hgu, Option.some.injEq] at hg2
                have hh : hu = h := by
                  rw [hgu, Option.some.injEq] at hg
                  exact hg
                rw [← hg2, ← hh, hpre]
                exact (by decide : HState.preparing.rank ≤ HState.waiting.rank)
              · rw [get_set_other (fun hc => htt hc.symm), hg,
                  Option.some.injEq] at hg2
                rw [hg2]
          · have hfp : hu.finishPreparation = none := by
              unfold Handle.finishPreparation
              rw [if_neg hpre]
            rw [hfp] at hstep
            exact Option.noConfusion hstep
      | incActive t0 =>
          dsimp only at hstep
          cases hstep
          rw [hg, Option.some.injEq] at hg2
          rw [hg2]
      | joinTask t0 =>
          dsimp only at hstep
          rcases hc : cfg.cells.getD t0 none with _ | v
          · rw [hc] at hstep
            exact Option.noConfusion hstep
          rw [hc] at hstep
          dsimp only at hstep
          cases hstep
          rw [hg, Option.some.injEq] at hg2
          rw [hg2]
      | joinNested t0 =>
          dsimp only at hstep
          rcases hc1 : cfg.cells.getD t0 none with _ | inner
          · rw [hc1] at hstep
            exact Option.noConfusion hstep
          rw [hc1] at hstep
          dsimp only at hstep
          rcases hc2 : cfg.cells.getD inner none with _ | w
          · rw [hc2] at hstep
            exact Option.noConfusion hstep
          rw [hc2] at hstep
          dsimp only at hstep
          cases hstep
          rw [hg, Option.some.injEq] at hg2
          rw [hg2]
      | groupJoin =>
          dsimp only at hstep
          by_cases ha : cfg.active = 0
          · rw [if_pos ha] at hstep
            cases hstep
            rw [hg, Option.some.injEq] at hg2
            rw [hg2]
          · rw [if_neg ha] at hstep
            exact Option.noConfusion hstep
  | start t0 =>
      simp only [stepFn] at hstep
      by_cases hp : t0 ∈ cfg.pool
      · rw [if_pos hp] at hstep
        cases hstep
        rw [hg, Option.some.injEq] at hg2
        rw [hg2]
      · rw [if_neg hp] at hstep
        exact Option.noConfusion hstep
  | ret t0 =>
      simp only [stepFn] at hstep
      rcases hph : phaseOf cfg.running t0 with _ | ph
      · rw [hph] at hstep
        exact Option.noConfusion hstep
      rw [hph] at hstep
      cases ph
      case returned v => exact Option.noConfusion hstep
      case published => exact Option.noConfusion hstep
      case postPending => exact Option.noConfusion hstep
      case running =>
        dsimp only at hstep
        rcases htr : cfg.tasks[t0]? with _ | trec
        · rw [htr] at hstep
          exact Option.noConfusion hstep
        rw [htr] at hstep
        dsimp only at hstep
        rcases hev : evalCallable trec.call cfg.cells with _ | v
        · rw [hev] at hstep
          exact Option.noConfusion hstep
        rw [hev] at hstep
        dsimp only at hstep
        cases hstep
        rw [hg, Option.some.injEq] at hg2
        rw [hg2]
  | publish t0 =>
      simp only [stepFn] at hstep
      rcases hph : phaseOf cfg.running t0 with _ | ph
      · rw [hph] at hstep
        exact Option.noConfusion hstep
      rw [hph] at hstep
      cases ph
      case running => exact Option.noConfusion hstep
      case published => exact Option.noConfusion hstep
      case postPending => exact Option.noConfusion hstep
      case returned v =>
        dsimp only at hstep
        cases hstep
        rw [hg, Option.some.injEq] at hg2
        rw [hg2]
  | finish t0 =>
      simp only [stepFn] at hstep
      rcases hph : phaseOf cfg.running t0 with _ | ph
      · rw [hph] at hstep
        exact Option.noConfusion hstep
      rw [hph] at hstep
      cases ph
      case running => exact Option.noConfusion hstep
      case returned v => exact Option.noConfusion hstep
      case postPending => exact Option.noConfusion hstep
      case published =>
        dsimp only at hstep
        rcases hgu : cfg.handles[t0]? with _ | hu
        · rw [hgu] at hstep
          exact Option.noConfusion hstep
        rw [hgu] at hstep
        dsimp only at hstep
        by_cases hsub : hu.state = HState.submitted
        · rw [if_pos hsub] at hstep
          rcases hna : notifyAll t0 cfg.handles hu.dependents with _ | trip
          · rw [hna] at hstep
            exact Option.noConfusion hstep
          rcases trip with ⟨hs1, enqs, evs⟩
          rw [hna] at hstep
          dsimp only at hstep
          rcases hselfg : hs1[t0]? with _ | hself
          · rw [hselfg] at hstep
            exact Option.noConfusion hstep
          rw [hselfg] at hstep
          dsimp only at hstep
          cases hstep
          by_cases htt : t = t0
          · subst htt
            rw [get_set_self hselfg, Option.some.injEq] at hg2
            rw [← hg2]
            exact rank_le_three h.state
          · rw [get_set_other (fun hc => htt hc.symm)] at hg2
            exact notifyAll_rank hna t h h2 hg hg2
        · rw [if_neg hsub] at hstep
          exact Option.noConfusion hstep
  | post t0 =>
      simp only [stepFn] at hstep
      rcases hph : phaseOf cfg.running t0 with _ | ph
      · rw [hph] at hstep
        exact Option.noConfusion hstep
      rw [hph] at hstep
      cases ph
      case running => exact Option.noConfusion hstep
      case returned v => exact Option.noConfusion hstep
      case published => exact Option.noConfusion hstep
      case postPending =>
        dsimp only at hstep
        cases hstep
        rw [hg, Option.some.injEq] at hg2
        rw [hg2]

end TaskModel

namespace TaskModel

theorem map_notify_no_lock {ds : List Nat} {k : Nat} :
    ((ds.map LEv.notifyDependent).take k).count LEv.lock = 0 ∧
    ((ds.map LEv.notifyDependent).take k).count LEv.unlock = 0 := by
  constructor <;>
    · rw [List.count_eq_zero]
      intro hc
      have hm := List.take_subset _ _ hc
      rcases List.mem_map.mp hm with ⟨d, _, he⟩
      exact LEv.noConfusion he

theorem finishEvents_held {h : Handle} {n d : Nat}
    (hn : (finishEvents h)[n]? = some (LEv.notifyDependent d)) :
    heldAt (finishEvents h) n := by
  have hcons : finishEvents h =
      LEv.lock :: (h.dependents.map LEv.notifyDependent ++ [LEv.unlock]) := by
    simp [finishEvents]
  have hlt : n < h.dependents.length + 1 + 1 := by
    have := getElem?_lt hn
    rw [hcons] at this
    simpa using this
  have hn0 : n ≠ 0 := by
    intro h0
    subst h0
    rw [hcons, List.getElem?_cons_zero, Option.some.injEq] at hn
    exact LEv.noConfusion hn
  rcases n with _ | n1
  · exact absurd rfl hn0
  have htake : (finishEvents h).take (n1 + 1) =
      LEv.lock :: (h.dependents.map LEv.notifyDependent).take n1 := by
    rw [hcons, List.take_succ_cons, List.take_append_eq_append_take]
    have hz : n1 - (h.dependents.map LEv.notifyDependent).length = 0 := by
      rw [List.length_map]
      omega
    rw [hz, List.take_zero, List.append_nil]
  unfold heldAt locksHeld
  rw [htake, List.count_cons, List.count_cons]
  have hml := @map_notify_no_lock h.dependents n1
  rw [hml.1, hml.2]
  simp

theorem finishPrepEvents_held {h : Handle} {n : Nat}
    (hn : (finishPreparationEvents h)[n]? = some LEv.invokeDispatch) :
    heldAt (finishPreparationEvents h) n := by
  unfold finishPreparationEvents at hn ⊢
  by_cases hz : h.dependenciesLeft = 0
  · rw [if_pos hz] at hn ⊢
    rcases n with _ | _ | _ | n
    · rw [show (([LEv.lock] ++ [LEv.invokeDispatch] ++ [LEv.unlock]) :
        List LEv)[0]? = some LEv.lock from rfl, Option.some.injEq] at hn
      exact LEv.noConfusion hn
    · decide
    · rw [show (([LEv.lock] ++ [LEv.invokeDispatch] ++ [LEv.unlock]) :
        List LEv)[2]? = some LEv.unlock from rfl, Option.some.injEq] at hn
      exact LEv.noConfusion hn
    · rw [show (([LEv.lock] ++ [LEv.invokeDispatch] ++ [LEv.unlock]) :
        List LEv)[n + 3]? = none from by simp] at hn
      exact Option.noConfusion hn
  · rw [if_neg hz] at hn
    rcases n with _ | _ | n
    · rw [show (([LEv.lock] ++ [] ++ [LEv.unlock]) :
        List LEv)[0]? = some LEv.lock from rfl, Option.some.injEq] at hn
      exact LEv.noConfusion hn
    · rw [show (([LEv.lock] ++ [] ++ [LEv.unlock]) :
        List LEv)[1]? = some LEv.unlock from rfl, Option.some.injEq] at hn
      exact LEv.noConfusion hn
    · rw [show (([LEv.lock] ++ [] ++ [LEv.unlock]) :
        List LEv)[n + 2]? = none from by simp] at hn
      exact Option.noConfusion hn

theorem removeDepEvents_held {h : Handle} {n : Nat}
    (hn : (removeDependencyEvents h)[n]? = some LEv.invokeDispatch) :
    heldAt (removeDependencyEvents h) n := by
  unfold removeDependencyEvents at hn ⊢
  by_cases hz : h.dependenciesLeft - 1 = 0 ∧ h.state = HState.waiting
  · rw [if_pos hz] at hn ⊢
    rcases n with _ | _ | _ | n
    · rw [show (([LEv.lock] ++ [LEv.invokeDispatch] ++ [LEv.unlock]) :
        List LEv)[0]? = some LEv.lock from rfl, Option.some.injEq] at hn
      exact LEv.noConfusion hn
    · decide
    · rw [show (([LEv.lock] ++ [LEv.invokeDispatch] ++ [LEv.unlock]) :
        List LEv)[2]? = some LEv.unlock from rfl, Option.some.injEq] at hn
      exact LEv.noConfusion hn
    · rw [show (([LEv.lock] ++ [LEv.invokeDispatch] ++ [LEv.unlock]) :
        List LEv)[n + 3]? = none from by simp] at hn
      exact Option.noConfusion hn
  · rw [if_neg hz] at hn
    rcases n with _ | _ | n
    · rw [show (([LEv.lock] ++ [] ++ [LEv.unlock]) :
        List LEv)[0]? = some LEv.lock from rfl, Option.some.injEq] at hn
      exact LEv.noConfusion hn
    · rw [show (([LEv.lock] ++ [] ++ [LEv.unlock]) :
        List LEv)[1]? = some LEv.unlock from rfl, Option.some.injEq] at hn
      exact LEv.noConfusion hn
    · rw [show (([LEv.lock] ++ [] ++ [LEv.unlock]) :
        List LEv)[n + 2]? = none from by simp] at hn
      exact Option.noConfusion hn

end TaskModel

namespace TaskModel

/-- C1: for every task `p` and every dependent `d` that was successfully
registered on `p` (`add_dependent` returned true, recorded as
`edgeAdded p d`), the callable of `p` has returned before the callable of
`d` starts: in every reachable configuration, every `start d` position of
the trace is preceded by a `ret p` position. -/
theorem C1_completion_happens_before_start {prog : List MInstr} {cfg : Config}
    {pos p d : Nat}
    (hreach : Reach prog cfg)
    (hstart : cfg.trace[pos]? = some (Ev.start d))
    (hedge : Ev.edgeAdded p d ∈ cfg.trace) :
    ∃ m : Nat, m < pos ∧ cfg.trace[m]? = some (Ev.ret p) :=
  ((reach_inv hreach).startOrd pos p d hstart hedge).1

theorem C1_witness :
    diamondRunCfg.trace[33]? = some (Ev.start 2) ∧
    Ev.edgeAdded 0 2 ∈ diamondRunCfg.trace ∧
    ∃ m : Nat, m < 33 ∧ diamondRunCfg.trace[m]? = some (Ev.ret 0) :=
  ⟨by decide, by decide,
    @C1_completion_happens_before_start diamondProg diamondRunCfg 33 0 2
      ⟨diamondActs, by decide⟩ (by decide) (by decide)⟩

/-- C2 (counterexample): the code has no `nested_handle`; `get_handle()`
returns the wrapper's own handle, so a dependency on a nested
`task<task<U>>` wrapper waits only for the outer callable.  In the nested
scenario the dependent task 2 has started while the inner task 0 never ran
(its callable never returned and its cell is unpublished). -/
theorem C2_counterexample :
    (∀ r : BasicTaskRec, r.getHandle = r.handle) ∧
    (exec (initConfig nestedProg) nestedActs = some nestedRunCfg ∧
      Ev.edgeAdded 1 2 ∈ nestedRunCfg.trace ∧
      Ev.start 2 ∈ nestedRunCfg.trace ∧
      Ev.ret 0 ∉ nestedRunCfg.trace ∧
      taskGetValue nestedRunCfg 0 = none) :=
  ⟨fun _ => rfl, by decide, by decide, by decide, by decide, by decide⟩

/-- C2 (amended): the dependency edge is registered against the handle
returned by `get_handle()`, which is the wrapper's own handle (there is no
separate nested handle), so the dependent is dispatched once the outer
callable that produced the inner task has returned — not the inner task. -/
theorem C2_dependent_waits_on_wrapper {prog : List MInstr} {cfg : Config}
    {pos p d : Nat}
    (hreach : Reach prog cfg)
    (hstart : cfg.trace[pos]? = some (Ev.start d))
    (hedge : Ev.edgeAdded p d ∈ cfg.trace) :
    (∀ r : BasicTaskRec, r.getHandle = r.handle) ∧
    ∃ m : Nat, m < pos ∧ cfg.trace[m]? = some (Ev.ret p) :=
  ⟨fun _ => rfl, ((reach_inv hreach).startOrd pos p d hstart hedge).1⟩

theorem C2_witness :
    nestedRunCfg.trace[15]? = some (Ev.start 2) ∧
    Ev.edgeAdded 1 2 ∈ nestedRunCfg.trace ∧
    ((∀ r : BasicTaskRec, r.getHandle = r.handle) ∧
      ∃ m : Nat, m < 15 ∧ nestedRunCfg.trace[m]? = some (Ev.ret 1)) :=
  ⟨by decide, by decide,
    @C2_dependent_waits_on_wrapper nestedProg nestedRunCfg 15 1 2
      ⟨nestedActs, by decide⟩ (by decide) (by decide)⟩

/-- C3 (counterexample): `finish_preparation` invokes the dispatch action
and `finish()` invokes each dependent notification while the handle mutex
is still held: in the source-order event lists of both methods the
`invokeDispatch` / `notifyDependent` events occur at positions where the
lock counter is positive, contradicting the specified outside-the-lock
discipline. -/
theorem C3_counterexample :
    finishPreparationEvents Handle.init =
      [LEv.lock, LEv.invokeDispatch, LEv.unlock] ∧
    (finishPreparationEvents Handle.init)[1]? = some LEv.invokeDispatch ∧
    heldAt (finishPreparationEvents Handle.init) 1 ∧
    finishEvents ⟨HState.submitted, 0, false, [2]⟩ =
      [LEv.lock, LEv.notifyDependent 2, LEv.unlock] ∧
    (finishEvents ⟨HState.submitted, 0, false, [2]⟩)[1]? =
      some (LEv.notifyDependent 2) ∧
    heldAt (finishEvents ⟨HState.submitted, 0, false, [2]⟩) 1 :=
  ⟨by decide, by decide, by decide, by decide, by decide, by decide⟩

/-- C3 (amended): in the code every dispatch invocation of
`finish_preparation` and `remove_dependency`, and every dependent
notification of `finish()`, runs **while the handle mutex is held** — the
lock guard spans the whole method body. -/
theorem C3_dispatch_under_lock {h : Handle} {n : Nat} :
    ((finishPreparationEvents h)[n]? = some LEv.invokeDispatch →
      heldAt (finishPreparationEvents h) n) ∧
    ((removeDependencyEvents h)[n]? = some LEv.invokeDispatch →
      heldAt (removeDependencyEvents h) n) ∧
    (∀ d : Nat, (finishEvents h)[n]? = some (LEv.notifyDependent d) →
      heldAt (finishEvents h) n) :=
  ⟨fun hn => finishPrepEvents_held hn,
   fun hn => removeDepEvents_held hn,
   fun _ hn => finishEvents_held hn⟩

theorem C3_witness :
    ((finishPreparationEvents Handle.init)[1]? = some LEv.invokeDispatch →
      heldAt (finishPreparationEvents Handle.init) 1) ∧
    ((removeDependencyEvents Handle.init)[1]? = some LEv.invokeDispatch →
      heldAt (removeDependencyEvents Handle.init) 1) ∧
    (∀ d : Nat, (finishEvents Handle.init)[1]? = some (LEv.notifyDependent d) →
      heldAt (finishEvents Handle.init) 1) :=
  C3_dispatch_under_lock

/-- C4: a finishing task publishes its result into the completion cell
before `finish()` and its notification fan-out run: in every reachable
configuration `publish t` precedes `finished t`, `publish p` precedes
every `notified p d`, and every dependent start is preceded by the publish
of each registered prerequisite, so a dependent reading a prerequisite
value observes the published value. -/
theorem C4_publish_before_notification {prog : List MInstr} {cfg : Config}
    (hreach : Reach prog cfg) :
    (∀ t : Nat, OrdIn cfg.trace (Ev.publish t) (Ev.finished t)) ∧
    (∀ p d : Nat, OrdIn cfg.trace (Ev.publish p) (Ev.notified p d)) ∧
    (∀ (pos p d : Nat), cfg.trace[pos]? = some (Ev.start d) →
      Ev.edgeAdded p d ∈ cfg.trace →
      ∃ m : Nat, m < pos ∧ cfg.trace[m]? = some (Ev.publish p)) :=
  ⟨(reach_inv hreach).ordFinPub, (reach_inv hreach).ordNotPub,
   fun pos p d hs he => ((reach_inv hreach).startOrd pos p d hs he).2⟩

theorem C4_witness :
    diamondRunCfg.trace[33]? = some (Ev.start 2) ∧
    Ev.edgeAdded 0 2 ∈ diamondRunCfg.trace ∧
    ∃ m : Nat, m < 33 ∧ diamondRunCfg.trace[m]? = some (Ev.publish 0) :=
  ⟨by decide, by decide,
    (@C4_publish_before_notification diamondProg diamondRunCfg
      ⟨diamondActs, by decide⟩).2.2 33 0 2 (by decide) (by decide)⟩

end TaskModel

namespace TaskModel

/-- C5: registering a dependent on an already FINISHED prerequisite makes
`add_dependent` return false without touching the prerequisite, the
dependent handle (and so its remaining count) is left unchanged by the
whole `add_dependency` step, and the dependent task of the
already-finished-prerequisite scenario still runs and produces its
result. -/
theorem C5_finished_prerequisite {cfg : Config} {t p : Nat} {hd hp : Handle}
    (hprog : cfg.prog[cfg.pc]? = some (MInstr.addDep t p))
    (hgt : cfg.handles[t]? = some hd)
    (hgp : cfg.handles[p]? = some hp)
    (htp : ¬ t = p)
    (hdp : hd.state = HState.preparing)
    (hpf : hp.state = HState.finished) :
    hp.addDependent t = (hp, false) ∧
    stepMain cfg = some { cfg with
      pc := cfg.pc + 1,
      handles := cfg.handles.set p hp,
      trace := cfg.trace ++ [Ev.edgeRejected p t] } ∧
    (cfg.handles.set p hp)[t]? = some hd ∧
    (exec (initConfig finishedProg) finishedPrereqActs = some finishedRunCfg ∧
      Ev.edgeRejected 0 1 ∈ finishedRunCfg.trace ∧
      taskGetValue finishedRunCfg 1 = some 9) := by
  have hadd : hp.addDependent t = (hp, false) := by
    unfold Handle.addDependent
    rw [if_pos hpf]
  refine ⟨hadd, ?_, ?_, by decide, by decide, by decide⟩
  · unfold stepMain
    rw [hprog]
    dsimp only
    rw [hgt, hgp]
    dsimp only
    rw [if_neg htp, if_pos hdp, hadd]
  · rw [get_set_other (fun hc => htp hc.symm)]
    exact hgt

theorem C5_witness :
    (⟨HState.finished, 0, false, []⟩ : Handle).addDependent 1 =
      (⟨HState.finished, 0, false, []⟩, false) ∧
    stepMain finishedMidCfg = some { finishedMidCfg with
      pc := finishedMidCfg.pc + 1,
      handles := finishedMidCfg.handles.set 0 ⟨HState.finished, 0, false, []⟩,
      trace := finishedMidCfg.trace ++ [Ev.edgeRejected 0 1] } ∧
    (finishedMidCfg.handles.set 0 ⟨HState.finished, 0, false, []⟩)[1]? =
      some ⟨HState.preparing, 0, false, []⟩ ∧
    (exec (initConfig finishedProg) finishedPrereqActs = some finishedRunCfg ∧
      Ev.edgeRejected 0 1 ∈ finishedRunCfg.trace ∧
      taskGetValue finishedRunCfg 1 = some 9) :=
  @C5_finished_prerequisite finishedMidCfg 1 0 ⟨HState.preparing, 0, false, []⟩
    ⟨HState.finished, 0, false, []⟩ (by decide) (by decide) (by decide)
    (by decide) (by decide) (by decide)

/-- C6: handle states move monotonically along PREPARING, optionally
WAITING, SUBMITTED, FINISHED at every step of the system;
`finish_preparation` dispatches when no dependencies are left and
otherwise moves to WAITING; `remove_dependency` decrements the count and
dispatches exactly when it reaches zero in state WAITING, while reaching
zero in state PREPARING only stores the decremented count. -/
theorem C6_monotone_state_machine {cfg cfg2 : Config} {a : Act} {t : Nat}
    {h h2 : Handle} {hh : Handle}
    (hstep : stepFn cfg a = some cfg2)
    (hg : cfg.handles[t]? = some h)
    (hg2 : cfg2.handles[t]? = some h2) :
    h.state.rank ≤ h2.state.rank ∧
    (hh.state = HState.preparing → hh.dependenciesLeft = 0 → hh.submitTask = true →
      hh.finishPreparation = some (hh.enqueue, true) ∧
      hh.enqueue.state = HState.submitted) ∧
    (hh.state = HState.preparing → hh.dependenciesLeft ≠ 0 →
      hh.finishPreparation = some ({ hh with state := HState.waiting }, false)) ∧
    (hh.dependenciesLeft = 1 → hh.state = HState.waiting → hh.submitTask = true →
      hh.removeDependency =
        some (Handle.enqueue { hh with dependenciesLeft := 0 }, true)) ∧
    (hh.dependenciesLeft = 1 → hh.state = HState.preparing →
      hh.removeDependency = some ({ hh with dependenciesLeft := 0 }, false)) ∧
    (hh.dependenciesLeft - 1 ≠ 0 →
      hh.removeDependency =
        some ({ hh with dependenciesLeft := hh.dependenciesLeft - 1 }, false)) := by
  refine ⟨step_rank_mono hstep hg hg2, ?_, ?_, ?_, ?_, ?_⟩
  · intro h1 hz h3
    constructor
    · unfold Handle.finishPreparation
      rw [if_pos h1, if_pos hz, if_pos h3]
    · rfl
  · intro h1 hz
    unfold Handle.finishPreparation
    rw [if_pos h1, if_neg hz]
  · intro h1 hw h3
    unfold Handle.removeDependency
    dsimp only
    rw [h1]
    rw [if_pos rfl]
    rw [if_neg (by rw [hw]; exact fun hc => HState.noConfusion hc), if_pos hw,
      if_pos h3]
  · intro h1 hpre
    unfold Handle.removeDependency
    dsimp only
    rw [h1]
    rw [if_pos rfl, if_pos hpre]
  · intro hnz
    unfold Handle.removeDependency
    dsimp only
    rw [if_neg hnz]

theorem C6_witness :
    (⟨HState.finished, 0, false, []⟩ : Handle).state.rank ≤
      (⟨HState.finished, 0, false, []⟩ : Handle).state.rank ∧
    ((⟨HState.waiting, 1, true, []⟩ : Handle).state = HState.preparing →
      (⟨HState.waiting, 1, true, []⟩ : Handle).dependenciesLeft = 0 →
      (⟨HState.waiting, 1, true, []⟩ : Handle).submitTask = true →
      (⟨HState.waiting, 1, true, []⟩ : Handle).finishPreparation =
        some ((⟨HState.waiting, 1, true, []⟩ : Handle).enqueue, true) ∧
      (⟨HState.waiting, 1, true, []⟩ : Handle).enqueue.state = HState.submitted) ∧
    ((⟨HState.waiting, 1, true, []⟩ : Handle).state = HState.preparing →
      (⟨HState.waiting, 1, true, []⟩ : Handle).dependenciesLeft ≠ 0 →
      (⟨HState.waiting, 1, true, []⟩ : Handle).finishPreparation =
        some ({ (⟨HState.waiting, 1, true, []⟩ : Handle) with
          state := HState.waiting }, false)) ∧
    ((⟨HState.waiting, 1, true, []⟩ : Handle).dependenciesLeft = 1 →
      (⟨HState.waiting, 1, true, []⟩ : Handle).state = HState.waiting →
      (⟨HState.waiting, 1, true, []⟩ : Handle).submitTask = true →
      (⟨HState.waiting, 1, true, []⟩ : Handle).removeDependency =
        some (Handle.enqueue { (⟨HState.waiting, 1, true, []⟩ : Handle) with
          dependenciesLeft := 0 }, true)) ∧
    ((⟨HState.waiting, 1, true, []⟩ : Handle).dependenciesLeft = 1 →
      (⟨HState.waiting, 1, true, []⟩ : Handle).state = HState.preparing →
      (⟨HState.waiting, 1, true, []⟩ : Handle).removeDependency =
        some ({ (⟨HState.waiting, 1, true, []⟩ : Handle) with
          dependenciesLeft := 0 }, false)) ∧
    ((⟨HState.waiting, 1, true, []⟩ : Handle).dependenciesLeft - 1 ≠ 0 →
      (⟨HState.waiting, 1, true, []⟩ : Handle).removeDependency =
        some ({ (⟨HState.waiting, 1, true, []⟩ : Handle) with
          dependenciesLeft :=
            (⟨HState.waiting, 1, true, []⟩ : Handle).dependenciesLeft - 1 },
          false)) :=
  @C6_monotone_state_machine finishedMidCfg finishedMid2Cfg Act.main 0
    ⟨HState.finished, 0, false, []⟩ ⟨HState.finished, 0, false, []⟩
    ⟨HState.waiting, 1, true, []⟩ (by decide) (by decide) (by decide)

/-- C10: `join()` on a nested `task<task<U>>` wrapper returns only after
the inner task has completed: every `joinedNested t` position of a
reachable trace has the outer cell published with the inner task id, and
an earlier position where the inner task's callable returned. -/
theorem C10_nested_join_waits_for_inner {prog : List MInstr} {cfg : Config}
    {pos t : Nat}
    (hreach : Reach prog cfg)
    (hjoin : cfg.trace[pos]? = some (Ev.joinedNested t)) :
    ∃ inner : Nat, cfg.cells.getD t none = some inner ∧
      ∃ m : Nat, m < pos ∧ cfg.trace[m]? = some (Ev.ret inner) :=
  (reach_inv hreach).nestOrd pos t hjoin

theorem C10_witness :
    nestedJoinRunCfg.trace[14]? = some (Ev.joinedNested 1) ∧
    ∃ inner : Nat, nestedJoinRunCfg.cells.getD 1 none = some inner ∧
      ∃ m : Nat, m < 14 ∧ nestedJoinRunCfg.trace[m]? = some (Ev.ret inner) :=
  ⟨by decide,
    @C10_nested_join_waits_for_inner nestedJoinProg nestedJoinRunCfg 14 1
      ⟨nestedJoinActs, by decide⟩ (by decide)⟩

end TaskModel

namespace TaskModel

/-- C7: in the compiled `task_group::submit` block the `++active`
instruction comes strictly before `set_submit_task` and
`finish_preparation` (so before the dispatch closure can fire); as a
consequence, in every reachable configuration of a compiled driver program
every decrement is preceded by its matching increment and the decrement
count never exceeds the increment count — the counter cannot go
negative. -/
theorem C7_increment_before_dispatch {subs : List Submission} {cfg : Config}
    {deps : List Nat} {call : Callable} {k : Nat}
    (hreach : Reach (compileProg subs 0) cfg) :
    ((submissionInstrs (Submission.group deps call) k)[deps.length + 1]? =
        some (MInstr.incActive k) ∧
      (submissionInstrs (Submission.group deps call) k)[deps.length + 2]? =
        some (MInstr.setSubmit k) ∧
      (submissionInstrs (Submission.group deps call) k)[deps.length + 3]? =
        some (MInstr.finishPrep k)) ∧
    (∀ t : Nat, OrdIn cfg.trace (Ev.inc t) (Ev.dec t)) ∧
    (∀ t : Nat, cfg.trace.count (Ev.dec t) ≤ cfg.trace.count (Ev.inc t)) := by
  have hG := reach_ginv hreach
  refine ⟨⟨?_, ?_, ?_⟩, hG.ordDecInc, hG.decLeInc⟩
  · simp only [submissionInstrs]
    rw [List.getElem?_append_right (by simp)]
    have hidx : deps.length + 1 -
        ([MInstr.create call true] ++
          deps.map (fun p => MInstr.addDep k p)).length = 0 := by
      simp
    rw [hidx]
    rfl
  · simp only [submissionInstrs]
    rw [List.getElem?_append_right (by simp)]
    have hidx : deps.length + 2 -
        ([MInstr.create call true] ++
          deps.map (fun p => MInstr.addDep k p)).length = 1 := by
      simp
    rw [hidx]
    rfl
  · simp only [submissionInstrs]
    rw [List.getElem?_append_right (by simp)]
    have hidx : deps.length + 3 -
        ([MInstr.create call true] ++
          deps.map (fun p => MInstr.addDep k p)).length = 2 := by
      simp
    rw [hidx]
    rfl

theorem C7_witness :
    ((submissionInstrs (Submission.group [0] (Callable.addOf 0 0)) 1)[2]? =
        some (MInstr.incActive 1) ∧
      (submissionInstrs (Submission.group [0] (Callable.addOf 0 0)) 1)[3]? =
        some (MInstr.setSubmit 1) ∧
      (submissionInstrs (Submission.group [0] (Callable.addOf 0 0)) 1)[4]? =
        some (MInstr.finishPrep 1)) ∧
    groupRunCfg.trace.count (Ev.dec 1) ≤ groupRunCfg.trace.count (Ev.inc 1) ∧
    Ev.inc 1 ∈ groupRunCfg.trace ∧ Ev.dec 1 ∈ groupRunCfg.trace :=
  ⟨(@C7_increment_before_dispatch groupSubs groupRunCfg [0] (Callable.addOf 0 0) 1
      ⟨groupActs, by decide⟩).1,
   (@C7_increment_before_dispatch groupSubs groupRunCfg [0] (Callable.addOf 0 0) 1
      ⟨groupActs, by decide⟩).2.2 1,
   by decide, by decide⟩

/-- C8: `task_group::join` (the `groupJoin` instruction) can step only
when the active counter is zero; at every `gjoin` position of a reachable
trace every increment seen so far has a matching decrement (every task
submitted through the group has run its post action); the destructor body
is exactly `join()`; and when the counter is already zero a further
`join()` returns immediately, only advancing the program counter — join is
idempotent. -/
theorem C8_group_join_zero {subs : List Submission} {cfg cfg2 : Config}
    (hreach : Reach (compileProg subs 0) cfg) :
    (cfg.prog[cfg.pc]? = some MInstr.groupJoin → stepMain cfg = some cfg2 →
      cfg.active = 0) ∧
    (∀ pos : Nat, cfg.trace[pos]? = some Ev.gjoin →
      ∀ u : Nat, Ev.inc u ∈ cfg.trace.take pos → Ev.dec u ∈ cfg.trace.take pos) ∧
    taskGroupDestructorInstr = MInstr.groupJoin ∧
    (cfg.active = 0 → cfg.prog[cfg.pc]? = some MInstr.groupJoin →
      stepMain cfg = some { cfg with
        pc := cfg.pc + 1,
        trace := cfg.trace ++ [Ev.gjoin] }) := by
  have hG := reach_ginv hreach
  refine ⟨?_, hG.gjoinOrd, rfl, ?_⟩
  · intro hpc hstep
    unfold stepMain at hstep
    rw [hpc] at hstep
    dsimp only at hstep
    by_cases ha : cfg.active = 0
    · exact ha
    · rw [if_neg ha] at hstep
      exact Option.noConfusion hstep
  · intro ha hpc
    unfold stepMain
    rw [hpc]
    dsimp only
    rw [if_pos ha]

theorem C8_witness :
    taskGroupDestructorInstr = MInstr.groupJoin ∧
    groupRunCfg.trace[20]? = some Ev.gjoin ∧
    Ev.inc 0 ∈ groupRunCfg.trace.take 20 ∧
    Ev.dec 0 ∈ groupRunCfg.trace.take 20 ∧
    groupRunCfg.active = 0 ∧
    groupRunCfg.trace.count Ev.gjoin = 2 :=
  ⟨(@C8_group_join_zero groupSubs groupRunCfg groupRunCfg
      ⟨groupActs, by decide⟩).2.2.1,
   by decide, by decide,
   (@C8_group_join_zero groupSubs groupRunCfg groupRunCfg
      ⟨groupActs, by decide⟩).2.1 20 (by decide) 0 (by decide),
   by decide, by decide⟩

end TaskModel

namespace TaskModel

/-- C9: in the diamond scenario — `a = 7`, `b = 22`, `c = a + b` after
both, `d = 13`, `e = c + d` after both — any published value of `e`
(task 4) in any reachable configuration equals 42, and the given complete
schedule does publish 42 for `e`. -/
theorem C9_diamond_forty_two {cfg : Config} {v : Nat}
    (hreach : Reach diamondProg cfg)
    (hval : taskGetValue cfg 4 = some v) :
    v = 42 ∧
    (exec (initConfig diamondProg) diamondActs = some diamondRunCfg ∧
      taskGetValue diamondRunCfg 4 = some 42) := by
  refine ⟨?_, by decide, by decide⟩
  have hInv := reach_inv hreach
  have hprog : cfg.prog = diamondProg := reach_prog hreach
  unfold taskGetValue at hval
  have htasks : ∀ (t : Nat) (r : TaskRec), cfg.tasks[t]? = some r →
      (createsOf diamondProg)[t]? = some r := by
    intro t r ht
    have h1 : (createsOf (cfg.prog.take cfg.pc))[t]? = some r := by
      rw [← hInv.tasksLink]
      exact ht
    have h2 := isPre_getElem? createsOf_take_pre h1
    rw [hprog] at h2
    exact h2
  have hlen4 : 4 < cfg.cells.length := by
    by_contra hc
    push_neg at hc
    rw [List.getD_eq_getElem?_getD, List.getElem?_eq_none hc] at hval
    exact Option.noConfusion hval
  have hlent : cfg.tasks.length = cfg.cells.length := by
    have h1 := hInv.lenTasks
    have h2 := hInv.lenCells
    omega
  have htget : ∀ t : Nat, t < 5 → ∀ r : TaskRec,
      (createsOf diamondProg)[t]? = some r → cfg.tasks[t]? = some r := by
    intro t htl r hco
    have htn : t < cfg.tasks.length := by omega
    have := htasks t cfg.tasks[t] (List.getElem?_eq_getElem htn)
    rw [hco, Option.some.injEq] at this
    rw [List.getElem?_eq_getElem htn, ← this]
  have ht4 : cfg.tasks[4]? = some ⟨Callable.addOf 2 3, false⟩ :=
    htget 4 (by omega) _ (by decide)
  have ht3 : cfg.tasks[3]? = some ⟨Callable.const 13, false⟩ :=
    htget 3 (by omega) _ (by decide)
  have ht2 : cfg.tasks[2]? = some ⟨Callable.addOf 0 1, false⟩ :=
    htget 2 (by omega) _ (by decide)
  have ht1 : cfg.tasks[1]? = some ⟨Callable.const 22, false⟩ :=
    htget 1 (by omega) _ (by decide)
  have ht0 : cfg.tasks[0]? = some ⟨Callable.const 7, false⟩ :=
    htget 0 (by omega) _ (by decide)
  have he4 := hInv.valInv 4 v ⟨Callable.addOf 2 3, false⟩ ht4 (Or.inr hval)
  simp only [evalCallable] at he4
  rcases hc2 : cfg.cells.getD 2 none with _ | a
  · rw [hc2] at he4
    exact Option.noConfusion he4
  rcases hc3 : cfg.cells.getD 3 none with _ | b
  · rw [hc2, hc3] at he4
    exact Option.noConfusion he4
  rw [hc2, hc3] at he4
  dsimp only at he4
  rw [Option.some.injEq] at he4
  have he2 := hInv.valInv 2 a ⟨Callable.addOf 0 1, false⟩ ht2 (Or.inr hc2)
  simp only [evalCallable] at he2
  rcases hc0 : cfg.cells.getD 0 none with _ | c0
  · rw [hc0] at he2
    exact Option.noConfusion he2
  rcases hc1 : cfg.cells.getD 1 none with _ | c1
  · rw [hc0, hc1] at he2
    exact Option.noConfusion he2
  rw [hc0, hc1] at he2
  dsimp only at he2
  rw [Option.some.injEq] at he2
  have he0 := hInv.valInv 0 c0 ⟨Callable.const 7, false⟩ ht0 (Or.inr hc0)
  simp only [evalCallable] at he0
  rw [Option.some.injEq] at he0
  have he1 := hInv.valInv 1 c1 ⟨Callable.const 22, false⟩ ht1 (Or.inr hc1)
  simp only [evalCallable] at he1
  rw [Option.some.injEq] at he1
  have he3 := hInv.valInv 3 b ⟨Callable.const 13, false⟩ ht3 (Or.inr hc3)
  simp only [evalCallable] at he3
  rw [Option.some.injEq] at he3
  omega

theorem C9_witness :
    taskGetValue diamondRunCfg 4 = some 42 ∧ (42 : Nat) = 42 :=
  ⟨by decide,
    (@C9_diamond_forty_two diamondRunCfg 42 ⟨diamondActs, by decide⟩ (by decide)).1⟩

end TaskModel
